import Mathlib

/-!
# Dynamic memory manager (`lab-3-memory-lab-master/memmgr.c`)

A shallow embedding of the implicit-free-list allocator and a verification of its
structural invariants.

Conventions of the embedding:

* The heap is byte-addressed memory `Mem := Nat → Nat`; a heap word (`TYPE`, eight bytes) is
  read and written little-endian by `GET` / `PUT`.
* `size_t` / `TYPE` arithmetic is taken modulo `2 ^ 64` wherever the C code computes on
  unsigned words.  Pointer arithmetic on `void*` is arithmetic on natural numbers; a pointer
  that would leave the address space is outside the model (it is undefined behaviour in C).
* `NULL` is the address `0`.
* Loops (`do … while`, `while`) and the grow-and-retry recursion of `mm_malloc` take a step
  budget;
  `Res.nofuel` reports an exhausted budget and `Res.panic` a call of `PANIC` (process exit).
* `assert(mm_initialized)` and `assert(GET_STATUS(block) == FREE)` are preconditions of the
  C functions; states are produced by `mm_init`, which sets the flag.  `mm_check`, which is
  meant for arbitrary (possibly corrupted) heaps, tests the flag explicitly and steps its
  pointers modulo `2 ^ 64`.
* Logging (`LOG`, `mm_setloglevel`) has no effect on the heap and is not modelled.
-/

namespace MemMgr

/-! ## Constants and the boundary-tag codec (lines 72-107) -/

def TYPE_SIZE : Nat := 8

def ALLOC : Nat := 1

def FREE : Nat := 0

def STATUS_MASK : Nat := 7

/-- The complement of `STATUS_MASK` in a 64-bit word. -/
def SIZE_MASK : Nat := 2 ^ 64 - 1 - 7

def CHUNKSIZE : Nat := 1 * 2 ^ 12

def BS : Nat := 32

def NULL : Nat := 0

/-- The modulus of `unsigned long` / `size_t` arithmetic. -/
def WORD_MOD : Nat := 2 ^ 64

/-- The macro `ROUND_UP(w)`, `((w)+BS-1)/BS*BS` on `size_t`. -/
def ROUND_UP (w : Nat) : Nat := (w + BS - 1) % WORD_MOD / BS * BS

/-- The macro `ROUND_DOWN(w)`, `(w)/BS*BS`. -/
def ROUND_DOWN (w : Nat) : Nat := w / BS * BS

def PACK (size status : Nat) : Nat := size ||| status

def SIZE (v : Nat) : Nat := v &&& SIZE_MASK

def STATUS (v : Nat) : Nat := v &&& STATUS_MASK

/-- Byte-addressed memory. -/
abbrev Mem := Nat → Nat

/-- The macro `GET(p)`: the little-endian 64-bit word stored in the eight bytes at `p`. -/
def GET (m : Mem) (p : Nat) : Nat :=
  m p % 256 + (m (p + 1) % 256) * 256 ^ 1 + (m (p + 2) % 256) * 256 ^ 2
    + (m (p + 3) % 256) * 256 ^ 3 + (m (p + 4) % 256) * 256 ^ 4 + (m (p + 5) % 256) * 256 ^ 5
    + (m (p + 6) % 256) * 256 ^ 6 + (m (p + 7) % 256) * 256 ^ 7

/-- The macro `PUT(p, v)`: store the word `v` in the eight bytes at `p`. -/
def PUT (m : Mem) (p v : Nat) : Mem :=
  fun a => if p ≤ a ∧ a < p + 8 then v / 256 ^ (a - p) % 256 else m a

/-- The libc `memset(p, c, n)`. -/
def memset (m : Mem) (p c n : Nat) : Mem :=
  fun a => if p ≤ a ∧ a < p + n then c % 256 else m a

def GET_SIZE (m : Mem) (p : Nat) : Nat := SIZE (GET m p)

def GET_STATUS (m : Mem) (p : Nat) : Nat := STATUS (GET m p)

def PREV_PTR (p : Nat) : Nat := p - TYPE_SIZE

def HDR2FTR (m : Mem) (p : Nat) : Nat := p + GET_SIZE m p - TYPE_SIZE

def NEXT_BLOCK (m : Mem) (p : Nat) : Nat := p + GET_SIZE m p

def PREV_BLOCK (m : Mem) (p : Nat) : Nat := p - GET_SIZE m (p - TYPE_SIZE)

/-! ## The data segment provider and the allocator state -/


/-- Outcome of an operation: a value, a `PANIC` (the process exits), or an exhausted step
budget of the embedding. -/
inductive Res (α : Type) where
  | ok : α → Res α
  | panic : Res α
  | nofuel : Res α

/-- Modelled from the spec: the `dataseg` module (its source is not part of the repository
files at hand).  The provider reports its start, its current break and its page size, and
`grow(byIncrement)` answers `new_end | failure`; `limit` is the largest break it grants. -/
structure DataSeg where
  start : Nat
  brk : Nat
  limit : Nat
  pagesize : Nat

/-- Modelled from the spec: `ds_sbrk(incr)` moves the break by `incr` and returns the old
break, or fails (`(void*)-1`, here `none`) when the provider cannot grant the growth. -/
def ds_sbrk (d : DataSeg) (incr : Nat) : Option (Nat × DataSeg) :=
  if d.brk + incr ≤ d.limit then some (d.brk, { d with brk := d.brk + incr }) else none

/-- The argument of `mm_init`; `ap_other` stands for any value outside the three
enumerators. -/
inductive AllocationPolicy where
  | ap_FirstFit : AllocationPolicy
  | ap_NextFit : AllocationPolicy
  | ap_BestFit : AllocationPolicy
  | ap_other : Nat → AllocationPolicy
deriving DecidableEq

/-- The static variables of `memmgr.c` (lines 60-69) together with the heap memory and the
provider. `get_block` records which of the three search functions the pointer refers to. -/
structure State where
  ds : DataSeg
  mem : Mem
  ds_heap_start : Nat
  ds_heap_brk : Nat
  heap_start : Nat
  heap_end : Nat
  PAGESIZE : Nat
  mm_initialized : Nat
  nextfit_start : Nat
  get_block : AllocationPolicy

/-! ## Fit policies (lines 158-277) -/


/-- The `do … while` loop shared verbatim by `ff_get_free_block` (lines 256-272) and
`nf_get_free_block` (lines 170-186): `some block` is the `return block` inside the loop,
`none` the fall-through to `return NULL`. -/
def scan_loop (m : Mem) (size : Nat) : Nat → Nat → Res (Option Nat)
  | 0, _ => Res.nofuel
  | fuel + 1, block =>
    let bstatus := GET_STATUS m block
    let bsize := GET_SIZE m block
    if bstatus = FREE ∧ bsize ≥ size then Res.ok (some block)
    else if GET_SIZE m (block + bsize) > 0 then scan_loop m size fuel (block + bsize)
    else Res.ok none

def ff_get_free_block (fuel : Nat) (st : State) (size : Nat) : Res (State × Nat) :=
  match scan_loop st.mem size fuel st.heap_start with
  | Res.ok (some block) => Res.ok ({ st with nextfit_start := block }, block)
  | Res.ok none => Res.ok (st, NULL)
  | Res.panic => Res.panic
  | Res.nofuel => Res.nofuel

def nf_get_free_block (fuel : Nat) (st : State) (size : Nat) : Res (State × Nat) :=
  let block := if st.nextfit_start = NULL then st.heap_start else st.nextfit_start
  match scan_loop st.mem size fuel block with
  | Res.ok (some block) => Res.ok ({ st with nextfit_start := block }, block)
  | Res.ok none => Res.ok (st, NULL)
  | Res.panic => Res.panic
  | Res.nofuel => Res.nofuel

/-- The loop of `bf_get_free_block` (lines 207-231); the result is `best_block`. -/
def bf_loop (m : Mem) (size : Nat) : Nat → Nat → Nat → Nat → Res Nat
  | 0, _, _, _ => Res.nofuel
  | fuel + 1, block, best_block, best_size =>
    let bstatus := GET_STATUS m block
    let bsize := GET_SIZE m block
    let take := bstatus = FREE ∧ bsize ≥ size ∧ (best_block = NULL ∨ bsize < best_size)
    let best_block1 := if take then block else best_block
    let best_size1 := if take then bsize else best_size
    if GET_SIZE m (block + bsize) > 0 then
      bf_loop m size fuel (block + bsize) best_block1 best_size1
    else Res.ok best_block1

def bf_get_free_block (fuel : Nat) (st : State) (size : Nat) : Res (State × Nat) :=
  match bf_loop st.mem size fuel st.heap_start NULL 0 with
  | Res.ok best_block =>
    if best_block = NULL then Res.ok (st, NULL)
    else Res.ok ({ st with nextfit_start := best_block }, best_block)
  | Res.panic => Res.panic
  | Res.nofuel => Res.nofuel

/-- The call through the function pointer `get_block`. -/
def call_get_block (fuel : Nat) (st : State) (size : Nat) : Res (State × Nat) :=
  match st.get_block with
  | AllocationPolicy.ap_FirstFit => ff_get_free_block fuel st size
  | AllocationPolicy.ap_NextFit => nf_get_free_block fuel st size
  | AllocationPolicy.ap_BestFit => bf_get_free_block fuel st size
  | AllocationPolicy.ap_other _ => Res.panic

/-! ## Initialisation (lines 279-344) -/

def mm_init (ap : AllocationPolicy) (d : DataSeg) (m : Mem) : Res State :=
  match ap with
  | AllocationPolicy.ap_other _ => Res.panic
  | _ =>
    if d.start = NULL then Res.panic
    else if d.start ≠ d.brk then Res.panic
    else if d.pagesize = 0 then Res.panic
    else
      match ds_sbrk d CHUNKSIZE with
      | none => Res.panic
      | some (_, d1) =>
        let ds_heap_brk := d1.brk
        let heap_start := (d.start + TYPE_SIZE + BS - 1) % WORD_MOD / BS * BS
        let heap_end := (ds_heap_brk + WORD_MOD - TYPE_SIZE) % WORD_MOD / BS * BS
        let m1 := PUT m (heap_start - TYPE_SIZE) (PACK 0 ALLOC)
        let m2 := PUT m1 heap_end (PACK 0 ALLOC)
        let size := (heap_end + WORD_MOD - heap_start) % WORD_MOD
        let bdrytag := PACK size FREE
        let m3 := PUT m2 heap_start bdrytag
        let m4 := PUT m3 (heap_end - TYPE_SIZE) bdrytag
        Res.ok
          { ds := d1, mem := m4, ds_heap_start := d.start, ds_heap_brk := ds_heap_brk,
            heap_start := heap_start, heap_end := heap_end, PAGESIZE := d.pagesize,
            mm_initialized := 1, nextfit_start := NULL, get_block := ap }

/-! ## Coalescing and heap growth (lines 346-436) -/

def coalesce (st : State) (block : Nat) : State :=
  let size := GET_SIZE st.mem block
  let hdr := block
  let ftr := HDR2FTR st.mem hdr
  let next := NEXT_BLOCK st.mem block
  let mergeNext := next ≠ block ∧ GET_STATUS st.mem next = FREE
  let size1 := if mergeNext then (size + GET_SIZE st.mem next) % WORD_MOD else size
  let ftr1 := if mergeNext then hdr + size1 - TYPE_SIZE else ftr
  let st1 : State :=
    if size1 > GET_SIZE st.mem block then
      { st with
        nextfit_start := if next = st.nextfit_start then block else st.nextfit_start
        mem := PUT (PUT st.mem hdr (PACK size1 FREE)) ftr1 (PACK size1 FREE) }
    else st
  let prev := PREV_BLOCK st1.mem block
  let mergePrev := prev ≠ block ∧ GET_STATUS st1.mem prev = FREE
  let size2 := if mergePrev then (size1 + GET_SIZE st1.mem prev) % WORD_MOD else size1
  let hdr2 := if mergePrev then prev else hdr
  if size2 > GET_SIZE st1.mem block then
    { st1 with
      nextfit_start := if block = st1.nextfit_start then prev else st1.nextfit_start
      mem := PUT (PUT st1.mem hdr2 (PACK size2 FREE)) ftr1 (PACK size2 FREE) }
  else st1

def expand_heap (st : State) : Res State :=
  let last_block := PREV_BLOCK st.mem st.heap_end
  match ds_sbrk st.ds CHUNKSIZE with
  | none => Res.panic
  | some (_, d1) =>
    let ds_heap_brk := d1.brk
    let heap_end := (ds_heap_brk + WORD_MOD - TYPE_SIZE) % WORD_MOD / BS * BS
    let m1 := PUT st.mem heap_end (PACK 0 ALLOC)
    let size := (heap_end + WORD_MOD - NEXT_BLOCK m1 last_block) % WORD_MOD
    let bdrytag := PACK size FREE
    let m2 := PUT m1 (NEXT_BLOCK m1 last_block) bdrytag
    let m3 := PUT m2 (heap_end - TYPE_SIZE) bdrytag
    let st1 : State :=
      { st with ds := d1, ds_heap_brk := ds_heap_brk, heap_end := heap_end, mem := m3 }
    if GET_STATUS m3 last_block = FREE then Res.ok (coalesce st1 last_block)
    else Res.ok st1

/-! ## The public operations (lines 439-532) -/

def mm_malloc : Nat → State → Nat → Res (State × Nat)
  | 0, _, _ => Res.nofuel
  | fuel + 1, st, size =>
    let blocksize := ROUND_UP ((TYPE_SIZE + size + TYPE_SIZE) % WORD_MOD)
    match call_get_block fuel st blocksize with
    | Res.panic => Res.panic
    | Res.nofuel => Res.nofuel
    | Res.ok (st1, block) =>
      if block = NULL then
        match expand_heap st1 with
        | Res.ok st2 => mm_malloc fuel st2 size
        | Res.panic => Res.panic
        | Res.nofuel => Res.nofuel
      else
        let bsize := GET_SIZE st1.mem block
        let m1 :=
          if blocksize < bsize then
            let next_block := block + blocksize
            let next_size := bsize - blocksize
            PUT (PUT st1.mem next_block (PACK next_size FREE))
              (next_block + next_size - TYPE_SIZE) (PACK next_size FREE)
          else st1.mem
        let m2 := PUT m1 block (PACK blocksize ALLOC)
        let m3 := PUT m2 (block + blocksize - TYPE_SIZE) (PACK blocksize ALLOC)
        Res.ok ({ st1 with mem := m3 }, block + TYPE_SIZE)

def mm_free (st : State) (ptr : Nat) : State :=
  let block := ptr - TYPE_SIZE
  if GET_STATUS st.mem block ≠ ALLOC then st
  else
    let size := GET_SIZE st.mem block
    let m1 := PUT st.mem block (PACK size FREE)
    let m2 := PUT m1 (block + size - TYPE_SIZE) (PACK size FREE)
    coalesce { st with mem := m2 } block

def mm_calloc (fuel : Nat) (st : State) (nmemb size : Nat) : Res (State × Nat) :=
  match mm_malloc fuel st (nmemb * size % WORD_MOD) with
  | Res.ok (st1, payload) =>
    if payload ≠ NULL then
      Res.ok ({ st1 with mem := memset st1.mem payload 0 (nmemb * size % WORD_MOD) }, payload)
    else Res.ok (st1, payload)
  | Res.panic => Res.panic
  | Res.nofuel => Res.nofuel

def mm_realloc (fuel : Nat) (st : State) (ptr size : Nat) : Res (State × Nat) :=
  mm_malloc fuel (mm_free st ptr) size

/-! ## The block structure of the heap -/


/-- A block as seen by the heap walker: its start address and the size and status decoded
from its header word. -/
structure Block where
  addr : Nat
  size : Nat
  status : Nat
deriving DecidableEq

/-- The heap walker: starting at `p`, decode the header, step by its size, and stop on
reaching `e` exactly.  The walk fails on a zero size and when it passes `e` (the traversal of
`mm_check`, lines 563-589). -/
def walk (m : Mem) (e : Nat) : Nat → Nat → Option (List Block)
  | 0, p => if p = e then some [] else none
  | fuel + 1, p =>
    if p = e then some []
    else if e < p then none
    else if SIZE (GET m p) = 0 then none
    else
      match walk m e fuel (p + SIZE (GET m p)) with
      | some bs => some ({ addr := p, size := SIZE (GET m p), status := STATUS (GET m p) } :: bs)
      | none => none

/-- The blocks between the two sentinels, in address order. A block is at least one byte
long, so the span of the heap bounds the number of steps. -/
def heap_blocks (st : State) : Option (List Block) :=
  walk st.mem st.heap_end (st.heap_end - st.heap_start) st.heap_start

/-- No two neighbours in the list are both FREE. -/
def NoAdjFree (bs : List Block) : Prop :=
  List.Chain' (fun a b => ¬ (a.status = FREE ∧ b.status = FREE)) bs

/-- Header and footer of `b` carry the tag `(b.size, b.status)`, and the size is a positive
multiple of `BS` that fits a word. -/
def Tagged (m : Mem) (b : Block) : Prop :=
  32 ≤ b.size ∧ b.size % 32 = 0 ∧ b.size < 2 ^ 64 ∧ (b.status = 0 ∨ b.status = 1) ∧
    GET m b.addr = b.size + b.status ∧ GET m (b.addr + b.size - 8) = b.size + b.status

/-- The memory between `a` and `e` is exactly the sequence of well-tagged blocks `bs`. -/
def Chain (m : Mem) : Nat → List Block → Nat → Prop
  | a, [], e => a = e
  | a, b :: bs, e => b.addr = a ∧ Tagged m b ∧ Chain m (a + b.size) bs e

/-- Well-formed allocator state with block sequence `bs`. -/
structure Inv (st : State) (bs : List Block) : Prop where
  chain : Chain st.mem st.heap_start bs st.heap_end
  nonempty : bs ≠ []
  noadj : NoAdjFree bs
  hs_al : st.heap_start % 32 = 0
  hs_pos : 32 ≤ st.heap_start
  lo : GET st.mem (st.heap_start - 8) = 1
  hi : GET st.mem st.heap_end = 1
  brk_eq : st.ds_heap_brk = st.ds.brk
  he_eq : st.heap_end = (st.ds.brk - 8) / 32 * 32
  brk_lim : st.ds.brk ≤ st.ds.limit
  lim_lt : st.ds.limit < 2 ^ 64
  cursor : st.nextfit_start = 0 ∨ ∃ b ∈ bs, b.addr = st.nextfit_start
  policy : ∀ n, st.get_block ≠ AllocationPolicy.ap_other n

/-- A state is well formed when some block sequence describes it. -/
def WellFormed (st : State) : Prop := ∃ bs, Inv st bs

/-! ## Coalescing on a chain -/


/-- First half of `coalesce` (lines 353-376): the state after the merge with the following
block, together with the locals `size` and `ftr`. -/
def coalesce_next (st : State) (block : Nat) : State × Nat × Nat :=
  let size := GET_SIZE st.mem block
  let hdr := block
  let ftr := HDR2FTR st.mem hdr
  let next := NEXT_BLOCK st.mem block
  let mergeNext := next ≠ block ∧ GET_STATUS st.mem next = FREE
  let size1 := if mergeNext then (size + GET_SIZE st.mem next) % WORD_MOD else size
  let ftr1 := if mergeNext then hdr + size1 - TYPE_SIZE else ftr
  let st1 : State :=
    if size1 > GET_SIZE st.mem block then
      { st with
        nextfit_start := if next = st.nextfit_start then block else st.nextfit_start
        mem := PUT (PUT st.mem hdr (PACK size1 FREE)) ftr1 (PACK size1 FREE) }
    else st
  (st1, size1, ftr1)

/-- Second half of `coalesce` (lines 378-394), from the state and locals left by the first. -/
def coalesce_prev (st1 : State) (block size1 ftr1 : Nat) : State :=
  let hdr := block
  let prev := PREV_BLOCK st1.mem block
  let mergePrev := prev ≠ block ∧ GET_STATUS st1.mem prev = FREE
  let size2 := if mergePrev then (size1 + GET_SIZE st1.mem prev) % WORD_MOD else size1
  let hdr2 := if mergePrev then prev else hdr
  if size2 > GET_SIZE st1.mem block then
    { st1 with
      nextfit_start := if block = st1.nextfit_start then prev else st1.nextfit_start
      mem := PUT (PUT st1.mem hdr2 (PACK size2 FREE)) ftr1 (PACK size2 FREE) }
  else st1

/-- Merge of a freed block with its FREE successor, on the block list. -/
def mergeNext (b : Block) (post : List Block) : Block × List Block :=
  match post with
  | n :: post' =>
    if n.status = FREE then ({ addr := b.addr, size := b.size + n.size, status := FREE }, post')
    else (b, post)
  | [] => (b, [])

/-- Merge of a freed block into its FREE predecessor, on the block list. -/
def mergePrev (pre : List Block) (b : Block) : List Block :=
  match pre.getLast? with
  | some q =>
    if q.status = FREE then
      pre.dropLast ++ [{ addr := q.addr, size := q.size + b.size, status := FREE }]
    else pre ++ [b]
  | none => pre ++ [b]

/-- The block list after coalescing the FREE block `b` with its FREE neighbours. -/
def coalesceBlocks (pre : List Block) (b : Block) (post : List Block) : List Block :=
  mergePrev pre (mergeNext b post).1 ++ (mergeNext b post).2

/-- The search cursor is unset or at the start of a block of the list. -/
def CursorOK (c : Nat) (bs : List Block) : Prop := c = 0 ∨ ∃ x ∈ bs, x.addr = c

/-- Start address of the block that results from coalescing `b` with its neighbours. -/
def mergedAddr (pre : List Block) (b : Block) : Nat :=
  match pre.getLast? with
  | some q => if q.status = FREE then q.addr else b.addr
  | none => b.addr

/-- Relation between the states before and after `coalesce st b.addr`, where the heap reads
`pre ++ b :: post` and `b` is FREE. -/
structure CoalesceOut (st st' : State) (pre : List Block) (b : Block) (post : List Block) :
    Prop where
  chain : Chain st'.mem st.heap_start (coalesceBlocks pre b post) st.heap_end
  ds : st'.ds = st.ds
  dhs : st'.ds_heap_start = st.ds_heap_start
  dhb : st'.ds_heap_brk = st.ds_heap_brk
  hs : st'.heap_start = st.heap_start
  he : st'.heap_end = st.heap_end
  ps : st'.PAGESIZE = st.PAGESIZE
  ini : st'.mm_initialized = st.mm_initialized
  gb : st'.get_block = st.get_block
  noadj : NoAdjFree pre → NoAdjFree post → NoAdjFree (coalesceBlocks pre b post)
  cursor : CursorOK st.nextfit_start (pre ++ b :: post) →
    CursorOK st'.nextfit_start (coalesceBlocks pre b post)
  bytes : ∀ a, (a < mergedAddr pre b ∨ b.addr + (mergeNext b post).1.size ≤ a) →
    st'.mem a = st.mem a
  words : ∀ y, y % 32 = 0 → y ≠ mergedAddr pre b → y ≠ b.addr → GET st'.mem y = GET st.mem y
  bstat : GET_STATUS st'.mem b.addr = 0
  starts : ∀ x ∈ pre ++ b :: post,
    (∃ x' ∈ coalesceBlocks pre b post, x'.addr = x.addr) ∨ x.status = 0
  mle : mergedAddr pre b ≤ b.addr ∧ st.heap_start ≤ mergedAddr pre b ∧
    b.addr + (mergeNext b post).1.size ≤ st.heap_end
  merged : ∃ x' ∈ coalesceBlocks pre b post, x'.addr = mergedAddr pre b ∧ x'.status = 0 ∧
    x'.addr + x'.size = b.addr + (mergeNext b post).1.size

/-- The block list after `release` of the ALLOCATED block `b`: the block becomes FREE and is
merged with each FREE neighbour. -/
def releaseBlocks (pre : List Block) (b : Block) (post : List Block) : List Block :=
  coalesceBlocks pre { addr := b.addr, size := b.size, status := FREE } post

/-- The state in `mm_free` after lines 526-528, before the call of `coalesce`. -/
def markFree (st : State) (b : Block) : State :=
  { st with mem := PUT (PUT st.mem b.addr (b.size + 0)) (b.addr + b.size - 8) (b.size + 0) }

/-! ## The fit policies on a chain -/


/-- A block satisfies a request: it is FREE and at least `size` bytes long. -/
def fits (size : Nat) (b : Block) : Bool := decide (b.status = FREE ∧ size ≤ b.size)

/-- Address of an optional block, `NULL` for none. -/
def addrOf : Option Block → Nat
  | some b => b.addr
  | none => NULL

/-- Best-fit choice over a block list, continuing from the candidate `acc`: a fitting block
replaces the candidate only when it is strictly smaller. -/
def bestFrom (size : Nat) : Option Block → List Block → Option Block
  | acc, [] => acc
  | none, b :: bs => bestFrom size (if fits size b then some b else none) bs
  | some c, b :: bs => bestFrom size (if fits size b ∧ b.size < c.size then some b else some c) bs

/-- The accumulator `(best_block, best_size)` of the best-fit loop represents `acc`. -/
def BestRel (best_block best_size : Nat) : Option Block → Prop
  | none => best_block = NULL
  | some c => best_block = c.addr ∧ best_size = c.size ∧ c.addr ≠ NULL

/-- The part of the block list that next-fit scans: all of it when the cursor is unset,
otherwise the blocks from the cursor's block on. -/
def scanFrom (c : Nat) (bs : List Block) : List Block :=
  if c = NULL then bs else bs.dropWhile (fun b => decide (b.addr ≠ c))

/-- The block chosen by the policy, on the block list. -/
def policyChoice (ap : AllocationPolicy) (cursor size : Nat) (bs : List Block) : Option Block :=
  match ap with
  | AllocationPolicy.ap_FirstFit => bs.find? (fits size)
  | AllocationPolicy.ap_NextFit => (scanFrom cursor bs).find? (fits size)
  | AllocationPolicy.ap_BestFit => bestFrom size none bs
  | AllocationPolicy.ap_other _ => none

/-- Result of a search function for the choice `r`: the cursor moves to a found block. -/
def applyChoice (st : State) : Option Block → State × Nat
  | some b => ({ st with nextfit_start := b.addr }, b.addr)
  | none => (st, NULL)

/-! ## Placing a block (`mm_malloc`, lines 463-478) -/


/-- Lines 463-478 of `mm_malloc`: split the found block if it is larger than `blocksize`,
mark the block ALLOCATED and return the payload pointer. -/
def place (st1 : State) (block blocksize : Nat) : State × Nat :=
  let bsize := GET_SIZE st1.mem block
  let m1 :=
    if blocksize < bsize then
      let next_block := block + blocksize
      let next_size := bsize - blocksize
      PUT (PUT st1.mem next_block (PACK next_size FREE))
        (next_block + next_size - TYPE_SIZE) (PACK next_size FREE)
    else st1.mem
  let m2 := PUT m1 block (PACK blocksize ALLOC)
  let m3 := PUT m2 (block + blocksize - TYPE_SIZE) (PACK blocksize ALLOC)
  ({ st1 with mem := m3 }, block + TYPE_SIZE)

/-- The size `mm_malloc` computes for a request (line 446). -/
def blockSizeOf (size : Nat) : Nat := ROUND_UP ((TYPE_SIZE + size + TYPE_SIZE) % WORD_MOD)

/-- The blocks that replace the FREE block `b` when `blocksize` bytes of it are allocated. -/
def placeBlocks (b : Block) (blocksize : Nat) : List Block :=
  if blocksize < b.size then
    [{ addr := b.addr, size := blocksize, status := ALLOC },
     { addr := b.addr + blocksize, size := b.size - blocksize, status := FREE }]
  else [{ addr := b.addr, size := blocksize, status := ALLOC }]

/-- Relation between the states before and after `place` on the FREE block `b`. -/
structure PlaceOut (st st' : State) (pre : List Block) (b : Block) (post : List Block)
    (blocksize : Nat) : Prop where
  inv : Inv st' (pre ++ placeBlocks b blocksize ++ post)
  ds : st'.ds = st.ds
  hs : st'.heap_start = st.heap_start
  he : st'.heap_end = st.heap_end
  cur : st'.nextfit_start = st.nextfit_start
  gb : st'.get_block = st.get_block
  bytes : ∀ a, (a < b.addr ∨ b.addr + b.size ≤ a) → st'.mem a = st.mem a
  words : ∀ y, y % 32 = 0 → y ≠ b.addr → y ≠ b.addr + blocksize →
    GET st'.mem y = GET st.mem y
  payload : ∀ a, b.addr + 8 ≤ a → a < b.addr + blocksize - 8 → st'.mem a = st.mem a

/-! ## Heap growth -/


/-- The state of `expand_heap` after line 429, before the conditional call of `coalesce`. -/
def growRaw (st : State) : State :=
  { st with
    ds := { st.ds with brk := st.ds.brk + 4096 }
    ds_heap_brk := st.ds.brk + 4096
    heap_end := st.heap_end + 4096
    mem := PUT (PUT (PUT st.mem (st.heap_end + 4096) 1) st.heap_end (4096 + 0))
      (st.heap_end + 4096 - 8) (4096 + 0) }

/-- The FREE block that heap growth appends at the old `heap_end`. -/
def newBlock (st : State) : Block := { addr := st.heap_end, size := 4096, status := 0 }

/-- The block list after one heap growth. -/
def growBlocks (bs : List Block) : List Block :=
  match bs.getLast? with
  | some l =>
    if l.status = FREE then
      bs.dropLast ++ [{ addr := l.addr, size := l.size + CHUNKSIZE, status := FREE }]
    else bs ++ [{ addr := l.addr + l.size, size := CHUNKSIZE, status := FREE }]
  | none => bs

/-- Size of the trailing block if it is FREE, else zero. -/
def lastFree (bs : List Block) : Nat :=
  match bs.getLast? with
  | some l => if l.status = FREE then l.size else 0
  | none => 0

/-- Lowest address that heap growth may write to. -/
def growStart (bs : List Block) : Nat :=
  match bs.getLast? with
  | some l => if l.status = FREE then l.addr else l.addr + l.size
  | none => 0

/-- Relation between the states before and after a successful `expand_heap`. -/
structure GrowOut (st st' : State) (bs : List Block) : Prop where
  inv : Inv st' (growBlocks bs)
  he : st'.heap_end = st.heap_end + 4096
  hs : st'.heap_start = st.heap_start
  brk : st'.ds.brk = st.ds.brk + 4096
  lim : st'.ds.limit = st.ds.limit
  gb : st'.get_block = st.get_block
  bytes : ∀ a, a < growStart bs → st'.mem a = st.mem a
  words : ∀ y, y % 32 = 0 → y < st.heap_end → (∀ x ∈ growBlocks bs, x.addr ≠ y) →
    GET st'.mem y = GET st.mem y
  starts : ∀ x ∈ bs, ∃ x' ∈ growBlocks bs, x'.addr = x.addr

/-! ## `mm_malloc` on a well-formed heap -/


/-- Heap growths performed by `mm_malloc` for a block size: each one happens in a well-formed
state in which the policy finds no block. -/
inductive GrowsTo (blocksize : Nat) : State → List Block → State → List Block → Prop where
  | refl (st : State) (bs : List Block) : GrowsTo blocksize st bs st bs
  | step {st st1 st2 : State} {bs bs2 : List Block} :
      Inv st bs → policyChoice st.get_block st.nextfit_start blocksize bs = none →
      expand_heap st = Res.ok st1 → GrowOut st st1 bs →
      GrowsTo blocksize st1 (growBlocks bs) st2 bs2 → GrowsTo blocksize st bs st2 bs2

/-- The state in which `mm_malloc` places the block: the cursor is at the found block. -/
def withCursor (st : State) (c : Nat) : State := { st with nextfit_start := c }

/-! ## Initialisation -/


/-- The state that a successful `mm_init` produces, with the word arithmetic carried out. -/
def initState (ap : AllocationPolicy) (d : DataSeg) (m : Mem) : State :=
  { ds := { d with brk := d.brk + 4096 }
    mem := PUT (PUT (PUT (PUT m ((d.start + 39) / 32 * 32 - 8) 1) ((d.start + 4088) / 32 * 32) 1)
      ((d.start + 39) / 32 * 32) ((d.start + 4088) / 32 * 32 - (d.start + 39) / 32 * 32 + 0))
      ((d.start + 39) / 32 * 32 + ((d.start + 4088) / 32 * 32 - (d.start + 39) / 32 * 32) - 8)
      ((d.start + 4088) / 32 * 32 - (d.start + 39) / 32 * 32 + 0)
    ds_heap_start := d.start
    ds_heap_brk := d.brk + 4096
    heap_start := (d.start + 39) / 32 * 32
    heap_end := (d.start + 4088) / 32 * 32
    PAGESIZE := d.pagesize
    mm_initialized := 1
    nextfit_start := NULL
    get_block := ap }

/-! ## Pointers handed out earlier -/


/-- Every pointer handed out so far is the payload address of a block of the heap, or the word
in front of it no longer says ALLOCATED (its block was merged away or re-split). -/
def Stale (st : State) (bs : List Block) (R : List Nat) : Prop :=
  ∀ p ∈ R, 8 ≤ p ∧ (p - 8) % 32 = 0 ∧ p - 8 < st.heap_end ∧
    ((∃ x ∈ bs, x.addr = p - 8) ∨ GET_STATUS st.mem (p - 8) ≠ ALLOC)

/-- An operation keeps former block starts harmless: a 32-aligned address that is no block
start afterwards does not read as ALLOCATED if it was a block start or harmless before. -/
def StaleStep (st : State) (bs : List Block) (st' : State) (bs' : List Block) : Prop :=
  st.heap_end ≤ st'.heap_end ∧
    ∀ y, y % 32 = 0 → y < st.heap_end → (∀ x' ∈ bs', x'.addr ≠ y) →
      ((∃ x ∈ bs, x.addr = y) ∨ GET_STATUS st.mem y ≠ ALLOC) → GET_STATUS st'.mem y ≠ ALLOC

/-! ## Reachable states -/


/-- States reachable from `mm_init` by calls of the four public operations that return,
together with the payload pointers returned so far.  The provider's region lies in the 64-bit
address space; requested sizes are at most `2 ^ 64 - 48`; `mm_free` and `mm_realloc` receive
pointers that were returned earlier. -/
inductive Reach : State → List Nat → Prop where
  | init {ap : AllocationPolicy} {d : DataSeg} {m : Mem} {st : State} :
      d.limit < 2 ^ 64 → mm_init ap d m = Res.ok st → Reach st []
  | malloc {st st' : State} {R : List Nat} {fuel size p : Nat} :
      Reach st R → size ≤ 2 ^ 64 - 48 → mm_malloc fuel st size = Res.ok (st', p) →
      Reach st' (p :: R)
  | calloc {st st' : State} {R : List Nat} {fuel nmemb size p : Nat} :
      Reach st R → nmemb * size % 2 ^ 64 ≤ 2 ^ 64 - 48 →
      mm_calloc fuel st nmemb size = Res.ok (st', p) → Reach st' (p :: R)
  | realloc {st st' : State} {R : List Nat} {fuel ptr size p : Nat} :
      Reach st R → ptr ∈ R → size ≤ 2 ^ 64 - 48 →
      mm_realloc fuel st ptr size = Res.ok (st', p) → Reach st' (p :: R)
  | free {st : State} {R : List Nat} {ptr : Nat} :
      Reach st R → ptr ∈ R → Reach (mm_free st ptr) R

/-- A heap state reachable from initialisation. -/
def Reachable (st : State) : Prop := ∃ R, Reach st R

/-- The blocks that follow the allocated one after `place`. -/
def placeRest (b : Block) (blocksize : Nat) : List Block :=
  if blocksize < b.size then
    [{ addr := b.addr + blocksize, size := b.size - blocksize, status := FREE }]
  else []

/-- What a returning `mm_malloc` leaves behind on a well-formed heap. -/
structure MallocOut (st st' : State) (bs : List Block) (size p : Nat) (pre : List Block)
    (a : Block) (post : List Block) : Prop where
  inv : Inv st' (pre ++ a :: post)
  ptr : p = a.addr + 8
  status : a.status = 1
  size_eq : a.size = blockSizeOf size
  stale : StaleStep st bs st' (pre ++ a :: post)
  al : a.addr % 32 = 0

/-! ## A concrete run -/


/-- A provider with a pristine region at address 4100. -/
def exD : DataSeg := { start := 4100, brk := 4100, limit := 2 ^ 30, pagesize := 4096 }

/-- Zero-filled memory. -/
def exM : Mem := fun _ => 0

/-- The value of a returning call. -/
def resultOf (r : Res (State × Nat)) (d : State) : State × Nat :=
  match r with
  | Res.ok x => x
  | _ => (d, 0)

/-- The heap after `mm_init(ap_NextFit)`. -/
def exS0 : State := initState AllocationPolicy.ap_NextFit exD exM

/-- The heap after `p1 = mm_malloc(40)`. -/
def exS1 : State := (resultOf (mm_malloc 3 exS0 40) exS0).1

def exP1 : Nat := (resultOf (mm_malloc 3 exS0 40) exS0).2

/-- The heap after `p2 = mm_malloc(24)`. -/
def exS2 : State := (resultOf (mm_malloc 3 exS1 24) exS0).1

def exP2 : Nat := (resultOf (mm_malloc 3 exS1 24) exS0).2

/-- The heap after `mm_free(p1)`. -/
def exS3 : State := mm_free exS2 exP1

/-- The heap after `mm_init(ap_FirstFit)`. -/
def fxS0 : State := initState AllocationPolicy.ap_FirstFit exD exM

/-- A caller's write of the byte `v` to address `a`. -/
def store (st : State) (a v : Nat) : State :=
  { st with mem := fun x => if x = a then v % 256 else st.mem x }

/-- The heap after `a = mm_malloc(16)`, `b = mm_malloc(16)`, `mm_free(a)` and a write of the
byte `0xAB` to `b[0]`, with the pointer `b`. -/
def fxS3 : State × Nat :=
  let r1 := resultOf (mm_malloc 3 fxS0 16) fxS0
  let r2 := resultOf (mm_malloc 3 r1.1 16) fxS0
  (store (mm_free r2.1 r1.2) r2.2 171, r2.2)

/-- The previous FREE neighbour of a released block, if there is one. -/
def prevFree (pre : List Block) : Option Block :=
  match pre.getLast? with
  | some q => if q.status = FREE then some q else none
  | none => none

/-- The next FREE neighbour of a released block, if there is one. -/
def nextFree (post : List Block) : Option Block :=
  match post.head? with
  | some n => if n.status = FREE then some n else none
  | none => none

/-- The block list after `release` of the block `b`, in the words of the specification: one
FREE block that starts at the previous block's start if that block was FREE (else at `b`)
and has the size of `b` plus the sizes of its FREE neighbours; every other block is
unchanged. -/
def releaseSpec (pre : List Block) (b : Block) (post : List Block) : List Block :=
  (match prevFree pre with
    | some _ => pre.dropLast
    | none => pre) ++
  { addr := (match prevFree pre with
      | some q => q.addr
      | none => b.addr),
    size := b.size +
      (match nextFree post with
        | some n => n.size
        | none => 0) +
      (match prevFree pre with
        | some q => q.size
        | none => 0),
    status := FREE } ::
  (match nextFree post with
    | some _ => post.tail
    | none => post)

/-- The blocks that replace a found FREE block `b` when `blockSize` bytes are requested, in the
words of the specification: a remainder of at least one minimum block is split off as a FREE
block, otherwise the whole block is taken with its size unchanged. -/
def splitSpec (b : Block) (blockSize : Nat) : List Block :=
  if BS ≤ b.size - blockSize then
    [{ addr := b.addr, size := blockSize, status := ALLOC },
     { addr := b.addr + blockSize, size := b.size - blockSize, status := FREE }]
  else [{ addr := b.addr, size := b.size, status := ALLOC }]

/-- The next-fit heap after `a = mm_malloc(40)` and `b = mm_malloc(3900)`, with the
pointer `b`. -/
def nxS2 : State × Nat := resultOf (mm_malloc 3 exS1 3900) exS0

/-- The next-fit heap after `a = mm_malloc(40)`, `b = mm_malloc(3900)` and `mm_free(a)`: a
FREE block of 64 bytes lies in front of the cursor, which stays on the block of `b`. -/
def nxS : State := mm_free nxS2.1 exP1

/-- The block list after a heap growth, in the words of the specification: a FREE trailing
block of size `t` is replaced by a FREE block of size `t + 4096` at the same start, otherwise a
FREE block of size 4096 is appended at the old `heap_end`; the earlier blocks are kept. -/
def growSpec (heap_end : Nat) (bs : List Block) : List Block :=
  match bs.getLast? with
  | some l =>
    if l.status = FREE then
      bs.dropLast ++ [{ addr := l.addr, size := l.size + CHUNKSIZE, status := FREE }]
    else bs ++ [{ addr := heap_end, size := CHUNKSIZE, status := FREE }]
  | none => [{ addr := heap_end, size := CHUNKSIZE, status := FREE }]

/-- The first-fit heap after `a = mm_malloc(100)`. -/
def gxR1 : State × Nat := resultOf (mm_malloc 6 fxS0 100) fxS0

/-- The first-fit heap after `b = mm_malloc(16)`. -/
def gxR2 : State × Nat := resultOf (mm_malloc 6 gxR1.1 16) fxS0

/-- The first-fit heap after `c = mm_malloc(16)`. -/
def gxR3 : State × Nat := resultOf (mm_malloc 6 gxR2.1 16) fxS0

/-- The first-fit heap after `d = mm_malloc(16)`. -/
def gxR4 : State × Nat := resultOf (mm_malloc 6 gxR3.1 16) fxS0

/-- The first-fit heap after `mm_free(a)` and `mm_free(c)`: FREE blocks of 128, 32 and 3808
bytes, separated by ALLOCATED blocks. -/
def gxS : State := mm_free (mm_free gxR4.1 gxR1.2) gxR3.2

/-- The next-fit heap after `mm_malloc(4016)`: one ALLOCATED block fills the heap. -/
def hxS : State × Nat := resultOf (mm_malloc 3 exS0 4016) exS0

/-- The operation from `st` to `st'` keeps the provider's start, its recorded copy, and the
logical start of the heap. -/
def SameBase (st st' : State) : Prop :=
  st'.ds_heap_start = st.ds_heap_start ∧ st'.heap_start = st.heap_start ∧
    st'.ds.start = st.ds.start

/-! ## Bounded growth, non-overlap, frame and round trip -/


/-- The number of `expand_heap` calls (line 459) that `mm_malloc` performs: its recursion with
the result replaced by a counter. -/
def malloc_growths : Nat → State → Nat → Nat
  | 0, _, _ => 0
  | fuel + 1, st, size =>
    let blocksize := ROUND_UP ((TYPE_SIZE + size + TYPE_SIZE) % WORD_MOD)
    match call_get_block fuel st blocksize with
    | Res.ok (st1, block) =>
      if block = NULL then
        match expand_heap st1 with
        | Res.ok st2 => 1 + malloc_growths fuel st2 size
        | _ => 0
      else 0
    | _ => 0

/-- The heap after `mm_init(ap_BestFit)`. -/
def bxS0 : State := initState AllocationPolicy.ap_BestFit exD exM

/-- The best-fit heap after `a1 = mm_malloc(64)` (block of 96 bytes at 4128). -/
def bxR1 : State × Nat := resultOf (mm_malloc 8 bxS0 64) bxS0

/-- The best-fit heap after `x1 = mm_malloc(16)` (block of 32 bytes at 4224). -/
def bxR2 : State × Nat := resultOf (mm_malloc 8 bxR1.1 16) bxS0

/-- The best-fit heap after `a2 = mm_malloc(128)` (block of 160 bytes at 4256). -/
def bxR3 : State × Nat := resultOf (mm_malloc 8 bxR2.1 128) bxS0

/-- The best-fit heap after `x2 = mm_malloc(16)` (block of 32 bytes at 4416). -/
def bxR4 : State × Nat := resultOf (mm_malloc 8 bxR3.1 16) bxS0

/-- The best-fit heap after `a3 = mm_malloc(32)` (block of 64 bytes at 4448). -/
def bxR5 : State × Nat := resultOf (mm_malloc 8 bxR4.1 32) bxS0

/-- The best-fit heap after `x3 = mm_malloc(3632)` (block of 3648 bytes at 4512, up to
`heap_end`). -/
def bxR6 : State × Nat := resultOf (mm_malloc 8 bxR5.1 3632) bxS0

/-- The best-fit heap after `mm_free(a1)`, `mm_free(a2)`, `mm_free(a3)`: its FREE blocks are,
in scan order, the blocks that held the 64-byte, the 128-byte and the 32-byte allocation
(block sizes 96, 160 and 64), separated by ALLOCATED blocks. -/
def bxS : State := mm_free (mm_free (mm_free bxR6.1 bxR1.2) bxR3.2) bxR5.2

/-! ## The heap checker (lines 542-591) -/


/-- The next-fit heap `exS3` after `mm_malloc(100)`, with the returned pointer. -/
def rxR : State × Nat := resultOf (mm_malloc 4 exS3 100) exS3

/-- The fresh next-fit heap after `mm_malloc(2 ^ 64 - 16)`, whose block size wraps to 0, with
the returned pointer. -/
def oxR : State × Nat := resultOf (mm_malloc 3 exS0 (2 ^ 64 - 16)) exS0

/-! # Theorems -/

/-! ## Codec and memory lemmas -/

theorem STATUS_eq (v : Nat) : STATUS v = v % 8 := by
  unfold STATUS STATUS_MASK
  exact Nat.and_pow_two_sub_one_eq_mod v 3

theorem SIZE_eq (v : Nat) (h : v < 2 ^ 64) : SIZE v = v / 8 * 8 := by
  unfold SIZE SIZE_MASK
  apply Nat.eq_of_testBit_eq
  intro i
  rw [Nat.testBit_and]
  have h1 : (2 ^ 64 - 1 - 7 : Nat) = 2 ^ 64 - (7 + 1) := by norm_num
  have h7 : (7 : Nat) = 2 ^ 3 - 1 := by norm_num
  have h8 : v / 8 * 8 = 2 ^ 3 * (v / 2 ^ 3) := by norm_num [Nat.mul_comm]
  rw [h1, Nat.testBit_two_pow_sub_succ (by norm_num : 7 < 2 ^ 64), h8, Nat.testBit_mul_pow_two,
    ← Nat.shiftRight_eq_div_pow, Nat.testBit_shiftRight, h7, Nat.testBit_two_pow_sub_one]
  by_cases h3 : i < 3
  · have : ¬ (3 ≤ i) := by omega
    simp [h3, this]
  · have h3b : 3 ≤ i := by omega
    have e : 3 + (i - 3) = i := by omega
    by_cases h64 : i < 64
    · simp [h3, h3b, h64, e]
    · have : v < 2 ^ i := lt_of_lt_of_le h (Nat.pow_le_pow_right (by norm_num) (by omega))
      simp [h3, h3b, h64, e, Nat.testBit_lt_two_pow this]

theorem PACK_eq (s t : Nat) (hs : s % 8 = 0) (ht : t < 8) : PACK s t = s + t := by
  unfold PACK
  have : s = 2 ^ 3 * (s / 8) := by norm_num; omega
  rw [this]
  exact (Nat.mul_add_lt_is_or (by norm_num; exact ht) _).symm

theorem PACK_FREE (s : Nat) : PACK s FREE = s := by
  simp [PACK, FREE]

theorem GET_lt (m : Mem) (p : Nat) : GET m p < 2 ^ 64 := by
  unfold GET
  norm_num
  omega

theorem GET_PUT_same (m : Mem) (p v : Nat) : GET (PUT m p v) p = v % 2 ^ 64 := by
  unfold GET PUT
  simp
  omega

theorem GET_PUT_other (m : Mem) (p v q : Nat) (h : q + 8 ≤ p ∨ p + 8 ≤ q) :
    GET (PUT m p v) q = GET m q := by
  unfold GET PUT
  have e : ∀ i, i < 8 → ¬ (p ≤ q + i ∧ q + i < p + 8) := by intro i hi; omega
  have e0 := e 0 (by omega)
  simp only [Nat.add_zero] at e0
  simp only [if_neg e0, if_neg (e 1 (by omega)), if_neg (e 2 (by omega)), if_neg (e 3 (by omega)),
    if_neg (e 4 (by omega)), if_neg (e 5 (by omega)), if_neg (e 6 (by omega)),
    if_neg (e 7 (by omega))]

theorem GET_memset_other (m : Mem) (p c n q : Nat) (h : q + 8 ≤ p ∨ p + n ≤ q) :
    GET (memset m p c n) q = GET m q := by
  unfold GET memset
  have e : ∀ i, i < 8 → ¬ (p ≤ q + i ∧ q + i < p + n) := by intro i hi; omega
  have e0 := e 0 (by omega)
  simp only [Nat.add_zero] at e0
  simp only [if_neg e0, if_neg (e 1 (by omega)), if_neg (e 2 (by omega)), if_neg (e 3 (by omega)),
    if_neg (e 4 (by omega)), if_neg (e 5 (by omega)), if_neg (e 6 (by omega)),
    if_neg (e 7 (by omega))]

theorem GET_mod8 (m : Mem) (p : Nat) : GET m p % 8 = m p % 8 := by
  unfold GET
  norm_num
  omega

theorem GET_SIZE_eq (m : Mem) (p : Nat) : GET_SIZE m p = GET m p / 8 * 8 :=
  SIZE_eq _ (GET_lt m p)

theorem GET_STATUS_eq (m : Mem) (p : Nat) : GET_STATUS m p = GET m p % 8 :=
  STATUS_eq _

/-! ## Lemmas on tagged blocks and chains -/

theorem Tagged.get_size {m : Mem} {b : Block} (h : Tagged m b) : GET_SIZE m b.addr = b.size := by
  obtain ⟨_, h2, _, h4, h5, _⟩ := h
  rw [GET_SIZE_eq, h5]; omega

theorem Tagged.get_status {m : Mem} {b : Block} (h : Tagged m b) :
    GET_STATUS m b.addr = b.status := by
  obtain ⟨_, h2, _, h4, h5, _⟩ := h
  rw [GET_STATUS_eq, h5]; omega

theorem Tagged.ftr_size {m : Mem} {b : Block} (h : Tagged m b) :
    GET_SIZE m (b.addr + b.size - 8) = b.size := by
  obtain ⟨_, h2, _, h4, _, h6⟩ := h
  rw [GET_SIZE_eq, h6]; omega

theorem Tagged.ftr_status {m : Mem} {b : Block} (h : Tagged m b) :
    GET_STATUS m (b.addr + b.size - 8) = b.status := by
  obtain ⟨_, h2, _, h4, _, h6⟩ := h
  rw [GET_STATUS_eq, h6]; omega

theorem Chain.append {m : Mem} : ∀ {xs ys : List Block} {a e : Nat},
    Chain m a (xs ++ ys) e ↔ ∃ mid, Chain m a xs mid ∧ Chain m mid ys e
  | [], ys, a, e => by simp [Chain]
  | x :: xs, ys, a, e => by
    have ih := @Chain.append m xs ys (a + x.size) e
    show x.addr = a ∧ Tagged m x ∧ Chain m (a + x.size) (xs ++ ys) e ↔ _
    rw [ih]
    simp only [Chain]
    constructor
    · rintro ⟨h1, h2, mid, h3, h4⟩
      exact ⟨mid, ⟨h1, h2, h3⟩, h4⟩
    · rintro ⟨mid, ⟨h1, h2, h3⟩, h4⟩
      exact ⟨h1, h2, mid, h3, h4⟩

theorem Chain.le {m : Mem} : ∀ {bs : List Block} {a e : Nat}, Chain m a bs e → a ≤ e
  | [], a, e, h => by simp [Chain] at h; omega
  | b :: bs, a, e, h => by
    obtain ⟨_, _, h3⟩ := h
    have := Chain.le h3
    omega

theorem Chain.frame {m m' : Mem} : ∀ {bs : List Block} {a e : Nat},
    (∀ q, a ≤ q → q + 8 ≤ e → GET m' q = GET m q) → Chain m a bs e → Chain m' a bs e
  | [], a, e, _, h => h
  | b :: bs, a, e, hf, h => by
    obtain ⟨h1, h2, h3⟩ := h
    have hle := Chain.le h3
    obtain ⟨t1, t2, t3, t4, t5, t6⟩ := h2
    refine ⟨h1, ⟨t1, t2, t3, t4, ?_, ?_⟩, ?_⟩
    · rw [hf _ (by omega) (by omega)]; exact t5
    · rw [hf _ (by omega) (by omega)]; exact t6
    · exact Chain.frame (fun q hq1 hq2 => hf q (by omega) hq2) h3

theorem Chain.mem_tagged {m : Mem} : ∀ {bs : List Block} {a e : Nat} {b : Block},
    Chain m a bs e → b ∈ bs → Tagged m b ∧ a ≤ b.addr ∧ b.addr + b.size ≤ e
  | [], _, _, _, _, hb => by simp at hb
  | x :: xs, a, e, b, h, hb => by
    obtain ⟨h1, h2, h3⟩ := h
    have hle := Chain.le h3
    rcases List.mem_cons.1 hb with rfl | hb
    · exact ⟨h2, by omega, by omega⟩
    · obtain ⟨r1, r2, r3⟩ := Chain.mem_tagged h3 hb
      exact ⟨r1, by omega, r3⟩

theorem Chain.sum {m : Mem} : ∀ {bs : List Block} {a e : Nat},
    Chain m a bs e → a + (bs.map Block.size).sum = e
  | [], a, e, h => by simpa [Chain] using h
  | b :: bs, a, e, h => by
    obtain ⟨_, _, h3⟩ := h
    have := Chain.sum h3
    simp only [List.map_cons, List.sum_cons]
    omega

theorem Chain.walk_eq {m : Mem} : ∀ {bs : List Block} {a e : Nat} (fuel : Nat),
    Chain m a bs e → e - a ≤ fuel → walk m e fuel a = some bs
  | [], a, e, fuel, h, _ => by
    simp only [Chain] at h
    cases fuel <;> simp [MemMgr.walk, h]
  | b :: bs, a, e, fuel, h, hf => by
    obtain ⟨h1, h2, h3⟩ := h
    have hle := Chain.le h3
    have hs := h2.get_size
    have hst := h2.get_status
    obtain ⟨t1, _⟩ := h2
    rw [h1] at hs hst
    unfold GET_SIZE at hs
    unfold GET_STATUS at hst
    cases fuel with
    | zero => omega
    | succ fuel =>
      have ih := Chain.walk_eq fuel h3 (by omega)
      have hne : a ≠ e := by omega
      have hlt : ¬ e < a := by omega
      have hz : SIZE (GET m a) ≠ 0 := by omega
      simp only [MemMgr.walk, if_neg hne, if_neg hlt, if_neg hz]
      rw [hs, ih, hst]
      cases b
      simp_all

theorem Inv.heap_blocks_eq {st : State} {bs : List Block} (h : Inv st bs) :
    heap_blocks st = some bs :=
  Chain.walk_eq _ h.chain (le_refl _)

theorem coalesce_eq (st : State) (block : Nat) :
    coalesce st block =
      coalesce_prev (coalesce_next st block).1 block (coalesce_next st block).2.1
        (coalesce_next st block).2.2 := rfl

/-- Writing the tag `(S, t)` over the span `[a, a + S)` of a chain yields one block there. -/
theorem Chain.retag {m : Mem} {pre post : List Block} {hs he a S t : Nat}
    (h1 : Chain m hs pre a) (h2 : Chain m (a + S) post he)
    (hS : 32 ≤ S) (hS32 : S % 32 = 0) (hlt : S < 2 ^ 64) (ht : t = 0 ∨ t = 1) :
    Chain (PUT (PUT m a (S + t)) (a + S - 8) (S + t)) hs
      (pre ++ { addr := a, size := S, status := t } :: post) he := by
  have l1 := Chain.le h1
  have l2 := Chain.le h2
  refine Chain.append.2 ⟨a, ?_, rfl, ⟨hS, hS32, hlt, ht, ?_, ?_⟩, ?_⟩
  · refine Chain.frame (fun q _ hq2 => ?_) h1
    rw [GET_PUT_other _ _ _ _ (by omega), GET_PUT_other _ _ _ _ (by omega)]
  · show GET _ a = S + t
    rw [GET_PUT_other _ _ _ _ (by omega), GET_PUT_same]
    omega
  · show GET _ (a + S - 8) = S + t
    rw [GET_PUT_same]
    omega
  · refine Chain.frame (fun q hq1 _ => ?_) h2
    dsimp only at hq1 ⊢
    rw [GET_PUT_other _ _ _ _ (by omega), GET_PUT_other _ _ _ _ (by omega)]

theorem Chain.splitAt {m : Mem} {pre post : List Block} {b : Block} {hs he : Nat}
    (h : Chain m hs (pre ++ b :: post) he) :
    Chain m hs pre b.addr ∧ Tagged m b ∧ Chain m (b.addr + b.size) post he := by
  obtain ⟨mid, h1, h2, h3, h4⟩ := Chain.append.1 h
  subst h2
  exact ⟨h1, h3, h4⟩

/-- What the first half of `coalesce` does on a chain. -/
theorem coalesce_next_spec {st : State} {pre post : List Block} {b : Block}
    (hch : Chain st.mem st.heap_start (pre ++ b :: post) st.heap_end)
    (hi : GET st.mem st.heap_end = 1) (hlt : st.heap_end < 2 ^ 64) :
    ((∀ x ∈ post.head?, x.status ≠ 0) ∧
      coalesce_next st b.addr = (st, b.size, b.addr + b.size - 8)) ∨
    (∃ n post', post = n :: post' ∧ n.status = 0 ∧
      coalesce_next st b.addr =
        ({ st with
            nextfit_start := if n.addr = st.nextfit_start then b.addr else st.nextfit_start
            mem := PUT (PUT st.mem b.addr (b.size + n.size + 0))
              (b.addr + (b.size + n.size) - 8) (b.size + n.size + 0) },
          b.size + n.size, b.addr + (b.size + n.size) - 8)) := by
  obtain ⟨hpre, hbt, hpost⟩ := Chain.splitAt hch
  have hsz := hbt.get_size
  have hb32 := hbt.1
  have hb0 : b.size ≠ 0 := by omega
  cases post with
  | nil =>
    left
    simp only [Chain] at hpost
    have hst : GET_STATUS st.mem (b.addr + b.size) = 1 := by
      rw [GET_STATUS_eq, hpost, hi]
    refine ⟨by simp, ?_⟩
    simp [coalesce_next, NEXT_BLOCK, HDR2FTR, hsz, hst, FREE, TYPE_SIZE, hb0]
  | cons n post' =>
    obtain ⟨hn1, hnt, hpost'⟩ := hpost
    have hnst := hnt.get_status
    have hnsz := hnt.get_size
    rw [hn1] at hnst hnsz
    have hle := Chain.le hpost'
    have hle2 := Chain.le hpre
    rcases hnt.2.2.2.1 with h0 | h1
    · right
      refine ⟨n, post', rfl, h0, ?_⟩
      have hmod : (b.size + n.size) % 18446744073709551616 = b.size + n.size :=
        Nat.mod_eq_of_lt (by omega)
      have hgt : b.size < b.size + n.size := by have := hnt.1; omega
      simp [coalesce_next, NEXT_BLOCK, HDR2FTR, hsz, hnst, hnsz, h0, FREE, TYPE_SIZE, WORD_MOD,
        hmod, hgt, hn1, PACK, hb0]
    · left
      refine ⟨by simp [h1], ?_⟩
      simp [coalesce_next, NEXT_BLOCK, HDR2FTR, hsz, hnst, h1, FREE, TYPE_SIZE, hb0]

theorem snoc_cases {α : Type} (l : List α) : l = [] ∨ ∃ L b, l = L ++ [b] := by
  rcases List.eq_nil_or_concat l with h | ⟨L, b, h⟩
  · exact Or.inl h
  · exact Or.inr ⟨L, b, by simpa using h⟩

/-- What the second half of `coalesce` does on a chain. -/
theorem coalesce_prev_spec {st1 : State} {pre post : List Block} {b1 : Block}
    (hch : Chain st1.mem st1.heap_start (pre ++ b1 :: post) st1.heap_end)
    (lo : GET st1.mem (st1.heap_start - 8) = 1) (hlt : st1.heap_end < 2 ^ 64) :
    ((∀ x ∈ pre.getLast?, x.status ≠ 0) ∧
      coalesce_prev st1 b1.addr b1.size (b1.addr + b1.size - 8) = st1) ∨
    (∃ pre' q, pre = pre' ++ [q] ∧ q.status = 0 ∧
      coalesce_prev st1 b1.addr b1.size (b1.addr + b1.size - 8) =
        { st1 with
            nextfit_start := if b1.addr = st1.nextfit_start then q.addr else st1.nextfit_start
            mem := PUT (PUT st1.mem q.addr (q.size + b1.size + 0))
              (q.addr + (q.size + b1.size) - 8) (q.size + b1.size + 0) }) := by
  obtain ⟨hpre, hbt, hpost⟩ := Chain.splitAt hch
  have hsz := hbt.get_size
  have hb32 := hbt.1
  have hle := Chain.le hpost
  rcases snoc_cases pre with rfl | ⟨pre', q, rfl⟩
  · left
    simp only [Chain] at hpre
    have hps : GET_SIZE st1.mem (b1.addr - 8) = 0 := by
      rw [GET_SIZE_eq, ← hpre, lo]
    refine ⟨by simp, ?_⟩
    simp [coalesce_prev, PREV_BLOCK, hsz, hps, TYPE_SIZE]
  · obtain ⟨hpre', hqt, hq3⟩ := Chain.splitAt hpre
    simp only [Chain] at hq3
    have hqs := hqt.ftr_size
    have hqst := hqt.get_status
    have hq32 := hqt.1
    have hle2 := Chain.le hpre'
    rw [hq3] at hqs
    have hprev : b1.addr - q.size = q.addr := by omega
    have hq0 : q.size ≠ 0 := by omega
    have hqle : q.size ≤ b1.addr := by omega
    have hne : q.addr ≠ b1.addr := by omega
    have hqsz := hqt.get_size
    rcases hqt.2.2.2.1 with h0 | h1
    · right
      refine ⟨pre', q, rfl, h0, ?_⟩
      have hmod : (b1.size + q.size) % 18446744073709551616 = q.size + b1.size := by
        rw [Nat.mod_eq_of_lt (by omega)]; omega
      have hgt : b1.size < q.size + b1.size := by omega
      have hft : q.addr + (q.size + b1.size) - 8 = b1.addr + b1.size - 8 := by omega
      simp [coalesce_prev, PREV_BLOCK, hsz, hqs, hprev, hqst, h0, FREE, TYPE_SIZE, WORD_MOD,
        hmod, hgt, PACK, hne, hft, hqsz]
    · left
      refine ⟨by simp [h1], ?_⟩
      simp [coalesce_prev, PREV_BLOCK, hsz, hqs, hprev, hqst, h1, FREE, TYPE_SIZE, hne]

theorem NoAdjFree.glue {pre post : List Block} {M : Block} (h1 : NoAdjFree pre)
    (h2 : NoAdjFree post) (h3 : ∀ x ∈ pre.getLast?, x.status ≠ 0)
    (h4 : ∀ y ∈ post.head?, y.status ≠ 0) : NoAdjFree (pre ++ M :: post) := by
  unfold NoAdjFree at *
  rw [List.chain'_append]
  refine ⟨h1, ?_, ?_⟩
  · rw [List.chain'_cons']
    exact ⟨fun y hy hc => h4 y hy hc.2, h2⟩
  · intro x hx y _ hc
    exact h3 x hx hc.1

theorem NoAdjFree.tail_head {n : Block} {post : List Block} (h : NoAdjFree (n :: post))
    (hn : n.status = 0) : NoAdjFree post ∧ ∀ y ∈ post.head?, y.status ≠ 0 := by
  unfold NoAdjFree at *
  rw [List.chain'_cons'] at h
  exact ⟨h.2, fun y hy hc => h.1 y hy ⟨hn, hc⟩⟩

theorem NoAdjFree.init_last {q : Block} {pre : List Block} (h : NoAdjFree (pre ++ [q]))
    (hq : q.status = 0) : NoAdjFree pre ∧ ∀ x ∈ pre.getLast?, x.status ≠ 0 := by
  unfold NoAdjFree at *
  rw [List.chain'_append] at h
  exact ⟨h.1, fun x hx hc => h.2.2 x hx q (by simp) ⟨hc, hq⟩⟩

theorem mergeNext_keep {b : Block} {post : List Block} (h : ∀ x ∈ post.head?, x.status ≠ 0) :
    mergeNext b post = (b, post) := by
  cases post with
  | nil => rfl
  | cons n post' =>
    have := h n (by simp)
    simp [mergeNext, FREE, this]

theorem mergeNext_merge {b n : Block} {post' : List Block} (h : n.status = 0) :
    mergeNext b (n :: post') =
      ({ addr := b.addr, size := b.size + n.size, status := 0 }, post') := by
  simp [mergeNext, FREE, h]

theorem mergePrev_keep {b : Block} {pre : List Block} (h : ∀ x ∈ pre.getLast?, x.status ≠ 0) :
    mergePrev pre b = pre ++ [b] := by
  unfold mergePrev
  cases hq : pre.getLast? with
  | none => rfl
  | some q =>
    have := h q (by simp [hq])
    simp [FREE, this]

theorem mergePrev_merge {b q : Block} {pre' : List Block} (h : q.status = 0) :
    mergePrev (pre' ++ [q]) b =
      pre' ++ [{ addr := q.addr, size := q.size + b.size, status := 0 }] := by
  simp [mergePrev, FREE, h]

theorem mergedAddr_keep {b : Block} {pre : List Block} (h : ∀ x ∈ pre.getLast?, x.status ≠ 0) :
    mergedAddr pre b = b.addr := by
  unfold mergedAddr
  cases hq : pre.getLast? with
  | none => rfl
  | some q =>
    have := h q (by simp [hq])
    simp [FREE, this]

theorem mergedAddr_merge {b q : Block} {pre' : List Block} (h : q.status = 0) :
    mergedAddr (pre' ++ [q]) b = q.addr := by
  simp [mergedAddr, FREE, h]

theorem PUT_byte_other (m : Mem) (p v a : Nat) (h : a < p ∨ p + 8 ≤ a) : PUT m p v a = m a := by
  unfold PUT
  rw [if_neg (by omega)]

theorem GET_congr {m m' : Mem} {q : Nat} (h : ∀ a, q ≤ a → a < q + 8 → m' a = m a) :
    GET m' q = GET m q := by
  unfold GET
  rw [h q (by omega) (by omega), h (q + 1) (by omega) (by omega), h (q + 2) (by omega) (by omega),
    h (q + 3) (by omega) (by omega), h (q + 4) (by omega) (by omega),
    h (q + 5) (by omega) (by omega), h (q + 6) (by omega) (by omega),
    h (q + 7) (by omega) (by omega)]

theorem PUT2_bytes (m : Mem) (p f v w a : Nat) (h1 : a < p ∨ p + 8 ≤ a)
    (h2 : a < f ∨ f + 8 ≤ a) : PUT (PUT m p v) f w a = m a := by
  rw [PUT_byte_other _ _ _ _ h2, PUT_byte_other _ _ _ _ h1]

theorem PUT2_words (m : Mem) (p f v w y : Nat) (hy : y % 32 = 0) (hp : p % 32 = 0)
    (hf : f % 32 = 24) (hne : y ≠ p) : GET (PUT (PUT m p v) f w) y = GET m y := by
  rw [GET_PUT_other _ _ _ _ (by omega), GET_PUT_other _ _ _ _ (by omega)]

theorem CoalesceOut.ofParts {st : State} {pre post L : List Block} {b : Block} {M S : Nat}
    (c : Nat) (m' : Mem)
    (hl : coalesceBlocks pre b post = L) (hM : mergedAddr pre b = M)
    (hS : (mergeNext b post).1.size = S)
    (chain : Chain m' st.heap_start L st.heap_end)
    (noadj : NoAdjFree pre → NoAdjFree post → NoAdjFree L)
    (cursor : CursorOK st.nextfit_start (pre ++ b :: post) → CursorOK c L)
    (bytes : ∀ a, (a < M ∨ b.addr + S ≤ a) → m' a = st.mem a)
    (words : ∀ y, y % 32 = 0 → y ≠ M → y ≠ b.addr → GET m' y = GET st.mem y)
    (bstat : GET_STATUS m' b.addr = 0)
    (starts : ∀ x ∈ pre ++ b :: post, (∃ x' ∈ L, x'.addr = x.addr) ∨ x.status = 0)
    (mle : M ≤ b.addr ∧ st.heap_start ≤ M ∧ b.addr + S ≤ st.heap_end)
    (merged : ∃ x' ∈ L, x'.addr = M ∧ x'.status = 0 ∧ x'.addr + x'.size = b.addr + S) :
    CoalesceOut st { st with nextfit_start := c, mem := m' } pre b post := by
  subst hl hM hS
  exact ⟨chain, rfl, rfl, rfl, rfl, rfl, rfl, rfl, rfl, noadj, cursor, bytes, words, bstat,
    starts, mle, merged⟩

theorem coalesce_spec {st : State} {pre post : List Block} {b : Block}
    (hch : Chain st.mem st.heap_start (pre ++ b :: post) st.heap_end)
    (hb : b.status = 0) (hal : b.addr % 32 = 0)
    (lo : GET st.mem (st.heap_start - 8) = 1) (hi : GET st.mem st.heap_end = 1)
    (hs8 : 8 ≤ st.heap_start) (hlt : st.heap_end < 2 ^ 64) :
    CoalesceOut st (coalesce st b.addr) pre b post := by
  obtain ⟨hpre, hbt, hpost⟩ := Chain.splitAt hch
  have lpre := Chain.le hpre
  have lpost := Chain.le hpost
  have hb32 := hbt.1
  have hbm := hbt.2.1
  rw [coalesce_eq]
  rcases coalesce_next_spec hch hi hlt with ⟨hn, e1⟩ | ⟨n, post', rfl, hn0, e1⟩
  · rw [e1]
    dsimp only
    rcases coalesce_prev_spec hch lo hlt with ⟨hp, e2⟩ | ⟨pre', q, rfl, hq0, e2⟩
    · -- neither neighbour is FREE
      rw [e2]
      have hl : coalesceBlocks pre b post = pre ++ b :: post := by
        simp [coalesceBlocks, mergeNext_keep hn, mergePrev_keep hp]
      have hm : (mergeNext b post).1.size = b.size := by rw [mergeNext_keep hn]
      exact CoalesceOut.ofParts st.nextfit_start st.mem hl (mergedAddr_keep hp) hm hch
        (fun h1 h2 => NoAdjFree.glue h1 h2 hp hn) (fun h => h) (fun _ _ => rfl)
        (fun _ _ _ _ => rfl) (by rw [hbt.get_status, hb]) (fun x hx => Or.inl ⟨x, hx, rfl⟩)
        ⟨le_refl _, lpre, lpost⟩ ⟨b, by simp, rfl, hb, rfl⟩
    · -- only the previous block is FREE
      obtain ⟨hpre', hqt, hq3⟩ := Chain.splitAt hpre
      simp only [Chain] at hq3
      have hq32 := hqt.1
      have hqm := hqt.2.1
      have lpre' := Chain.le hpre'
      rw [e2]
      have hl : coalesceBlocks (pre' ++ [q]) b post =
          pre' ++ { addr := q.addr, size := q.size + b.size, status := 0 } :: post := by
        simp [coalesceBlocks, mergeNext_keep hn, mergePrev_merge hq0]
      have hm : (mergeNext b post).1.size = b.size := by rw [mergeNext_keep hn]
      have hsum : q.addr + (q.size + b.size) = b.addr + b.size := by omega
      have hpost2 : Chain st.mem (q.addr + (q.size + b.size)) post st.heap_end := by
        rw [hsum]; exact hpost
      have hlt2 : q.size + b.size < 2 ^ 64 := by omega
      have hch2 := Chain.retag (t := 0) hpre' hpost2 (by omega) (by omega) hlt2 (Or.inl rfl)
      refine CoalesceOut.ofParts _ _ hl (mergedAddr_merge hq0) hm hch2
        (fun h1 h2 =>
            NoAdjFree.glue (NoAdjFree.init_last h1 hq0).1 h2 (NoAdjFree.init_last h1 hq0).2 hn)
        ?cursor ?bytes ?words ?bstat ?starts ?mle ?merged
      case cursor =>
        rintro (h | ⟨x, hx, hxc⟩)
        · left
          rw [if_neg (by omega)]; exact h
        · right
          by_cases hc : b.addr = st.nextfit_start
          · rw [if_pos hc]
            exact ⟨{ addr := q.addr, size := q.size + b.size, status := 0 }, by simp, rfl⟩
          · rw [if_neg hc]
            simp only [List.mem_append, List.mem_cons, List.mem_singleton,
              List.not_mem_nil, or_false] at hx
            rcases hx with (hx | hxq) | hxb | hx
            · exact ⟨x, by simp [hx], hxc⟩
            · exact ⟨{ addr := q.addr, size := q.size + b.size, status := 0 }, by simp,
                by rw [← hxc, hxq]⟩
            · rw [hxb] at hxc; exact absurd hxc hc
            · exact ⟨x, by simp [hx], hxc⟩
      case bytes =>
        exact fun a ha => PUT2_bytes _ _ _ _ _ _ (by omega) (by omega)
      case words =>
        exact fun y hy hne _ => PUT2_words _ _ _ _ _ _ hy (by omega) (by omega) hne
      case bstat =>
        rw [GET_STATUS_eq, PUT2_words _ _ _ _ _ _ hal (by omega) (by omega) (by omega),
          ← GET_STATUS_eq, hbt.get_status, hb]
      case starts =>
        intro x hx
        simp only [List.mem_append, List.mem_cons, List.mem_singleton,
          List.not_mem_nil, or_false] at hx
        rcases hx with (hx | hxq) | hxb | hx
        · exact Or.inl ⟨x, by simp [hx], rfl⟩
        · exact Or.inl ⟨{ addr := q.addr, size := q.size + b.size, status := 0 }, by simp,
            by rw [hxq]⟩
        · exact Or.inr (by rw [hxb]; exact hb)
        · exact Or.inl ⟨x, by simp [hx], rfl⟩
      case mle =>
        exact ⟨by omega, by omega, lpost⟩
      case merged =>
        exact ⟨{ addr := q.addr, size := q.size + b.size, status := 0 }, by simp, rfl, rfl,
          by dsimp only; omega⟩
  · -- the next block is FREE
    obtain ⟨hn1, hnt, hpost'⟩ := hpost
    have hn32 := hnt.1
    have hnm := hnt.2.1
    have lpost' := Chain.le hpost'
    have hS : b.size + n.size < 2 ^ 64 := by omega
    have hpost1 : Chain st.mem (b.addr + (b.size + n.size)) post' st.heap_end := by
      rw [← Nat.add_assoc]; exact hpost'
    have hch1 := Chain.retag (t := 0) hpre hpost1 (by omega) (by omega) hS (Or.inl rfl)
    rw [e1]
    dsimp only
    have hlo1 : GET (PUT (PUT st.mem b.addr (b.size + n.size + 0))
        (b.addr + (b.size + n.size) - 8) (b.size + n.size + 0)) (st.heap_start - 8) = 1 := by
      rw [GET_PUT_other _ _ _ _ (by omega), GET_PUT_other _ _ _ _ (by omega)]; exact lo
    have hmN : mergeNext b (n :: post') =
        ({ addr := b.addr, size := b.size + n.size, status := 0 }, post') := mergeNext_merge hn0
    have hmS : (mergeNext b (n :: post')).1.size = b.size + n.size := by rw [hmN]
    rcases @coalesce_prev_spec
        { st with
            nextfit_start := if n.addr = st.nextfit_start then b.addr else st.nextfit_start
            mem := PUT (PUT st.mem b.addr (b.size + n.size + 0))
              (b.addr + (b.size + n.size) - 8) (b.size + n.size + 0) }
        pre post' { addr := b.addr, size := b.size + n.size, status := 0 }
        hch1 hlo1 hlt with ⟨hp, e2⟩ | ⟨pre', q, rfl, hq0, e2⟩
    · -- only the next block is FREE
      dsimp only at e2
      rw [e2]
      have hl : coalesceBlocks pre b (n :: post') =
          pre ++ { addr := b.addr, size := b.size + n.size, status := 0 } :: post' := by
        simp [coalesceBlocks, hmN, mergePrev_keep hp]
      refine CoalesceOut.ofParts _ _ hl (mergedAddr_keep hp) hmS hch1
        (fun h1 h2 =>
            NoAdjFree.glue h1 (NoAdjFree.tail_head h2 hn0).1 hp (NoAdjFree.tail_head h2 hn0).2)
        ?cursor ?bytes ?words ?bstat ?starts ?mle ?merged
      case cursor =>
        rintro (h | ⟨x, hx, hxc⟩)
        · left
          rw [if_neg (by omega)]; exact h
        · right
          by_cases hc : n.addr = st.nextfit_start
          · rw [if_pos hc]
            exact ⟨{ addr := b.addr, size := b.size + n.size, status := 0 }, by simp, rfl⟩
          · rw [if_neg hc]
            simp only [List.mem_append, List.mem_cons] at hx
            rcases hx with hx | hxb | hxn | hx
            · exact ⟨x, by simp [hx], hxc⟩
            · exact ⟨{ addr := b.addr, size := b.size + n.size, status := 0 }, by simp,
                by rw [← hxc, hxb]⟩
            · rw [hxn] at hxc; exact absurd hxc hc
            · exact ⟨x, by simp [hx], hxc⟩
      case bytes =>
        exact fun a ha => PUT2_bytes _ _ _ _ _ _ (by omega) (by omega)
      case words =>
        exact fun y hy hne _ => PUT2_words _ _ _ _ _ _ hy hal (by omega) hne
      case bstat =>
        rw [GET_STATUS_eq, GET_PUT_other _ _ _ _ (by omega), GET_PUT_same]
        omega
      case starts =>
        intro x hx
        simp only [List.mem_append, List.mem_cons] at hx
        rcases hx with hx | hxb | hxn | hx
        · exact Or.inl ⟨x, by simp [hx], rfl⟩
        · exact Or.inl ⟨{ addr := b.addr, size := b.size + n.size, status := 0 }, by simp,
            by rw [hxb]⟩
        · exact Or.inr (by rw [hxn]; exact hn0)
        · exact Or.inl ⟨x, by simp [hx], rfl⟩
      case mle =>
        exact ⟨le_refl _, lpre, by omega⟩
      case merged =>
        exact ⟨{ addr := b.addr, size := b.size + n.size, status := 0 }, by simp, rfl, rfl, rfl⟩
    · -- both neighbours are FREE
      obtain ⟨hpre', hqt, hq3⟩ := Chain.splitAt hpre
      simp only [Chain] at hq3
      have hq32 := hqt.1
      have hqm := hqt.2.1
      have lpre' := Chain.le hpre'
      dsimp only at e2
      rw [e2]
      have hl : coalesceBlocks (pre' ++ [q]) b (n :: post') =
          pre' ++ { addr := q.addr, size := q.size + (b.size + n.size), status := 0 } ::
            post' := by
        simp [coalesceBlocks, hmN, mergePrev_merge hq0]
      obtain ⟨hpre1, -, -⟩ := Chain.splitAt hch1
      dsimp only at hpre1
      obtain ⟨hpre1', -, -⟩ := Chain.splitAt hpre1
      have hsum : q.addr + (q.size + (b.size + n.size)) = b.addr + (b.size + n.size) := by omega
      have hpost2 : Chain (PUT (PUT st.mem b.addr (b.size + n.size + 0))
          (b.addr + (b.size + n.size) - 8) (b.size + n.size + 0))
          (q.addr + (q.size + (b.size + n.size))) post' st.heap_end := by
        rw [hsum]; exact (Chain.splitAt hch1).2.2
      have hlt2 : q.size + (b.size + n.size) < 2 ^ 64 := by omega
      have hch2 := Chain.retag (t := 0) hpre1' hpost2 (by omega) (by omega) hlt2 (Or.inl rfl)
      refine CoalesceOut.ofParts _ _ hl (mergedAddr_merge hq0) hmS hch2
        (fun h1 h2 =>
            NoAdjFree.glue (NoAdjFree.init_last h1 hq0).1 (NoAdjFree.tail_head h2 hn0).1
              (NoAdjFree.init_last h1 hq0).2 (NoAdjFree.tail_head h2 hn0).2)
        ?cursor ?bytes ?words ?bstat ?starts ?mle ?merged
      case cursor =>
        intro h
        have h1 : CursorOK (if n.addr = st.nextfit_start then b.addr else st.nextfit_start)
            (pre' ++ [q] ++ b :: post') := by
          rcases h with h | ⟨x, hx, hxc⟩
          · left; rw [if_neg (by omega)]; exact h
          · right
            by_cases hc : n.addr = st.nextfit_start
            · rw [if_pos hc]; exact ⟨b, by simp, rfl⟩
            · rw [if_neg hc]
              simp only [List.mem_append, List.mem_cons, List.mem_singleton,
                List.not_mem_nil, or_false] at hx
              rcases hx with (hx | hxq) | hxb | hxn | hx
              · exact ⟨x, by simp [hx], hxc⟩
              · exact ⟨x, by simp [hxq], hxc⟩
              · exact ⟨x, by simp [hxb], hxc⟩
              · rw [hxn] at hxc; exact absurd hxc hc
              · exact ⟨x, by simp [hx], hxc⟩
        generalize (if n.addr = st.nextfit_start then b.addr else st.nextfit_start) = c1
          at h1 ⊢
        rcases h1 with h | ⟨x, hx, hxc⟩
        · left; rw [if_neg (by omega)]; exact h
        · right
          by_cases hc : b.addr = c1
          · rw [if_pos hc]
            exact ⟨{ addr := q.addr, size := q.size + (b.size + n.size), status := 0 },
              by simp, rfl⟩
          · rw [if_neg hc]
            simp only [List.mem_append, List.mem_cons, List.mem_singleton,
              List.not_mem_nil, or_false] at hx
            rcases hx with (hx | hxq) | hxb | hx
            · exact ⟨x, by simp [hx], hxc⟩
            · exact ⟨{ addr := q.addr, size := q.size + (b.size + n.size), status := 0 },
                by simp, by rw [← hxc, hxq]⟩
            · rw [hxb] at hxc; exact absurd hxc hc
            · exact ⟨x, by simp [hx], hxc⟩
      case bytes =>
        intro a ha
        dsimp only
        rw [PUT2_bytes _ _ _ _ _ _ (by omega) (by omega),
          PUT2_bytes _ _ _ _ _ _ (by omega) (by omega)]
      case words =>
        intro y hy hne hne2
        dsimp only
        rw [PUT2_words _ _ _ _ _ _ hy (by omega) (by omega) hne,
          PUT2_words _ _ _ _ _ _ hy hal (by omega) hne2]
      case bstat =>
        dsimp only
        rw [GET_STATUS_eq, PUT2_words _ _ _ _ _ _ hal (by omega) (by omega) (by omega),
          GET_PUT_other _ _ _ _ (by omega), GET_PUT_same]
        omega
      case starts =>
        intro x hx
        simp only [List.mem_append, List.mem_cons, List.mem_singleton,
          List.not_mem_nil, or_false] at hx
        rcases hx with (hx | hxq) | hxb | hxn | hx
        · exact Or.inl ⟨x, by simp [hx], rfl⟩
        · exact Or.inl ⟨{ addr := q.addr, size := q.size + (b.size + n.size), status := 0 },
            by simp, by rw [hxq]⟩
        · exact Or.inr (by rw [hxb]; exact hb)
        · exact Or.inr (by rw [hxn]; exact hn0)
        · exact Or.inl ⟨x, by simp [hx], rfl⟩
      case mle =>
        exact ⟨by omega, by omega, by omega⟩
      case merged =>
        exact ⟨{ addr := q.addr, size := q.size + (b.size + n.size), status := 0 }, by simp,
          rfl, rfl, by dsimp only; omega⟩

/-! ## `mm_free` on a well-formed heap -/

theorem Chain.aligned {m : Mem} : ∀ {bs : List Block} {a e : Nat},
    Chain m a bs e → a % 32 = 0 → (∀ b ∈ bs, b.addr % 32 = 0) ∧ e % 32 = 0
  | [], a, e, h, ha => by
    simp only [Chain] at h
    subst h
    exact ⟨by simp, ha⟩
  | x :: xs, a, e, h, ha => by
    obtain ⟨h1, h2, h3⟩ := h
    have := h2.2.1
    obtain ⟨r1, r2⟩ := Chain.aligned h3 (by omega)
    refine ⟨?_, r2⟩
    intro b hb
    rcases List.mem_cons.1 hb with hb | hb
    · rw [hb]; omega
    · exact r1 b hb

theorem Inv.he_lt {st : State} {bs : List Block} (h : Inv st bs) : st.heap_end < 2 ^ 64 := by
  have h1 := h.he_eq
  have h2 := h.brk_lim
  have h3 := h.lim_lt
  omega

theorem NoAdjFree.sides {pre post : List Block} {b : Block} (h : NoAdjFree (pre ++ b :: post)) :
    NoAdjFree pre ∧ NoAdjFree post := by
  unfold NoAdjFree at *
  rw [List.chain'_append, List.chain'_cons'] at h
  exact ⟨h.1, h.2.1.2⟩

theorem NoAdjFree.neighbours {pre post : List Block} {b : Block}
    (h : NoAdjFree (pre ++ b :: post)) (hb : b.status = 0) :
    (∀ x ∈ pre.getLast?, x.status ≠ 0) ∧ (∀ y ∈ post.head?, y.status ≠ 0) := by
  unfold NoAdjFree at *
  rw [List.chain'_append, List.chain'_cons'] at h
  exact ⟨fun x hx hc => h.2.2 x hx b (by simp) ⟨hc, hb⟩, fun y hy hc => h.2.1.1 y hy ⟨hb, hc⟩⟩

theorem coalesceBlocks_ne_nil (pre post : List Block) (b : Block) :
    coalesceBlocks pre b post ≠ [] := by
  unfold coalesceBlocks mergePrev
  cases pre.getLast? with
  | none => simp
  | some q => by_cases h : q.status = FREE <;> simp [h]

theorem mm_free_eq {st : State} {pre post : List Block} {b : Block}
    (h : Inv st (pre ++ b :: post)) (hb : b.status = 1) :
    mm_free st (b.addr + 8) = coalesce (markFree st b) b.addr := by
  obtain ⟨-, hbt, -⟩ := Chain.splitAt h.chain
  have h1 := hbt.get_status
  have h2 := hbt.get_size
  simp [mm_free, markFree, TYPE_SIZE, h1, h2, hb, ALLOC, PACK, FREE]

theorem markFree_chain {st : State} {pre post : List Block} {b : Block}
    (h : Inv st (pre ++ b :: post)) :
    Chain (markFree st b).mem st.heap_start
      (pre ++ { addr := b.addr, size := b.size, status := 0 } :: post) st.heap_end := by
  obtain ⟨hpre, hbt, hpost⟩ := Chain.splitAt h.chain
  exact Chain.retag hpre hpost hbt.1 hbt.2.1 hbt.2.2.1 (Or.inl rfl)

theorem mm_free_out {st : State} {pre post : List Block} {b : Block}
    (h : Inv st (pre ++ b :: post)) (hb : b.status = 1) :
    CoalesceOut (markFree st b) (mm_free st (b.addr + 8)) pre
      { addr := b.addr, size := b.size, status := 0 } post := by
  rw [mm_free_eq h hb]
  obtain ⟨hpre, hbt, hpost⟩ := Chain.splitAt h.chain
  have l1 := Chain.le hpre
  have l2 := Chain.le hpost
  have hb32 := hbt.1
  have hs := h.hs_pos
  have hal := (Chain.aligned h.chain h.hs_al).1 b (by simp)
  refine @coalesce_spec (markFree st b) pre post { addr := b.addr, size := b.size, status := 0 }
    (markFree_chain h) rfl hal ?_ ?_ (by show 8 ≤ st.heap_start; omega) h.he_lt
  · show GET (PUT (PUT _ _ _) _ _) (st.heap_start - 8) = 1
    rw [GET_PUT_other _ _ _ _ (by omega), GET_PUT_other _ _ _ _ (by omega)]
    exact h.lo
  · show GET (PUT (PUT _ _ _) _ _) st.heap_end = 1
    rw [GET_PUT_other _ _ _ _ (by omega), GET_PUT_other _ _ _ _ (by omega)]
    exact h.hi

/-- Releasing an ALLOCATED block of a well-formed heap leaves a well-formed heap whose block
list is `releaseBlocks`. -/
theorem mm_free_inv {st : State} {pre post : List Block} {b : Block}
    (h : Inv st (pre ++ b :: post)) (hb : b.status = 1) :
    Inv (mm_free st (b.addr + 8)) (releaseBlocks pre b post) := by
  have o := mm_free_out h hb
  have hs := h.hs_pos
  obtain ⟨M, hM1, hM2, hM3, hM4⟩ := o.merged
  have hmle : mergedAddr pre { addr := b.addr, size := b.size, status := 0 } ≤ b.addr ∧
      st.heap_start ≤ mergedAddr pre { addr := b.addr, size := b.size, status := 0 } ∧
      b.addr + (mergeNext { addr := b.addr, size := b.size, status := 0 } post).1.size
        ≤ st.heap_end := o.mle
  have hlo : GET (markFree st b).mem (st.heap_start - 8) = 1 := by
    obtain ⟨hpre, hbt, hpost⟩ := Chain.splitAt h.chain
    have l1 := Chain.le hpre
    have hb32 := hbt.1
    show GET (PUT (PUT _ _ _) _ _) (st.heap_start - 8) = 1
    rw [GET_PUT_other _ _ _ _ (by omega), GET_PUT_other _ _ _ _ (by omega)]
    exact h.lo
  have hhi : GET (markFree st b).mem st.heap_end = 1 := by
    obtain ⟨hpre, hbt, hpost⟩ := Chain.splitAt h.chain
    have l2 := Chain.le hpost
    have hb32 := hbt.1
    show GET (PUT (PUT _ _ _) _ _) st.heap_end = 1
    rw [GET_PUT_other _ _ _ _ (by omega), GET_PUT_other _ _ _ _ (by omega)]
    exact h.hi
  have e1 : (mm_free st (b.addr + 8)).heap_start = st.heap_start := o.hs
  have e2 : (mm_free st (b.addr + 8)).heap_end = st.heap_end := o.he
  have e3 : (mm_free st (b.addr + 8)).ds = st.ds := o.ds
  have e4 : (mm_free st (b.addr + 8)).ds_heap_brk = st.ds_heap_brk := o.dhb
  have e5 : (mm_free st (b.addr + 8)).get_block = st.get_block := o.gb
  have hsp := NoAdjFree.sides h.noadj
  exact
    { chain := by rw [e1, e2]; exact o.chain
      nonempty := coalesceBlocks_ne_nil _ _ _
      noadj := o.noadj hsp.1 hsp.2
      hs_al := by rw [e1]; exact h.hs_al
      hs_pos := by rw [e1]; exact h.hs_pos
      lo := by
        rw [e1, ← hlo]
        exact GET_congr (fun a ha1 ha2 => o.bytes a (Or.inl (by show a < _; omega)))
      hi := by
        rw [e2, ← hhi]
        exact GET_congr (fun a ha1 ha2 => o.bytes a (Or.inr (by show b.addr + _ ≤ a; omega)))
      brk_eq := by rw [e3, e4]; exact h.brk_eq
      he_eq := by rw [e2, e3]; exact h.he_eq
      brk_lim := by rw [e3]; exact h.brk_lim
      lim_lt := by rw [e3]; exact h.lim_lt
      cursor := by
        have := o.cursor (by
          show CursorOK st.nextfit_start _
          rcases h.cursor with hc | ⟨x, hx, hxc⟩
          · exact Or.inl hc
          · right
            simp only [List.mem_append, List.mem_cons] at hx
            rcases hx with hx | hxb | hx
            · exact ⟨x, by simp [hx], hxc⟩
            · exact ⟨{ addr := b.addr, size := b.size, status := 0 }, by simp,
                by rw [← hxc, hxb]⟩
            · exact ⟨x, by simp [hx], hxc⟩)
        exact this
      policy := by rw [e5]; exact h.policy }

theorem scan_loop_chain {m : Mem} (size : Nat) {e : Nat} : ∀ (bs : List Block) (a fuel : Nat),
    Chain m a bs e → bs ≠ [] → GET m e = 1 →
    (bs.length ≤ fuel → scan_loop m size fuel a =
        Res.ok ((bs.find? (fits size)).map Block.addr)) ∧
    (scan_loop m size fuel a = Res.nofuel ∨
      scan_loop m size fuel a = Res.ok ((bs.find? (fits size)).map Block.addr))
  | [], _, _, _, hne, _ => absurd rfl hne
  | b :: rest, a, fuel, hch, _, hi => by
    obtain ⟨h1, hbt, hrest⟩ := hch
    have hsz := hbt.get_size
    have hst := hbt.get_status
    rw [h1] at hsz hst
    cases fuel with
    | zero => exact ⟨fun h => by simp at h, Or.inl rfl⟩
    | succ fuel =>
      by_cases hf : b.status = FREE ∧ size ≤ b.size
      · have hfit : fits size b = true := by simp [fits, hf]
        have e1 : scan_loop m size (fuel + 1) a = Res.ok (some a) := by
          simp only [scan_loop, hsz, hst, ge_iff_le]
          rw [if_pos hf]
        have e2 : ((b :: rest).find? (fits size)).map Block.addr = some a := by
          simp [List.find?, hfit, h1]
        rw [e1, e2]
        exact ⟨fun _ => rfl, Or.inr rfl⟩
      · have hfit : fits size b = false := by simp [fits, hf]
        have e2 : (b :: rest).find? (fits size) = rest.find? (fits size) := by
          simp [List.find?, hfit]
        rw [e2]
        cases rest with
        | nil =>
          simp only [Chain] at hrest
          have hz : ¬ (GET_SIZE m (a + b.size) > 0) := by
            rw [GET_SIZE_eq, hrest, hi]; decide
          have e1 : scan_loop m size (fuel + 1) a = Res.ok none := by
            simp only [scan_loop, hsz, hst, ge_iff_le]
            rw [if_neg hf, if_neg hz]
          rw [e1]
          exact ⟨fun _ => rfl, Or.inr rfl⟩
        | cons c rest' =>
          have hc := hrest.2.1.get_size
          have hc32 := hrest.2.1.1
          rw [hrest.1] at hc
          have hz : GET_SIZE m (a + b.size) > 0 := by omega
          have e1 : scan_loop m size (fuel + 1) a = scan_loop m size fuel (a + b.size) := by
            simp only [scan_loop, hsz, hst, ge_iff_le]
            rw [if_neg hf, if_pos hz]
          rw [e1]
          have ih := scan_loop_chain size (c :: rest') (a + b.size) fuel hrest (by simp) hi
          exact ⟨fun h => ih.1 (by simp at h ⊢; omega), ih.2⟩

theorem bf_loop_chain {m : Mem} (size : Nat) {e : Nat} : ∀ (bs : List Block) (a fuel bb bz : Nat)
    (acc : Option Block),
    Chain m a bs e → bs ≠ [] → GET m e = 1 → 0 < a → BestRel bb bz acc →
    (bs.length ≤ fuel → bf_loop m size fuel a bb bz = Res.ok (addrOf (bestFrom size acc bs))) ∧
    (bf_loop m size fuel a bb bz = Res.nofuel ∨
      bf_loop m size fuel a bb bz = Res.ok (addrOf (bestFrom size acc bs)))
  | [], _, _, _, _, _, _, hne, _, _, _ => absurd rfl hne
  | b :: rest, a, fuel, bb, bz, acc, hch, _, hi, ha, hrel => by
    obtain ⟨h1, hbt, hrest⟩ := hch
    have hsz := hbt.get_size
    have hst := hbt.get_status
    have hb32 := hbt.1
    rw [h1] at hsz hst
    cases fuel with
    | zero => exact ⟨fun h => by simp at h, Or.inl rfl⟩
    | succ fuel =>
      -- the accumulator after this block
      have key : ∃ acc1 : Option Block,
          bestFrom size acc (b :: rest) = bestFrom size acc1 rest ∧
          BestRel
            (if b.status = FREE ∧ b.size ≥ size ∧ (bb = NULL ∨ b.size < bz) then a else bb)
            (if b.status = FREE ∧ b.size ≥ size ∧ (bb = NULL ∨ b.size < bz) then b.size else bz)
            acc1 := by
        cases acc with
        | none =>
          simp only [BestRel] at hrel
          by_cases hf : b.status = FREE ∧ size ≤ b.size
          · refine ⟨some b, by simp [bestFrom, fits, hf], ?_⟩
            have : b.status = FREE ∧ b.size ≥ size ∧ (bb = NULL ∨ b.size < bz) :=
              ⟨hf.1, hf.2, Or.inl hrel⟩
            rw [if_pos this, if_pos this]
            exact ⟨h1.symm, rfl, by rw [h1]; unfold NULL; omega⟩
          · refine ⟨none, by simp [bestFrom, fits, hf], ?_⟩
            have : ¬ (b.status = FREE ∧ b.size ≥ size ∧ (bb = NULL ∨ b.size < bz)) :=
              fun h => hf ⟨h.1, h.2.1⟩
            rw [if_neg this]
            exact hrel
        | some c =>
          obtain ⟨r1, r2, r3⟩ := hrel
          by_cases hf : (b.status = FREE ∧ size ≤ b.size) ∧ b.size < c.size
          · refine ⟨some b, by simp [bestFrom, fits, hf], ?_⟩
            have : b.status = FREE ∧ b.size ≥ size ∧ (bb = NULL ∨ b.size < bz) :=
              ⟨hf.1.1, hf.1.2, Or.inr (by rw [r2]; exact hf.2)⟩
            rw [if_pos this, if_pos this]
            exact ⟨h1.symm, rfl, by rw [h1]; unfold NULL; omega⟩
          · refine ⟨some c, ?_, ?_⟩
            · simp only [bestFrom, fits, decide_eq_true_eq]
              rw [if_neg hf]
            · have : ¬ (b.status = FREE ∧ b.size ≥ size ∧ (bb = NULL ∨ b.size < bz)) := by
                rintro ⟨g1, g2, g3 | g3⟩
                · exact r3 (by rw [← r1]; exact g3)
                · exact hf ⟨⟨g1, g2⟩, by rw [← r2]; exact g3⟩
              rw [if_neg this, if_neg this]
              exact ⟨r1, r2, r3⟩
      obtain ⟨acc1, hk1, hk2⟩ := key
      rw [hk1]
      cases rest with
      | nil =>
        simp only [Chain] at hrest
        have hz : ¬ (GET_SIZE m (a + b.size) > 0) := by
          rw [GET_SIZE_eq, hrest, hi]; decide
        have e1 : bf_loop m size (fuel + 1) a bb bz =
            Res.ok (if b.status = FREE ∧ b.size ≥ size ∧ (bb = NULL ∨ b.size < bz) then a
              else bb) := by
          simp only [bf_loop, hsz, hst]
          rw [if_neg hz]
        have e3 : (if b.status = FREE ∧ b.size ≥ size ∧ (bb = NULL ∨ b.size < bz) then a
              else bb) = addrOf (bestFrom size acc1 []) := by
          cases acc1 with
          | none => exact hk2
          | some c => exact hk2.1
        rw [e1, e3]
        exact ⟨fun _ => rfl, Or.inr rfl⟩
      | cons c rest' =>
        have hc := hrest.2.1.get_size
        have hc32 := hrest.2.1.1
        rw [hrest.1] at hc
        have hz : GET_SIZE m (a + b.size) > 0 := by omega
        have e1 : bf_loop m size (fuel + 1) a bb bz =
            bf_loop m size fuel (a + b.size)
              (if b.status = FREE ∧ b.size ≥ size ∧ (bb = NULL ∨ b.size < bz) then a else bb)
              (if b.status = FREE ∧ b.size ≥ size ∧ (bb = NULL ∨ b.size < bz) then b.size
                else bz) := by
          simp only [bf_loop, hsz, hst]
          rw [if_pos hz]
        rw [e1]
        have ih := bf_loop_chain size (c :: rest') (a + b.size) fuel _ _ acc1 hrest (by simp) hi
          (by omega) hk2
        exact ⟨fun h => ih.1 (by simp at h ⊢; omega), ih.2⟩

theorem dropWhile_chain {m : Mem} {c e : Nat} : ∀ (bs : List Block) (a : Nat),
    Chain m a bs e → (∃ x ∈ bs, x.addr = c) →
    ∃ pre, bs = pre ++ bs.dropWhile (fun b => decide (b.addr ≠ c)) ∧
      bs.dropWhile (fun b => decide (b.addr ≠ c)) ≠ [] ∧
      Chain m c (bs.dropWhile (fun b => decide (b.addr ≠ c))) e
  | [], _, _, h => by simp at h
  | b :: rest, a, hch, ⟨x, hx, hxc⟩ => by
    by_cases hb : b.addr = c
    · have e1 : (b :: rest).dropWhile (fun b => decide (b.addr ≠ c)) = b :: rest := by
        simp [List.dropWhile, hb]
      rw [e1]
      refine ⟨[], rfl, by simp, ?_⟩
      rw [← hb, hch.1]
      exact hch
    · have e1 : (b :: rest).dropWhile (fun b => decide (b.addr ≠ c)) =
          rest.dropWhile (fun b => decide (b.addr ≠ c)) := by
        simp [List.dropWhile, hb]
      rw [e1]
      have hx' : x ∈ rest := by
        rcases List.mem_cons.1 hx with h | h
        · rw [h] at hxc; exact absurd hxc hb
        · exact h
      obtain ⟨pre, h1, h2, h3⟩ := dropWhile_chain rest (a + b.size) hch.2.2 ⟨x, hx', hxc⟩
      exact ⟨b :: pre, by rw [List.cons_append, ← h1], h2, h3⟩

theorem scanFrom_chain {m : Mem} {c hs e : Nat} {bs : List Block} (hch : Chain m hs bs e)
    (hne : bs ≠ []) (hc : CursorOK c bs) :
    ∃ pre, bs = pre ++ scanFrom c bs ∧ scanFrom c bs ≠ [] ∧
      Chain m (if c = NULL then hs else c) (scanFrom c bs) e := by
  unfold scanFrom
  by_cases h0 : c = NULL
  · simp only [if_pos h0]
    exact ⟨[], rfl, hne, hch⟩
  · simp only [if_neg h0]
    rcases hc with hc | hc
    · exact absurd hc h0
    · exact dropWhile_chain bs hs hch hc

theorem bestFrom_nil (size : Nat) (acc : Option Block) : bestFrom size acc [] = acc := by
  cases acc <;> rfl

theorem bestFrom_sound (size : Nat) : ∀ (bs : List Block) (acc : Option Block) (r : Block),
    bestFrom size acc bs = some r → acc = some r ∨ (r ∈ bs ∧ fits size r = true)
  | [], acc, r, h => Or.inl (by rw [bestFrom_nil] at h; exact h)
  | b :: bs, none, r, h => by
    simp only [bestFrom] at h
    rcases bestFrom_sound size bs _ r h with h1 | h1
    · by_cases hf : fits size b = true
      · rw [if_pos hf] at h1
        injection h1 with h1
        exact Or.inr ⟨by rw [h1]; simp, by rw [← h1]; exact hf⟩
      · rw [if_neg hf] at h1
        exact absurd h1 (by simp)
    · exact Or.inr ⟨List.mem_cons_of_mem _ h1.1, h1.2⟩
  | b :: bs, some c, r, h => by
    simp only [bestFrom] at h
    rcases bestFrom_sound size bs _ r h with h1 | h1
    · by_cases hf : fits size b = true ∧ b.size < c.size
      · rw [if_pos hf] at h1
        injection h1 with h1
        exact Or.inr ⟨by rw [h1]; simp, by rw [← h1]; exact hf.1⟩
      · rw [if_neg hf] at h1
        exact Or.inl h1
    · exact Or.inr ⟨List.mem_cons_of_mem _ h1.1, h1.2⟩

theorem bestFrom_isSome (size : Nat) : ∀ (bs : List Block) (acc : Option Block),
    (acc.isSome ∨ ∃ x ∈ bs, fits size x = true) → (bestFrom size acc bs).isSome
  | [], acc, h => by
    rcases h with h | ⟨x, hx, _⟩
    · rw [bestFrom_nil]; exact h
    · simp at hx
  | b :: bs, none, h => by
    simp only [bestFrom]
    apply bestFrom_isSome
    rcases h with h | ⟨x, hx, hf⟩
    · simp at h
    · rcases List.mem_cons.1 hx with h1 | h1
      · left; rw [← h1, if_pos hf]; rfl
      · exact Or.inr ⟨x, h1, hf⟩
  | b :: bs, some c, _ => by
    simp only [bestFrom]
    apply bestFrom_isSome
    left
    by_cases hf : fits size b = true ∧ b.size < c.size
    · rw [if_pos hf]; rfl
    · rw [if_neg hf]; rfl

/-- A chosen block is a FREE block of the list, large enough for the request. -/
theorem policyChoice_sound {ap : AllocationPolicy} {c size : Nat} {bs : List Block} {b : Block}
    (h : policyChoice ap c size bs = some b) :
    b.status = 0 ∧ size ≤ b.size ∧ ∃ pre post, bs = pre ++ b :: post := by
  have key : b ∈ bs ∧ fits size b = true := by
    cases ap with
    | ap_FirstFit => exact ⟨List.mem_of_find?_eq_some h, List.find?_some h⟩
    | ap_NextFit =>
      simp only [policyChoice] at h
      refine ⟨?_, List.find?_some h⟩
      have hm := List.mem_of_find?_eq_some h
      unfold scanFrom at hm
      by_cases h0 : c = NULL
      · rw [if_pos h0] at hm; exact hm
      · rw [if_neg h0] at hm
        exact (List.dropWhile_sublist _).subset hm
    | ap_BestFit =>
      rcases bestFrom_sound size bs none b h with h1 | h1
      · exact absurd h1 (by simp)
      · exact h1
    | ap_other n => simp [policyChoice] at h
  obtain ⟨h1, h2⟩ := key
  simp only [fits, FREE, decide_eq_true_eq] at h2
  exact ⟨h2.1, h2.2, List.append_of_mem h1⟩

theorem Inv.addr_ne_null {st : State} {bs : List Block} (h : Inv st bs) :
    ∀ x ∈ bs, x.addr ≠ NULL := by
  intro x hx
  have := (Chain.mem_tagged h.chain hx).2.1
  have := h.hs_pos
  unfold NULL
  omega

theorem ff_get_free_block_spec {st : State} {bs : List Block} (h : Inv st bs)
    (fuel size : Nat) :
    (bs.length ≤ fuel → ff_get_free_block fuel st size =
        Res.ok (applyChoice st (bs.find? (fits size)))) ∧
    (ff_get_free_block fuel st size = Res.nofuel ∨
      ff_get_free_block fuel st size = Res.ok (applyChoice st (bs.find? (fits size)))) := by
  have l := scan_loop_chain size bs st.heap_start fuel h.chain h.nonempty h.hi
  unfold ff_get_free_block
  refine ⟨fun hf => ?_, ?_⟩
  · rw [l.1 hf]; cases bs.find? (fits size) <;> rfl
  · rcases l.2 with l2 | l2
    · left; rw [l2]
    · right; rw [l2]; cases bs.find? (fits size) <;> rfl

theorem nf_get_free_block_spec {st : State} {bs : List Block} (h : Inv st bs)
    (fuel size : Nat) :
    (bs.length ≤ fuel → nf_get_free_block fuel st size =
        Res.ok (applyChoice st ((scanFrom st.nextfit_start bs).find? (fits size)))) ∧
    (nf_get_free_block fuel st size = Res.nofuel ∨
      nf_get_free_block fuel st size =
        Res.ok (applyChoice st ((scanFrom st.nextfit_start bs).find? (fits size)))) := by
  obtain ⟨pre, h1, h2, h3⟩ := scanFrom_chain h.chain h.nonempty h.cursor
  have l := scan_loop_chain size (scanFrom st.nextfit_start bs) _ fuel h3 h2 h.hi
  have hlen : (scanFrom st.nextfit_start bs).length ≤ bs.length := by
    conv => rhs; rw [h1]
    simp
  unfold nf_get_free_block
  refine ⟨fun hf => ?_, ?_⟩
  · dsimp only
    rw [l.1 (by omega)]; cases (scanFrom st.nextfit_start bs).find? (fits size) <;> rfl
  · dsimp only
    rcases l.2 with l2 | l2
    · left; rw [l2]
    · right; rw [l2]; cases (scanFrom st.nextfit_start bs).find? (fits size) <;> rfl

theorem bf_get_free_block_spec {st : State} {bs : List Block} (h : Inv st bs)
    (fuel size : Nat) :
    (bs.length ≤ fuel → bf_get_free_block fuel st size =
        Res.ok (applyChoice st (bestFrom size none bs))) ∧
    (bf_get_free_block fuel st size = Res.nofuel ∨
      bf_get_free_block fuel st size = Res.ok (applyChoice st (bestFrom size none bs))) := by
  have l := bf_loop_chain size bs st.heap_start fuel NULL 0 none h.chain h.nonempty h.hi
    (by have := h.hs_pos; omega) rfl
  have hnz : ∀ x, bestFrom size none bs = some x → x.addr ≠ NULL := by
    intro x hx
    rcases bestFrom_sound size bs none x hx with h1 | h1
    · exact absurd h1 (by simp)
    · exact h.addr_ne_null x h1.1
  have hmatch : ∀ o : Option Block, (∀ x, o = some x → x.addr ≠ NULL) →
      (if addrOf o = NULL then Res.ok (st, NULL)
        else Res.ok ({ st with nextfit_start := addrOf o }, addrOf o)) =
      Res.ok (applyChoice st o) := by
    intro o ho
    cases o with
    | none => simp [addrOf, applyChoice]
    | some x => simp [addrOf, applyChoice, ho x rfl]
  unfold bf_get_free_block
  refine ⟨fun hf => ?_, ?_⟩
  · rw [l.1 hf]; exact hmatch _ hnz
  · rcases l.2 with l2 | l2
    · left; rw [l2]
    · right; rw [l2]; exact hmatch _ hnz

/-- What the call through `get_block` returns on a well-formed heap. -/
theorem call_get_block_spec {st : State} {bs : List Block} (h : Inv st bs) (fuel size : Nat) :
    (bs.length ≤ fuel → call_get_block fuel st size =
        Res.ok (applyChoice st (policyChoice st.get_block st.nextfit_start size bs))) ∧
    (call_get_block fuel st size = Res.nofuel ∨
      call_get_block fuel st size =
        Res.ok (applyChoice st (policyChoice st.get_block st.nextfit_start size bs))) := by
  have hpol := h.policy
  unfold call_get_block policyChoice
  generalize st.get_block = g at hpol ⊢
  cases g with
  | ap_FirstFit => exact ff_get_free_block_spec h fuel size
  | ap_NextFit => exact nf_get_free_block_spec h fuel size
  | ap_BestFit => exact bf_get_free_block_spec h fuel size
  | ap_other n => exact absurd rfl (hpol n)

theorem mm_malloc_succ (fuel : Nat) (st : State) (size : Nat) :
    mm_malloc (fuel + 1) st size =
      match call_get_block fuel st (blockSizeOf size) with
      | Res.panic => Res.panic
      | Res.nofuel => Res.nofuel
      | Res.ok (st1, block) =>
        if block = NULL then
          match expand_heap st1 with
          | Res.ok st2 => mm_malloc fuel st2 size
          | Res.panic => Res.panic
          | Res.nofuel => Res.nofuel
        else Res.ok (place st1 block (blockSizeOf size)) := rfl

theorem blockSizeOf_bounds {size : Nat} (h : size ≤ 2 ^ 64 - 48) :
    32 ≤ blockSizeOf size ∧ blockSizeOf size % 32 = 0 ∧ size + 16 ≤ blockSizeOf size ∧
      blockSizeOf size < size + 48 := by
  unfold blockSizeOf ROUND_UP TYPE_SIZE WORD_MOD BS
  have e1 : (8 + size + 8) % 2 ^ 64 = size + 16 := by
    rw [Nat.mod_eq_of_lt (by omega)]; omega
  have e2 : (size + 16 + 32 - 1) % 2 ^ 64 = size + 47 := by
    rw [Nat.mod_eq_of_lt (by omega)]; omega
  rw [e1, e2]
  omega

theorem PlaceOut.ofMem {st : State} {pre post L : List Block} {b : Block} {blocksize : Nat}
    (m' : Mem) (hl : placeBlocks b blocksize = L)
    (inv : Inv { st with mem := m' } (pre ++ L ++ post))
    (bytes : ∀ a, (a < b.addr ∨ b.addr + b.size ≤ a) → m' a = st.mem a)
    (words : ∀ y, y % 32 = 0 → y ≠ b.addr → y ≠ b.addr + blocksize → GET m' y = GET st.mem y)
    (payload : ∀ a, b.addr + 8 ≤ a → a < b.addr + blocksize - 8 → m' a = st.mem a) :
    PlaceOut st { st with mem := m' } pre b post blocksize := by
  subst hl
  exact ⟨inv, rfl, rfl, rfl, rfl, rfl, bytes, words, payload⟩

theorem place_spec {st : State} {pre post : List Block} {b : Block} {blocksize : Nat}
    (h : Inv st (pre ++ b :: post)) (hb : b.status = 0) (hle : blocksize ≤ b.size)
    (h32 : 32 ≤ blocksize) (hm : blocksize % 32 = 0) :
    PlaceOut st (place st b.addr blocksize).1 pre b post blocksize ∧
      (place st b.addr blocksize).2 = b.addr + 8 := by
  obtain ⟨hpre, hbt, hpost⟩ := Chain.splitAt h.chain
  have l1 := Chain.le hpre
  have l2 := Chain.le hpost
  have hsz := hbt.get_size
  have hblt := hbt.2.2.1
  have hbm := hbt.2.1
  have hal := (Chain.aligned h.chain h.hs_al).1 b (by simp)
  have hs := h.hs_pos
  have hP : PACK blocksize ALLOC = blocksize + 1 := PACK_eq _ _ (by omega) (by decide)
  have hnb := NoAdjFree.neighbours h.noadj hb
  have hsp := NoAdjFree.sides h.noadj
  refine ⟨?_, rfl⟩
  by_cases hsplit : blocksize < b.size
  · -- the block is split
    have e : (place st b.addr blocksize).1 =
        { st with
          mem := PUT (PUT (PUT (PUT st.mem (b.addr + blocksize) (b.size - blocksize + 0))
            (b.addr + blocksize + (b.size - blocksize) - 8) (b.size - blocksize + 0))
              b.addr (blocksize + 1)) (b.addr + blocksize - 8) (blocksize + 1) } := by
      simp only [place, hsz, if_pos hsplit, hP, PACK_FREE, TYPE_SIZE, Nat.add_zero]
    have hl : placeBlocks b blocksize =
        [{ addr := b.addr, size := blocksize, status := 1 },
         { addr := b.addr + blocksize, size := b.size - blocksize, status := 0 }] := by
      simp [placeBlocks, hsplit, ALLOC, FREE]
    have hpost1 : Chain st.mem (b.addr + blocksize + (b.size - blocksize)) post st.heap_end := by
      have : b.addr + blocksize + (b.size - blocksize) = b.addr + b.size := by omega
      rw [this]; exact hpost
    have c1 := @Chain.retag st.mem [] post (b.addr + blocksize) st.heap_end
      (b.addr + blocksize) (b.size - blocksize) 0 rfl hpost1
      (by omega) (by omega) (by omega) (Or.inl rfl)
    have hpre1 : Chain (PUT (PUT st.mem (b.addr + blocksize) (b.size - blocksize + 0))
        (b.addr + blocksize + (b.size - blocksize) - 8) (b.size - blocksize + 0))
        st.heap_start pre b.addr := by
      refine Chain.frame (fun q _ hq2 => ?_) hpre
      rw [GET_PUT_other _ _ _ _ (by omega), GET_PUT_other _ _ _ _ (by omega)]
    have c2 := Chain.retag (t := 1) hpre1 c1 h32 hm (by omega) (Or.inr rfl)
    rw [e]
    refine PlaceOut.ofMem _ hl ?inv ?bytes ?words ?payload
    case inv =>
      exact
          { chain := by simpa using c2
            nonempty := by simp
            noadj := by
              have := @NoAdjFree.glue
                (pre ++ [{ addr := b.addr, size := blocksize, status := 1 }]) post
                { addr := b.addr + blocksize, size := b.size - blocksize, status := 0 }
                (by
                  unfold NoAdjFree at *
                  rw [List.chain'_append]
                  refine ⟨hsp.1, List.chain'_singleton _, ?_⟩
                  intro x _ y hy hc
                  simp at hy
                  rw [← hy] at hc
                  simp [FREE] at hc)
                hsp.2 (by simp) hnb.2
              simpa using this
            hs_al := h.hs_al, hs_pos := h.hs_pos
            lo := by
              show GET (PUT (PUT (PUT (PUT _ _ _) _ _) _ _) _ _) (st.heap_start - 8) = 1
              rw [GET_PUT_other _ _ _ _ (by omega), GET_PUT_other _ _ _ _ (by omega),
                GET_PUT_other _ _ _ _ (by omega), GET_PUT_other _ _ _ _ (by omega)]
              exact h.lo
            hi := by
              show GET (PUT (PUT (PUT (PUT _ _ _) _ _) _ _) _ _) st.heap_end = 1
              rw [GET_PUT_other _ _ _ _ (by omega), GET_PUT_other _ _ _ _ (by omega),
                GET_PUT_other _ _ _ _ (by omega), GET_PUT_other _ _ _ _ (by omega)]
              exact h.hi
            brk_eq := h.brk_eq, he_eq := h.he_eq, brk_lim := h.brk_lim, lim_lt := h.lim_lt
            cursor := by
              rcases h.cursor with hc | ⟨x, hx, hxc⟩
              · exact Or.inl hc
              · right
                simp only [List.mem_append, List.mem_cons] at hx
                rcases hx with hx | hxb | hx
                · exact ⟨x, by simp [hx], hxc⟩
                · exact ⟨{ addr := b.addr, size := blocksize, status := 1 }, by simp,
                    by rw [← hxc, hxb]⟩
                · exact ⟨x, by simp [hx], hxc⟩
            policy := h.policy }
    case bytes =>
      intro a ha
      rw [PUT2_bytes _ _ _ _ _ _ (by omega) (by omega),
        PUT2_bytes _ _ _ _ _ _ (by omega) (by omega)]
    case words =>
      intro y hy hne hne2
      rw [PUT2_words _ _ _ _ _ _ hy hal (by omega) hne,
        PUT2_words _ _ _ _ _ _ hy (by omega) (by omega) hne2]
    case payload =>
      intro a ha1 ha2
      rw [PUT2_bytes _ _ _ _ _ _ (by omega) (by omega),
        PUT2_bytes _ _ _ _ _ _ (by omega) (by omega)]
  · -- the whole block is used
    have heq : blocksize = b.size := by omega
    have e : (place st b.addr blocksize).1 =
        { st with
          mem := PUT (PUT st.mem b.addr (blocksize + 1)) (b.addr + blocksize - 8)
              (blocksize + 1) } := by
      simp only [place, hsz, if_neg hsplit, hP, TYPE_SIZE]
    have hl : placeBlocks b blocksize =
        [{ addr := b.addr, size := blocksize, status := 1 }] := by
      simp [placeBlocks, hsplit, ALLOC]
    have hpost1 : Chain st.mem (b.addr + blocksize) post st.heap_end := by
      rw [heq]; exact hpost
    have c2 := Chain.retag (t := 1) hpre hpost1 h32 hm (by omega) (Or.inr rfl)
    rw [e]
    refine PlaceOut.ofMem _ hl ?inv ?bytes ?words ?payload
    case inv =>
      exact
          { chain := by simpa using c2
            nonempty := by simp
            noadj := by
              have := NoAdjFree.glue (M := { addr := b.addr, size := blocksize, status := 1 })
                hsp.1 hsp.2 hnb.1 hnb.2
              simpa using this
            hs_al := h.hs_al, hs_pos := h.hs_pos
            lo := by
              show GET (PUT (PUT _ _ _) _ _) (st.heap_start - 8) = 1
              rw [GET_PUT_other _ _ _ _ (by omega), GET_PUT_other _ _ _ _ (by omega)]
              exact h.lo
            hi := by
              show GET (PUT (PUT _ _ _) _ _) st.heap_end = 1
              rw [GET_PUT_other _ _ _ _ (by omega), GET_PUT_other _ _ _ _ (by omega)]
              exact h.hi
            brk_eq := h.brk_eq, he_eq := h.he_eq, brk_lim := h.brk_lim, lim_lt := h.lim_lt
            cursor := by
              rcases h.cursor with hc | ⟨x, hx, hxc⟩
              · exact Or.inl hc
              · right
                simp only [List.mem_append, List.mem_cons] at hx
                rcases hx with hx | hxb | hx
                · exact ⟨x, by simp [hx], hxc⟩
                · exact ⟨{ addr := b.addr, size := blocksize, status := 1 }, by simp,
                    by rw [← hxc, hxb]⟩
                · exact ⟨x, by simp [hx], hxc⟩
            policy := h.policy }
    case bytes =>
      exact fun a ha => PUT2_bytes _ _ _ _ _ _ (by omega) (by omega)
    case words =>
      exact fun y hy hne _ => PUT2_words _ _ _ _ _ _ hy hal (by omega) hne
    case payload =>
      exact fun a ha1 ha2 => PUT2_bytes _ _ _ _ _ _ (by omega) (by omega)

theorem Inv.brk_ge {st : State} {bs : List Block} (h : Inv st bs) : 40 ≤ st.ds.brk := by
  have h1 := h.he_eq
  have h2 := h.hs_pos
  have h3 := Chain.le h.chain
  omega

theorem expand_heap_panic {st : State} (h : ¬ (st.ds.brk + 4096 ≤ st.ds.limit)) :
    expand_heap st = Res.panic := by
  simp [expand_heap, ds_sbrk, CHUNKSIZE, h]

theorem expand_heap_eq {st : State} {pre : List Block} {l : Block} (h : Inv st (pre ++ [l]))
    (hg : st.ds.brk + 4096 ≤ st.ds.limit) :
    expand_heap st =
      if l.status = 0 then Res.ok (coalesce (growRaw st) l.addr) else Res.ok (growRaw st) := by
  obtain ⟨hpre, hlt, hpost⟩ := Chain.splitAt h.chain
  simp only [Chain] at hpost
  have hbrk := h.brk_ge
  have hlim := h.lim_lt
  have hhe := h.he_eq
  have hl32 := hlt.1
  have lpre := Chain.le hpre
  have hfs := hlt.ftr_size
  rw [hpost] at hfs
  have hprev : PREV_BLOCK st.mem st.heap_end = l.addr := by
    unfold PREV_BLOCK TYPE_SIZE
    rw [hfs]; omega
  have hend : (st.ds.brk + 4096 + 2 ^ 64 - 8) % 2 ^ 64 / 32 * 32 = st.heap_end + 4096 := by
    have : (st.ds.brk + 4096 + 2 ^ 64 - 8) % 2 ^ 64 = st.ds.brk + 4088 := by omega
    rw [this]; omega
  have hP : PACK 0 ALLOC = 1 := by decide
  have hP0 : ∀ s, PACK s 0 = s := fun s => by simp [PACK]
  have hnext : NEXT_BLOCK (PUT st.mem (st.heap_end + 4096) 1) l.addr = st.heap_end := by
    unfold NEXT_BLOCK
    rw [GET_SIZE_eq, GET_PUT_other _ _ _ _ (by omega), ← GET_SIZE_eq, hlt.get_size]
    exact hpost
  have hsize : (st.heap_end + 4096 + 2 ^ 64 - st.heap_end) % 2 ^ 64 = 4096 := by omega
  have hst : GET_STATUS (PUT (PUT (PUT st.mem (st.heap_end + 4096) 1) st.heap_end 4096)
      (st.heap_end + 4096 - 8) 4096) l.addr = l.status := by
    rw [GET_STATUS_eq, GET_PUT_other _ _ _ _ (by omega), GET_PUT_other _ _ _ _ (by omega),
      GET_PUT_other _ _ _ _ (by omega), ← GET_STATUS_eq, hlt.get_status]
  have hsb : ds_sbrk st.ds CHUNKSIZE = some (st.ds.brk, { st.ds with brk := st.ds.brk + 4096 }) := by
    simp [ds_sbrk, CHUNKSIZE, hg]
  simp only [expand_heap, hsb, hprev, WORD_MOD, TYPE_SIZE, BS, hend, hP, hnext, hsize, FREE, hP0,
    hst, growRaw, Nat.add_zero]

theorem growRaw_chain {st : State} {bs : List Block} (h : Inv st bs) :
    Chain (growRaw st).mem st.heap_start (bs ++ [newBlock st]) (st.heap_end + 4096) := by
  have l1 := Chain.le h.chain
  have c0 : Chain (PUT st.mem (st.heap_end + 4096) 1) st.heap_start bs st.heap_end := by
    refine Chain.frame (fun q _ hq2 => ?_) h.chain
    rw [GET_PUT_other _ _ _ _ (by omega)]
  exact @Chain.retag _ bs [] st.heap_start (st.heap_end + 4096) st.heap_end 4096 0 c0 rfl
    (by omega) (by omega) (by omega) (Or.inl rfl)

theorem growRaw_hi (st : State) : GET (growRaw st).mem (st.heap_end + 4096) = 1 := by
  show GET (PUT (PUT (PUT _ _ _) _ _) _ _) _ = 1
  rw [GET_PUT_other _ _ _ _ (by omega), GET_PUT_other _ _ _ _ (by omega), GET_PUT_same]
  rfl

theorem growRaw_other (st : State) (q : Nat) (hq : q + 8 ≤ st.heap_end) :
    GET (growRaw st).mem q = GET st.mem q := by
  show GET (PUT (PUT (PUT _ _ _) _ _) _ _) _ = _
  rw [GET_PUT_other _ _ _ _ (by omega), GET_PUT_other _ _ _ _ (by omega),
    GET_PUT_other _ _ _ _ (by omega)]

theorem growRaw_bytes (st : State) (a : Nat) (ha : a < st.heap_end) :
    (growRaw st).mem a = st.mem a := by
  show PUT (PUT (PUT _ _ _) _ _) _ _ a = _
  rw [PUT_byte_other _ _ _ _ (by omega), PUT_byte_other _ _ _ _ (by omega),
    PUT_byte_other _ _ _ _ (by omega)]

/-- Well-formedness after `coalesce`, from the facts that hold before it. -/
theorem CoalesceOut.toInv {st st' : State} {pre post : List Block} {b : Block}
    (o : CoalesceOut st st' pre b post)
    (hs_al : st.heap_start % 32 = 0) (hs_pos : 32 ≤ st.heap_start)
    (lo : GET st.mem (st.heap_start - 8) = 1) (hi : GET st.mem st.heap_end = 1)
    (brk_eq : st.ds_heap_brk = st.ds.brk) (he_eq : st.heap_end = (st.ds.brk - 8) / 32 * 32)
    (brk_lim : st.ds.brk ≤ st.ds.limit) (lim_lt : st.ds.limit < 2 ^ 64)
    (hc : CursorOK st.nextfit_start (pre ++ b :: post))
    (hn1 : NoAdjFree pre) (hn2 : NoAdjFree post)
    (policy : ∀ n, st.get_block ≠ AllocationPolicy.ap_other n) :
    Inv st' (coalesceBlocks pre b post) := by
  have hmle := o.mle
  have e1 := o.hs
  have e2 := o.he
  have e3 := o.ds
  have e4 := o.dhb
  have e5 := o.gb
  exact
    { chain := by rw [e1, e2]; exact o.chain
      nonempty := coalesceBlocks_ne_nil _ _ _
      noadj := o.noadj hn1 hn2
      hs_al := by rw [e1]; exact hs_al
      hs_pos := by rw [e1]; exact hs_pos
      lo := by
        rw [e1, ← lo]
        exact GET_congr (fun a ha1 ha2 => o.bytes a (Or.inl (by omega)))
      hi := by
        rw [e2, ← hi]
        exact GET_congr (fun a ha1 ha2 => o.bytes a (Or.inr (by omega)))
      brk_eq := by rw [e3, e4]; exact brk_eq
      he_eq := by rw [e2, e3]; exact he_eq
      brk_lim := by rw [e3]; exact brk_lim
      lim_lt := by rw [e3]; exact lim_lt
      cursor := o.cursor hc
      policy := by rw [e5]; exact policy }

theorem growBlocks_alloc {pre : List Block} {l : Block} (h : l.status = 1) :
    growBlocks (pre ++ [l]) =
      pre ++ [l] ++ [{ addr := l.addr + l.size, size := 4096, status := 0 }] := by
  simp [growBlocks, FREE, h, CHUNKSIZE]

theorem growBlocks_free {pre : List Block} {l : Block} (h : l.status = 0) :
    growBlocks (pre ++ [l]) = pre ++ [{ addr := l.addr, size := l.size + 4096, status := 0 }] := by
  simp [growBlocks, FREE, h, CHUNKSIZE]

theorem lastFree_snoc (pre : List Block) (l : Block) :
    lastFree (pre ++ [l]) = if l.status = 0 then l.size else 0 := by
  simp [lastFree, FREE]

theorem growStart_snoc (pre : List Block) (l : Block) :
    growStart (pre ++ [l]) = if l.status = 0 then l.addr else l.addr + l.size := by
  simp [growStart, FREE]

/-- A granted heap growth keeps the heap well formed and extends the trailing FREE space by
one chunk. -/
theorem expand_heap_spec {st : State} {bs : List Block} (h : Inv st bs)
    (hg : st.ds.brk + 4096 ≤ st.ds.limit) :
    ∃ st', expand_heap st = Res.ok st' ∧ GrowOut st st' bs := by
  rcases snoc_cases bs with hnil | ⟨pre, l, rfl⟩
  · exact absurd hnil h.nonempty
  obtain ⟨hpre, hlt, hpost⟩ := Chain.splitAt h.chain
  simp only [Chain] at hpost
  have hbrk := h.brk_ge
  have hlim := h.lim_lt
  have hhe := h.he_eq
  have hl32 := hlt.1
  have lpre := Chain.le hpre
  have hspos := h.hs_pos
  have hal := Chain.aligned h.chain h.hs_al
  have hch := growRaw_chain h
  have hlo : GET (growRaw st).mem (st.heap_start - 8) = 1 := by
    rw [growRaw_other st _ (by omega)]; exact h.lo
  have hhe' : st.heap_end + 4096 = (st.ds.brk + 4096 - 8) / 32 * 32 := by omega
  rw [expand_heap_eq h hg]
  rcases hlt.2.2.2.1 with h0 | h1
  · -- the trailing block is FREE: the new space is merged into it
    rw [if_pos h0]
    refine ⟨_, rfl, ?_⟩
    have hch2 : Chain (growRaw st).mem (growRaw st).heap_start (pre ++ l :: [newBlock st])
        (growRaw st).heap_end := by
      have := hch
      rw [List.append_assoc] at this
      exact this
    have o := coalesce_spec hch2 h0 (hal.1 l (by simp)) hlo (growRaw_hi st)
      (by show 8 ≤ st.heap_start; omega) (by show st.heap_end + 4096 < 2 ^ 64; omega)
    have hnb := NoAdjFree.neighbours h.noadj h0
    have hsp := NoAdjFree.sides h.noadj
    have hmN : mergeNext l [newBlock st] =
        ({ addr := l.addr, size := l.size + 4096, status := 0 }, []) := by
      simp [mergeNext, newBlock, FREE]
    have hl : coalesceBlocks pre l [newBlock st] = growBlocks (pre ++ [l]) := by
      rw [growBlocks_free h0]
      simp [coalesceBlocks, hmN, mergePrev_keep hnb.1]
    have hM : mergedAddr pre l = l.addr := mergedAddr_keep hnb.1
    have hinv := o.toInv h.hs_al h.hs_pos hlo (growRaw_hi st) rfl hhe' hg h.lim_lt
      (by
        show CursorOK st.nextfit_start _
        rcases h.cursor with hc | ⟨x, hx, hxc⟩
        · exact Or.inl hc
        · exact Or.inr ⟨x, by
            rcases List.mem_append.1 hx with hx | hx
            · exact List.mem_append_left _ hx
            · exact List.mem_append_right _
                (List.mem_cons.2 (Or.inl (List.mem_singleton.1 hx))), hxc⟩)
      hsp.1 (List.chain'_singleton _) h.policy
    rw [hl] at hinv
    have obytes := o.bytes
    have owords := o.words
    rw [hM] at obytes owords
    exact
      { inv := hinv
        he := o.he, hs := o.hs
        brk := by rw [o.ds]; rfl
        lim := by rw [o.ds]; rfl
        gb := o.gb
        bytes := fun a ha => by
          rw [growStart_snoc, if_pos h0] at ha
          rw [obytes a (Or.inl ha)]
          exact growRaw_bytes st a (by omega)
        words := fun y hy hlt' hne => by
          have hne1 : y ≠ l.addr := by
            intro hc
            refine hne { addr := l.addr, size := l.size + 4096, status := 0 } ?_ hc.symm
            rw [growBlocks_free h0]; simp
          rw [owords y hy hne1 hne1]
          exact growRaw_other st y (by have := hal.2; omega)
        starts := fun x hx => by
          rw [growBlocks_free h0]
          simp only [List.mem_append, List.mem_singleton] at hx
          rcases hx with hx | hx
          · exact ⟨x, by simp [hx], rfl⟩
          · exact ⟨{ addr := l.addr, size := l.size + 4096, status := 0 }, by simp, by rw [hx]⟩ }
  · -- the trailing block is ALLOCATED: the new space is a block of its own
    have hne : ¬ l.status = 0 := by omega
    rw [if_neg hne]
    refine ⟨_, rfl, ?_⟩
    have hgl : growBlocks (pre ++ [l]) = pre ++ [l] ++ [newBlock st] := by
      rw [growBlocks_alloc h1, newBlock, hpost]
    exact
      { inv := by
          rw [hgl]
          exact
            { chain := hch
              nonempty := by simp
              noadj := by
                have := @NoAdjFree.glue (pre ++ [l]) [] (newBlock st) h.noadj
                  List.chain'_nil (by simp [h1]) (by simp)
                simpa using this
              hs_al := h.hs_al, hs_pos := h.hs_pos, lo := hlo, hi := growRaw_hi st
              brk_eq := rfl, he_eq := hhe', brk_lim := hg, lim_lt := h.lim_lt
              cursor := by
                rcases h.cursor with hc | ⟨x, hx, hxc⟩
                · exact Or.inl hc
                · exact Or.inr ⟨x, List.mem_append_left _ hx, hxc⟩
              policy := h.policy }
        he := rfl, hs := rfl, brk := rfl, lim := rfl, gb := rfl
        bytes := fun a ha => by
          rw [growStart_snoc, if_neg hne] at ha
          exact growRaw_bytes st a (by omega)
        words := fun y hy hlt' _ => growRaw_other st y (by have := hal.2; omega)
        starts := fun x hx => ⟨x, by rw [hgl]; exact List.mem_append_left _ hx, rfl⟩ }

theorem Inv.with_cursor {st : State} {bs : List Block} (h : Inv st bs) {b : Block}
    (hb : b ∈ bs) : Inv (withCursor st b.addr) bs :=
  { chain := h.chain, nonempty := h.nonempty, noadj := h.noadj, hs_al := h.hs_al
    hs_pos := h.hs_pos, lo := h.lo, hi := h.hi, brk_eq := h.brk_eq, he_eq := h.he_eq
    brk_lim := h.brk_lim, lim_lt := h.lim_lt, cursor := Or.inr ⟨b, hb, rfl⟩
    policy := h.policy }

/-- What a returning `mm_malloc` did: it grew the heap while the policy found nothing, then
placed the block in the block the policy chose. -/
theorem mm_malloc_partial (size : Nat) : ∀ (fuel : Nat) (st : State) (bs : List Block)
    (r : State × Nat), Inv st bs → mm_malloc fuel st size = Res.ok r →
    ∃ stk bsk b, GrowsTo (blockSizeOf size) st bs stk bsk ∧ Inv stk bsk ∧
      policyChoice stk.get_block stk.nextfit_start (blockSizeOf size) bsk = some b ∧
      r = place (withCursor stk b.addr) b.addr (blockSizeOf size)
  | 0, _, _, _, _, h => by simp [mm_malloc] at h
  | fuel + 1, st, bs, r, hinv, h => by
    rw [mm_malloc_succ] at h
    rcases (call_get_block_spec hinv fuel (blockSizeOf size)).2 with hc | hc
    · rw [hc] at h; exact absurd h (by simp)
    · rw [hc] at h
      cases hch : policyChoice st.get_block st.nextfit_start (blockSizeOf size) bs with
      | none =>
        rw [hch] at h
        simp only [applyChoice, if_pos] at h
        by_cases hg : st.ds.brk + 4096 ≤ st.ds.limit
        · obtain ⟨st1, he, hout⟩ := expand_heap_spec hinv hg
          rw [he] at h
          obtain ⟨stk, bsk, b, g1, g2, g3, g4⟩ :=
            mm_malloc_partial size fuel st1 (growBlocks bs) r hout.inv h
          exact ⟨stk, bsk, b, GrowsTo.step hinv hch he hout g1, g2, g3, g4⟩
        · rw [expand_heap_panic hg] at h
          exact absurd h (by simp)
      | some b =>
        rw [hch] at h
        have hb := policyChoice_sound hch
        obtain ⟨pre, post, hbs⟩ := hb.2.2
        have hne : b.addr ≠ NULL := hinv.addr_ne_null b (by rw [hbs]; simp)
        simp only [applyChoice, if_neg hne] at h
        injection h with h
        exact ⟨st, bs, b, GrowsTo.refl st bs, hinv, hch, h.symm⟩

theorem growBlocks_length (bs : List Block) : (growBlocks bs).length ≤ bs.length + 1 := by
  rcases snoc_cases bs with rfl | ⟨pre, l, rfl⟩
  · simp [growBlocks]
  · by_cases h : l.status = FREE <;> simp [growBlocks, h]

theorem lastFree_growBlocks {bs : List Block} (h : bs ≠ []) :
    lastFree (growBlocks bs) = lastFree bs + 4096 := by
  rcases snoc_cases bs with rfl | ⟨pre, l, rfl⟩
  · exact absurd rfl h
  · by_cases h0 : l.status = 0
    · simp [growBlocks, lastFree, h0, CHUNKSIZE, FREE]
    · simp [growBlocks, lastFree, h0, CHUNKSIZE, FREE]

/-- A trailing FREE block that satisfies the request is within reach of every policy. -/
theorem policyChoice_isSome {st : State} {bs : List Block} (h : Inv st bs) {size : Nat}
    (hpos : 0 < size) (hl : size ≤ lastFree bs) :
    (policyChoice st.get_block st.nextfit_start size bs).isSome := by
  rcases snoc_cases bs with hnil | ⟨pre, l, rfl⟩
  · exact absurd hnil h.nonempty
  rw [lastFree_snoc] at hl
  have hl0 : l.status = 0 := by
    by_contra hc
    rw [if_neg hc] at hl
    omega
  rw [if_pos hl0] at hl
  have hfit : fits size l = true := by simp [fits, FREE, hl0, hl]
  have hpol := h.policy
  obtain ⟨p2, e1, e2, -⟩ := scanFrom_chain h.chain h.nonempty h.cursor
  unfold policyChoice
  generalize st.get_block = g at hpol ⊢
  cases g with
  | ap_FirstFit =>
    exact List.find?_isSome.2 ⟨l, by simp, hfit⟩
  | ap_NextFit =>
    refine List.find?_isSome.2 ⟨l, ?_, hfit⟩
    rcases snoc_cases (scanFrom st.nextfit_start (pre ++ [l])) with hn | ⟨q, l', hq⟩
    · exact absurd hn e2
    · rw [hq, ← List.append_assoc] at e1
      have := List.append_inj_right' e1 rfl
      rw [hq]
      simp only [List.cons.injEq, and_true] at this
      rw [this]; simp
  | ap_BestFit =>
    exact bestFrom_isSome size _ none (Or.inr ⟨l, by simp, hfit⟩)
  | ap_other n => exact absurd rfl (hpol n)

/-- With a provider that grants `n` more chunks and enough steps, `mm_malloc` returns. -/
theorem mm_malloc_total (size : Nat) (hsz : size ≤ 2 ^ 64 - 48) : ∀ (n fuel : Nat) (st : State)
    (bs : List Block), Inv st bs → blockSizeOf size ≤ lastFree bs + 4096 * n →
    st.ds.brk + 4096 * n ≤ st.ds.limit → bs.length + 2 * n + 1 ≤ fuel →
    ∃ r, mm_malloc fuel st size = Res.ok r
  | n, 0, _, _, _, _, _, hf => by omega
  | n, fuel + 1, st, bs, hinv, hfit, hgrant, hf => by
    rw [mm_malloc_succ, (call_get_block_spec hinv fuel (blockSizeOf size)).1 (by omega)]
    cases hch : policyChoice st.get_block st.nextfit_start (blockSizeOf size) bs with
    | none =>
      cases n with
      | zero =>
        have hb32 := (blockSizeOf_bounds hsz).1
        have := @policyChoice_isSome st bs hinv (blockSizeOf size) (by omega)
          (by simpa using hfit)
        rw [hch] at this
        exact absurd this (by simp)
      | succ n =>
        obtain ⟨st1, he, hout⟩ := expand_heap_spec hinv (by omega)
        simp only [applyChoice, if_pos, he]
        have hlen := growBlocks_length bs
        have hbrk := hout.brk
        have hlim := hout.lim
        exact mm_malloc_total size hsz n fuel st1 (growBlocks bs) hout.inv
          (by rw [lastFree_growBlocks hinv.nonempty]; omega) (by omega) (by omega)
    | some b =>
      have hb := policyChoice_sound hch
      obtain ⟨pre, post, hbs⟩ := hb.2.2
      have hne : b.addr ≠ NULL := hinv.addr_ne_null b (by rw [hbs]; simp)
      simp only [applyChoice, if_neg hne]
      exact ⟨_, rfl⟩

theorem mm_init_unfold (ap : AllocationPolicy) (d : DataSeg) (m : Mem)
    (hap : ∀ n, ap ≠ AllocationPolicy.ap_other n) :
    mm_init ap d m =
      if d.start = NULL then Res.panic
      else if d.start ≠ d.brk then Res.panic
      else if d.pagesize = 0 then Res.panic
      else
        match ds_sbrk d CHUNKSIZE with
        | none => Res.panic
        | some (_, d1) =>
          Res.ok
            { ds := d1
              mem := PUT (PUT (PUT (PUT m ((d.start + TYPE_SIZE + BS - 1) % WORD_MOD / BS * BS
                  - TYPE_SIZE) (PACK 0 ALLOC))
                  ((d1.brk + WORD_MOD - TYPE_SIZE) % WORD_MOD / BS * BS) (PACK 0 ALLOC))
                  ((d.start + TYPE_SIZE + BS - 1) % WORD_MOD / BS * BS)
                  (PACK (((d1.brk + WORD_MOD - TYPE_SIZE) % WORD_MOD / BS * BS + WORD_MOD -
                    (d.start + TYPE_SIZE + BS - 1) % WORD_MOD / BS * BS) % WORD_MOD) FREE))
                  ((d1.brk + WORD_MOD - TYPE_SIZE) % WORD_MOD / BS * BS - TYPE_SIZE)
                  (PACK (((d1.brk + WORD_MOD - TYPE_SIZE) % WORD_MOD / BS * BS + WORD_MOD -
                    (d.start + TYPE_SIZE + BS - 1) % WORD_MOD / BS * BS) % WORD_MOD) FREE)
              ds_heap_start := d.start
              ds_heap_brk := d1.brk
              heap_start := (d.start + TYPE_SIZE + BS - 1) % WORD_MOD / BS * BS
              heap_end := (d1.brk + WORD_MOD - TYPE_SIZE) % WORD_MOD / BS * BS
              PAGESIZE := d.pagesize
              mm_initialized := 1
              nextfit_start := NULL
              get_block := ap } := by
  cases ap with
  | ap_other n => exact absurd rfl (hap n)
  | ap_FirstFit => rfl
  | ap_NextFit => rfl
  | ap_BestFit => rfl

/-- On a pristine provider that grants the first chunk, `mm_init` completes with
`initState`. -/
theorem mm_init_eq (ap : AllocationPolicy) (d : DataSeg) (m : Mem)
    (hap : ∀ n, ap ≠ AllocationPolicy.ap_other n) (h1 : d.start ≠ 0) (h2 : d.start = d.brk)
    (h3 : d.pagesize ≠ 0) (h4 : d.brk + 4096 ≤ d.limit) (hlim : d.limit < 2 ^ 64) :
    mm_init ap d m = Res.ok (initState ap d m) := by
  rw [mm_init_unfold ap d m hap, if_neg (show ¬ d.start = NULL from h1),
    if_neg (not_not.2 h2), if_neg h3]
  have hsb : ds_sbrk d CHUNKSIZE = some (d.brk, { d with brk := d.brk + 4096 }) := by
    simp [ds_sbrk, CHUNKSIZE, h4]
  rw [hsb]
  have e1 : (d.start + 8 + 32 - 1) % 2 ^ 64 / 32 * 32 = (d.start + 39) / 32 * 32 := by
    have : (d.start + 8 + 32 - 1) % 2 ^ 64 = d.start + 39 := by omega
    rw [this]
  have e2 : (d.brk + 4096 + 2 ^ 64 - 8) % 2 ^ 64 / 32 * 32 = (d.start + 4088) / 32 * 32 := by
    have : (d.brk + 4096 + 2 ^ 64 - 8) % 2 ^ 64 = d.start + 4088 := by omega
    rw [this]
  have e3 : ((d.start + 4088) / 32 * 32 + 2 ^ 64 - (d.start + 39) / 32 * 32) % 2 ^ 64 =
      (d.start + 4088) / 32 * 32 - (d.start + 39) / 32 * 32 := by omega
  have e4 : (d.start + 4088) / 32 * 32 - 8 = (d.start + 39) / 32 * 32 +
      ((d.start + 4088) / 32 * 32 - (d.start + 39) / 32 * 32) - 8 := by omega
  have hP : PACK 0 ALLOC = 1 := by decide
  simp only [TYPE_SIZE, BS, WORD_MOD, e1, e2, e3, hP, PACK_FREE, initState, Nat.add_zero]
  rw [← e4]

/-- When `mm_init` completes, and with which state. -/
theorem mm_init_ok {ap : AllocationPolicy} {d : DataSeg} {m : Mem} {st : State}
    (h : mm_init ap d m = Res.ok st) (hlim : d.limit < 2 ^ 64) :
    (∀ n, ap ≠ AllocationPolicy.ap_other n) ∧ d.start ≠ 0 ∧ d.start = d.brk ∧
      d.pagesize ≠ 0 ∧ d.brk + 4096 ≤ d.limit ∧ st = initState ap d m := by
  have hap : ∀ n, ap ≠ AllocationPolicy.ap_other n := by
    intro n hn
    subst hn
    simp [mm_init] at h
  have h' := h
  rw [mm_init_unfold ap d m hap] at h
  by_cases h1 : d.start = NULL
  · rw [if_pos h1] at h; exact absurd h (by simp)
  rw [if_neg h1] at h
  by_cases h2 : d.start ≠ d.brk
  · rw [if_pos h2] at h; exact absurd h (by simp)
  rw [if_neg h2] at h
  by_cases h3 : d.pagesize = 0
  · rw [if_pos h3] at h; exact absurd h (by simp)
  rw [if_neg h3] at h
  have h2' : d.start = d.brk := not_not.1 h2
  by_cases h4 : d.brk + 4096 ≤ d.limit
  · refine ⟨hap, h1, h2', h3, h4, ?_⟩
    rw [mm_init_eq ap d m hap h1 h2' h3 h4 hlim] at h'
    injection h' with h'
    exact h'.symm
  · have hsb : ds_sbrk d CHUNKSIZE = none := by
      simp [ds_sbrk, CHUNKSIZE, h4]
    rw [hsb] at h
    exact absurd h (by simp)

theorem initState_inv (ap : AllocationPolicy) (d : DataSeg) (m : Mem)
    (hap : ∀ n, ap ≠ AllocationPolicy.ap_other n) (hs : d.start = d.brk)
    (hg : d.brk + 4096 ≤ d.limit) (hlim : d.limit < 2 ^ 64) :
    Inv (initState ap d m)
      [{ addr := (d.start + 39) / 32 * 32,
         size := (d.start + 4088) / 32 * 32 - (d.start + 39) / 32 * 32, status := 0 }] := by
  have c := @Chain.retag (PUT (PUT m ((d.start + 39) / 32 * 32 - 8) 1)
    ((d.start + 4088) / 32 * 32) 1) [] [] ((d.start + 39) / 32 * 32)
    ((d.start + 4088) / 32 * 32) ((d.start + 39) / 32 * 32)
    ((d.start + 4088) / 32 * 32 - (d.start + 39) / 32 * 32) 0 rfl
    (by show _ + _ = _; omega) (by omega) (by omega) (by omega) (Or.inl rfl)
  exact
    { chain := c
      nonempty := by simp
      noadj := List.chain'_singleton _
      hs_al := by show (d.start + 39) / 32 * 32 % 32 = 0; omega
      hs_pos := by show 32 ≤ (d.start + 39) / 32 * 32; omega
      lo := by
        show GET (PUT (PUT (PUT (PUT _ _ _) _ _) _ _) _ _) ((d.start + 39) / 32 * 32 - 8) = 1
        rw [GET_PUT_other _ _ _ _ (by omega), GET_PUT_other _ _ _ _ (by omega),
          GET_PUT_other _ _ _ _ (by omega), GET_PUT_same]
        rfl
      hi := by
        show GET (PUT (PUT (PUT (PUT _ _ _) _ _) _ _) _ _) ((d.start + 4088) / 32 * 32) = 1
        rw [GET_PUT_other _ _ _ _ (by omega), GET_PUT_other _ _ _ _ (by omega),
          GET_PUT_same]
        rfl
      brk_eq := rfl
      he_eq := by show (d.start + 4088) / 32 * 32 = (d.brk + 4096 - 8) / 32 * 32; omega
      brk_lim := hg
      lim_lt := hlim
      cursor := Or.inl rfl
      policy := hap }

theorem StaleStep.refl (st : State) (bs : List Block) : StaleStep st bs st bs := by
  refine ⟨le_refl _, fun y _ _ hn h => ?_⟩
  rcases h with ⟨x, hx, hxy⟩ | h
  · exact absurd hxy (hn x hx)
  · exact h

theorem StaleStep.trans {st st1 st2 : State} {bs bs1 bs2 : List Block}
    (h1 : StaleStep st bs st1 bs1) (h2 : StaleStep st1 bs1 st2 bs2) :
    StaleStep st bs st2 bs2 := by
  refine ⟨le_trans h1.1 h2.1, fun y hy hlt hn h => ?_⟩
  by_cases hm : ∃ x ∈ bs1, x.addr = y
  · exact h2.2 y hy (lt_of_lt_of_le hlt h1.1) hn (Or.inl hm)
  · have := h1.2 y hy hlt (fun x hx hxy => hm ⟨x, hx, hxy⟩) h
    exact h2.2 y hy (lt_of_lt_of_le hlt h1.1) hn (Or.inr this)

theorem Stale.step {st st' : State} {bs bs' : List Block} {R : List Nat} (h : Stale st bs R)
    (hs : StaleStep st bs st' bs') : Stale st' bs' R := by
  intro p hp
  obtain ⟨h1, h2, h3, h4⟩ := h p hp
  refine ⟨h1, h2, lt_of_lt_of_le h3 hs.1, ?_⟩
  by_cases hm : ∃ x ∈ bs', x.addr = p - 8
  · exact Or.inl hm
  · exact Or.inr (hs.2 (p - 8) h2 h3 (fun x hx hxy => hm ⟨x, hx, hxy⟩) h4)

theorem GrowOut.stale {st st' : State} {bs : List Block} (o : GrowOut st st' bs) :
    StaleStep st bs st' (growBlocks bs) := by
  refine ⟨by rw [o.he]; omega, fun y hy hlt hn h => ?_⟩
  rcases h with ⟨x, hx, hxy⟩ | h
  · obtain ⟨x', hx', e⟩ := o.starts x hx
    exact absurd (e.trans hxy) (hn x' hx')
  · rw [GET_STATUS_eq, o.words y hy hlt hn, ← GET_STATUS_eq]
    exact h

theorem GrowsTo.staleSteps {blocksize : Nat} {st stk : State} {bs bsk : List Block}
    (g : GrowsTo blocksize st bs stk bsk) : StaleStep st bs stk bsk := by
  induction g with
  | refl st bs => exact StaleStep.refl st bs
  | step _ _ _ hout _ ih => exact StaleStep.trans hout.stale ih

theorem PlaceOut.stalePlace {st st' : State} {pre post : List Block} {b : Block}
    {blocksize : Nat} (o : PlaceOut st st' pre b post blocksize)
    (h : Inv st (pre ++ b :: post)) (hle : blocksize ≤ b.size) :
    StaleStep st (pre ++ b :: post) st' (pre ++ placeBlocks b blocksize ++ post) := by
  refine ⟨by rw [o.he], fun y hy hlt hn hold => ?_⟩
  obtain ⟨hpre, hbt, hpost⟩ := Chain.splitAt h.chain
  have hA : y ≠ b.addr := by
    intro hc
    refine hn { addr := b.addr, size := blocksize, status := ALLOC } ?_ hc.symm
    by_cases hsplit : blocksize < b.size <;> simp [placeBlocks, hsplit]
  have hR : y ≠ b.addr + blocksize := by
    intro hc
    by_cases hsplit : blocksize < b.size
    · refine hn { addr := b.addr + blocksize, size := b.size - blocksize, status := FREE } ?_
        hc.symm
      simp [placeBlocks, hsplit]
    · have heq : blocksize = b.size := by omega
      cases post with
      | nil =>
        simp only [Chain] at hpost
        omega
      | cons n post' =>
        have := hpost.1
        exact hn n (by simp) (by omega)
  rw [GET_STATUS_eq, o.words y hy hA hR, ← GET_STATUS_eq]
  rcases hold with ⟨x, hx, hxy⟩ | hold
  · exfalso
    simp only [List.mem_append, List.mem_cons] at hx
    rcases hx with hx | hx | hx
    · exact hn x (by simp [hx]) hxy
    · rw [hx] at hxy; exact hA hxy.symm
    · exact hn x (by simp [hx]) hxy
  · exact hold

theorem mm_free_staleStep {st : State} {pre post : List Block} {b : Block}
    (h : Inv st (pre ++ b :: post)) (hb : b.status = 1) :
    StaleStep st (pre ++ b :: post) (mm_free st (b.addr + 8)) (releaseBlocks pre b post) := by
  have o := mm_free_out h hb
  obtain ⟨hpre, hbt, hpost⟩ := Chain.splitAt h.chain
  have hal := (Chain.aligned h.chain h.hs_al).1 b (by simp)
  have hb32 := hbt.1
  have hbm := hbt.2.1
  refine ⟨by rw [o.he]; exact le_refl _, fun y hy hlt hn hold => ?_⟩
  by_cases hyb : y = b.addr
  · rw [hyb]
    have := o.bstat
    simp only [ALLOC] at this ⊢
    rw [this]; decide
  · obtain ⟨M, hM1, hM2, -, -⟩ := o.merged
    have hyM : y ≠ mergedAddr pre { addr := b.addr, size := b.size, status := 0 } := by
      intro hc
      exact hn M hM1 (by rw [hM2, hc])
    have hw := o.words y hy hyM hyb
    have hmark : GET (markFree st b).mem y = GET st.mem y :=
      PUT2_words _ _ _ _ _ _ hy hal (by omega) hyb
    rw [GET_STATUS_eq, hw, hmark, ← GET_STATUS_eq]
    rcases hold with ⟨x, hx, hxy⟩ | hold
    · have hxne : x ≠ b := by
        intro hc; rw [hc] at hxy; exact hyb hxy.symm
      have hx' : x ∈ pre ++ { addr := b.addr, size := b.size, status := 0 } :: post := by
        simp only [List.mem_append, List.mem_cons] at hx ⊢
        rcases hx with hx | hx | hx
        · exact Or.inl hx
        · exact absurd hx hxne
        · exact Or.inr (Or.inr hx)
      rcases o.starts x hx' with ⟨x', hx'm, e⟩ | h0
      · exact absurd (e.trans hxy) (hn x' hx'm)
      · have ht := (Chain.mem_tagged h.chain hx).1.get_status
        rw [hxy] at ht
        rw [ht, h0]; decide
    · exact hold

theorem Chain.frame_tags {m m' : Mem} : ∀ {bs : List Block} {a e : Nat},
    (∀ x ∈ bs, GET m' x.addr = GET m x.addr ∧
      GET m' (x.addr + x.size - 8) = GET m (x.addr + x.size - 8)) →
    Chain m a bs e → Chain m' a bs e
  | [], _, _, _, h => h
  | b :: bs, a, e, hf, h => by
    obtain ⟨h1, h2, h3⟩ := h
    obtain ⟨t1, t2, t3, t4, t5, t6⟩ := h2
    obtain ⟨f1, f2⟩ := hf b (by simp)
    exact ⟨h1, ⟨t1, t2, t3, t4, by rw [f1]; exact t5, by rw [f2]; exact t6⟩,
      Chain.frame_tags (fun x hx => hf x (List.mem_cons_of_mem _ hx)) h3⟩

theorem GET_STATUS_memset (m : Mem) (p n y : Nat) :
    GET_STATUS (memset m p 0 n) y = GET_STATUS m y ∨ GET_STATUS (memset m p 0 n) y = 0 := by
  rw [GET_STATUS_eq, GET_STATUS_eq, GET_mod8, GET_mod8]
  unfold memset
  by_cases h : p ≤ y ∧ y < p + n
  · right; rw [if_pos h]
  · left; rw [if_neg h]

/-- Zeroing part of the payload of an ALLOCATED block keeps the heap well formed. -/
theorem memset_inv {st : State} {pre post : List Block} {b : Block} {n : Nat}
    (h : Inv st (pre ++ b :: post)) (hn : n + 16 ≤ b.size) :
    Inv { st with mem := memset st.mem (b.addr + 8) 0 n } (pre ++ b :: post) ∧
    StaleStep st (pre ++ b :: post) { st with mem := memset st.mem (b.addr + 8) 0 n }
      (pre ++ b :: post) := by
  obtain ⟨hpre, hbt, hpost⟩ := Chain.splitAt h.chain
  have l1 := Chain.le hpre
  have l2 := Chain.le hpost
  have hs := h.hs_pos
  have hb32 := hbt.1
  constructor
  · exact
      { chain := by
          refine Chain.frame_tags (fun x hx => ?_) h.chain
          have hxt := (Chain.mem_tagged h.chain hx).1.1
          simp only [List.mem_append, List.mem_cons] at hx
          rcases hx with hx | hx | hx
          · have := (Chain.mem_tagged hpre hx).2
            exact ⟨GET_memset_other _ _ _ _ _ (by omega), GET_memset_other _ _ _ _ _ (by omega)⟩
          · rw [hx]
            exact ⟨GET_memset_other _ _ _ _ _ (by omega), GET_memset_other _ _ _ _ _ (by omega)⟩
          · have := (Chain.mem_tagged hpost hx).2
            exact ⟨GET_memset_other _ _ _ _ _ (by omega), GET_memset_other _ _ _ _ _ (by omega)⟩
        nonempty := h.nonempty, noadj := h.noadj, hs_al := h.hs_al, hs_pos := h.hs_pos
        lo := by
          show GET (memset _ _ _ _) (st.heap_start - 8) = 1
          rw [GET_memset_other _ _ _ _ _ (by omega)]; exact h.lo
        hi := by
          show GET (memset _ _ _ _) st.heap_end = 1
          rw [GET_memset_other _ _ _ _ _ (by omega)]; exact h.hi
        brk_eq := h.brk_eq, he_eq := h.he_eq, brk_lim := h.brk_lim, lim_lt := h.lim_lt
        cursor := h.cursor, policy := h.policy }
  · refine ⟨le_refl _, fun y _ _ hn' hold => ?_⟩
    rcases hold with ⟨x, hx, hxy⟩ | hold
    · exact absurd hxy (hn' x hx)
    · rcases GET_STATUS_memset st.mem (b.addr + 8) n y with e | e
      · show GET_STATUS (memset _ _ _ _) _ ≠ _
        rw [e]; exact hold
      · show GET_STATUS (memset _ _ _ _) _ ≠ _
        rw [e]; decide

theorem placeBlocks_eq (b : Block) (blocksize : Nat) :
    placeBlocks b blocksize =
      { addr := b.addr, size := blocksize, status := ALLOC } :: placeRest b blocksize := by
  by_cases h : blocksize < b.size <;> simp [placeBlocks, placeRest, h]

theorem mm_malloc_out {st st' : State} {bs : List Block} {fuel size p : Nat} (h : Inv st bs)
    (hsz : size ≤ 2 ^ 64 - 48) (hm : mm_malloc fuel st size = Res.ok (st', p)) :
    ∃ pre a post, MallocOut st st' bs size p pre a post := by
  obtain ⟨stk, bsk, b, g1, g2, g3, g4⟩ := mm_malloc_partial size fuel st bs (st', p) h hm
  obtain ⟨hb0, hble, pre, post, hbs⟩ := policyChoice_sound g3
  subst hbs
  have hbd := blockSizeOf_bounds hsz
  have hinv1 : Inv (withCursor stk b.addr) (pre ++ b :: post) := g2.with_cursor (by simp)
  obtain ⟨o, hp⟩ := place_spec hinv1 hb0 hble hbd.1 hbd.2.1
  rw [← g4] at o hp
  simp only at o hp
  have hal := (Chain.aligned g2.chain g2.hs_al).1 b (by simp)
  have hinv' := o.inv
  rw [placeBlocks_eq, List.append_assoc, List.cons_append] at hinv'
  have hst := o.stalePlace hinv1 hble
  rw [placeBlocks_eq, List.append_assoc, List.cons_append] at hst
  exact ⟨pre, { addr := b.addr, size := blockSizeOf size, status := ALLOC },
    placeRest b (blockSizeOf size) ++ post,
    { inv := hinv', ptr := hp, status := rfl, size_eq := rfl
      stale := StaleStep.trans g1.staleSteps hst, al := hal }⟩

theorem MallocOut.stale_cons {st st' : State} {bs pre post : List Block} {a : Block}
    {size p : Nat} {R : List Nat} (o : MallocOut st st' bs size p pre a post)
    (hs : Stale st bs R) : Stale st' (pre ++ a :: post) (p :: R) := by
  intro q hq
  rcases List.mem_cons.1 hq with hq | hq
  · have hb := (Chain.mem_tagged o.inv.chain (b := a) (by simp))
    have := hb.1.1
    have hp := o.ptr
    have hal := o.al
    subst hq
    refine ⟨by omega, by omega, by omega, Or.inl ⟨a, by simp, by omega⟩⟩
  · exact (hs.step o.stale) q hq

theorem mm_free_noop {st : State} {ptr : Nat} (h : GET_STATUS st.mem (ptr - 8) ≠ ALLOC) :
    mm_free st ptr = st := by
  simp [mm_free, TYPE_SIZE, h]

theorem mm_free_step {st : State} {bs : List Block} {R : List Nat} {ptr : Nat}
    (h : Inv st bs) (hs : Stale st bs R) (hp : ptr ∈ R) :
    ∃ bs', Inv (mm_free st ptr) bs' ∧ Stale (mm_free st ptr) bs' R := by
  obtain ⟨h8, -, -, hcase⟩ := hs ptr hp
  rcases hcase with ⟨x, hx, hxa⟩ | hna
  · have ht := (Chain.mem_tagged h.chain hx).1
    rcases ht.2.2.2.1 with h0 | h1
    · have : GET_STATUS st.mem (ptr - 8) ≠ ALLOC := by
        rw [← hxa, ht.get_status, h0]; decide
      rw [mm_free_noop this]
      exact ⟨bs, h, hs⟩
    · obtain ⟨pre, post, rfl⟩ := List.append_of_mem hx
      have hptr : ptr = x.addr + 8 := by omega
      rw [hptr]
      exact ⟨_, mm_free_inv h h1, hs.step (mm_free_staleStep h h1)⟩
  · rw [mm_free_noop hna]
    exact ⟨bs, h, hs⟩

/-- Every reachable state is well formed, and the pointers handed out stay harmless. -/
theorem Reach.invariant {st : State} {R : List Nat} (h : Reach st R) :
    ∃ bs, Inv st bs ∧ Stale st bs R := by
  induction h with
  | init hlim hinit =>
    obtain ⟨hap, -, h2, -, h4, rfl⟩ := mm_init_ok hinit hlim
    exact ⟨_, initState_inv _ _ _ hap h2 h4 hlim, fun p hp => by simp at hp⟩
  | malloc _ hsz hm ih =>
    obtain ⟨bs, hinv, hst⟩ := ih
    obtain ⟨pre, a, post, o⟩ := mm_malloc_out hinv hsz hm
    exact ⟨_, o.inv, o.stale_cons hst⟩
  | @calloc st st' R fuel nmemb size p _ hsz hm ih =>
    obtain ⟨bs, hinv, hst⟩ := ih
    unfold mm_calloc at hm
    cases hmm : mm_malloc fuel st (nmemb * size % WORD_MOD) with
    | panic => rw [hmm] at hm; exact absurd hm (by simp)
    | nofuel => rw [hmm] at hm; exact absurd hm (by simp)
    | ok r =>
      obtain ⟨st1, q⟩ := r
      rw [hmm] at hm
      obtain ⟨pre, a, post, o⟩ := mm_malloc_out hinv hsz hmm
      have hq : q ≠ NULL := by have := o.ptr; unfold NULL; omega
      simp only [if_pos hq, Res.ok.injEq, Prod.mk.injEq] at hm
      obtain ⟨hm1, hm2⟩ := hm
      subst hm2
      have hbd := blockSizeOf_bounds hsz
      have hsize := o.size_eq
      have hms := @memset_inv st1 pre post a (nmemb * size % WORD_MOD) o.inv
        (by unfold WORD_MOD; omega)
      rw [← o.ptr, hm1] at hms
      exact ⟨_, hms.1, (o.stale_cons hst).step hms.2⟩
  | @realloc st st' R fuel ptr size p _ hp hsz hm ih =>
    obtain ⟨bs, hinv, hst⟩ := ih
    obtain ⟨bs1, hinv1, hst1⟩ := mm_free_step hinv hst hp
    obtain ⟨pre, a, post, o⟩ := mm_malloc_out hinv1 hsz hm
    exact ⟨_, o.inv, o.stale_cons hst1⟩
  | free _ hp ih =>
    obtain ⟨bs, hinv, hst⟩ := ih
    exact mm_free_step hinv hst hp

theorem Reachable.wellFormed {st : State} (h : Reachable st) : WellFormed st := by
  obtain ⟨R, hR⟩ := h
  obtain ⟨bs, hinv, -⟩ := hR.invariant
  exact ⟨bs, hinv⟩

theorem exInit : mm_init AllocationPolicy.ap_NextFit exD exM = Res.ok exS0 :=
  mm_init_eq _ _ _ (by intro n h; cases h) (by decide) rfl (by decide) (by decide) (by decide)

theorem exStep1 : mm_malloc 3 exS0 40 = Res.ok (exS1, exP1) := by
  rfl

theorem exStep2 : mm_malloc 3 exS1 24 = Res.ok (exS2, exP2) := by
  rfl

theorem exReach0 : Reach exS0 [] := Reach.init (by decide) exInit

theorem exReach2 : Reach exS2 [exP2, exP1] :=
  Reach.malloc (Reach.malloc exReach0 (by decide) exStep1) (by decide) exStep2

theorem exReach3 : Reach exS3 [exP2, exP1] := Reach.free exReach2 (by simp)

theorem exBlocks2 : heap_blocks exS2 =
    some [{ addr := 4128, size := 64, status := 1 }, { addr := 4192, size := 64, status := 1 },
      { addr := 4256, size := 3904, status := 0 }] := by
  decide

/-! ## The structural invariants of reachable heaps -/

theorem Reachable.blocks {st : State} (h : Reachable st) :
    ∃ bs, Inv st bs ∧ heap_blocks st = some bs := by
  obtain ⟨bs, hinv⟩ := h.wellFormed
  exact ⟨bs, hinv, hinv.heap_blocks_eq⟩

/-- C1: in every heap state reachable from `mm_init` by `mm_malloc`, `mm_calloc`,
`mm_realloc` and `mm_free` calls, every block between the two sentinels has a footer word
equal to its header word (same size and same status). -/
theorem header_equals_footer (st : State) (h : Reachable st) :
    ∃ bs, heap_blocks st = some bs ∧
      ∀ b ∈ bs, GET st.mem (HDR2FTR st.mem b.addr) = GET st.mem b.addr ∧
        GET_SIZE st.mem (HDR2FTR st.mem b.addr) = b.size ∧
        GET_STATUS st.mem (HDR2FTR st.mem b.addr) = b.status := by
  obtain ⟨bs, hinv, hb⟩ := h.blocks
  refine ⟨bs, hb, fun b hbm => ?_⟩
  have ht := (Chain.mem_tagged hinv.chain hbm).1
  have e : HDR2FTR st.mem b.addr = b.addr + b.size - 8 := by
    unfold HDR2FTR TYPE_SIZE
    rw [ht.get_size]
  rw [e]
  exact ⟨by rw [ht.2.2.2.2.1, ht.2.2.2.2.2], ht.ftr_size, ht.ftr_status⟩

theorem header_equals_footer_witness :
    Reachable exS3 ∧ ∃ bs, heap_blocks exS3 = some bs ∧
      ∀ b ∈ bs, GET exS3.mem (HDR2FTR exS3.mem b.addr) = GET exS3.mem b.addr ∧
        GET_SIZE exS3.mem (HDR2FTR exS3.mem b.addr) = b.size ∧
        GET_STATUS exS3.mem (HDR2FTR exS3.mem b.addr) = b.status :=
  ⟨⟨_, exReach3⟩, header_equals_footer exS3 ⟨_, exReach3⟩⟩

/-- C2: in every reachable heap state, under each of the three fit policies, no two
heap-adjacent blocks (consecutive blocks of the walk) are both FREE. -/
theorem no_adjacent_free_blocks (st : State) (h : Reachable st) :
    ∃ bs, heap_blocks st = some bs ∧
      ∀ pre x y post, bs = pre ++ x :: y :: post →
        y.addr = x.addr + x.size ∧ ¬ (x.status = FREE ∧ y.status = FREE) := by
  obtain ⟨bs, hinv, hb⟩ := h.blocks
  refine ⟨bs, hb, fun pre x y post hbs => ?_⟩
  subst hbs
  obtain ⟨-, -, hpost⟩ := Chain.splitAt hinv.chain
  have hn := hinv.noadj
  unfold NoAdjFree at hn
  rw [List.chain'_append, List.chain'_cons] at hn
  exact ⟨hpost.1, hn.2.1.1⟩

theorem no_adjacent_free_blocks_witness :
    Reachable exS3 ∧ ∃ bs, heap_blocks exS3 = some bs ∧
      ∀ pre x y post, bs = pre ++ x :: y :: post →
        y.addr = x.addr + x.size ∧ ¬ (x.status = FREE ∧ y.status = FREE) :=
  ⟨⟨_, exReach3⟩, no_adjacent_free_blocks exS3 ⟨_, exReach3⟩⟩

/-- C3: in every reachable heap state the walk from `heap_start` along the header sizes ends
exactly at `heap_end`: the block sizes between the sentinels sum to `heap_end - heap_start`. -/
theorem walk_ends_at_heap_end (st : State) (h : Reachable st) :
    ∃ bs, heap_blocks st = some bs ∧ st.heap_start ≤ st.heap_end ∧
      (bs.map Block.size).sum = st.heap_end - st.heap_start := by
  obtain ⟨bs, hinv, hb⟩ := h.blocks
  have h1 := Chain.sum hinv.chain
  exact ⟨bs, hb, by omega, by omega⟩

theorem walk_ends_at_heap_end_witness :
    Reachable exS3 ∧ ∃ bs, heap_blocks exS3 = some bs ∧ exS3.heap_start ≤ exS3.heap_end ∧
      (bs.map Block.size).sum = exS3.heap_end - exS3.heap_start :=
  ⟨⟨_, exReach3⟩, walk_ends_at_heap_end exS3 ⟨_, exReach3⟩⟩

/-- C4: in every reachable heap state the size stored in every block's header is a positive
multiple of the minimum block size 32. -/
theorem block_sizes_multiple_of_BS (st : State) (h : Reachable st) :
    ∃ bs, heap_blocks st = some bs ∧
      ∀ b ∈ bs, GET_SIZE st.mem b.addr = b.size ∧ 0 < b.size ∧ b.size % BS = 0 := by
  obtain ⟨bs, hinv, hb⟩ := h.blocks
  refine ⟨bs, hb, fun b hbm => ?_⟩
  have ht := (Chain.mem_tagged hinv.chain hbm).1
  exact ⟨ht.get_size, by have := ht.1; omega, ht.2.1⟩

theorem block_sizes_multiple_of_BS_witness :
    Reachable exS3 ∧ ∃ bs, heap_blocks exS3 = some bs ∧
      ∀ b ∈ bs, GET_SIZE exS3.mem b.addr = b.size ∧ 0 < b.size ∧ b.size % BS = 0 :=
  ⟨⟨_, exReach3⟩, block_sizes_multiple_of_BS exS3 ⟨_, exReach3⟩⟩

/-! ## Allocation, zeroed allocation, reallocation and release -/

theorem mm_malloc_returns {st : State} {bs : List Block} (h : Inv st bs) {n k : Nat}
    (hn : n ≤ 2 ^ 64 - 48) (hk : blockSizeOf n ≤ 4096 * k)
    (hgrant : st.ds.brk + 4096 * k ≤ st.ds.limit) {fuel : Nat}
    (hf : bs.length + 2 * k + 1 ≤ fuel) :
    ∃ st' p pre a post, mm_malloc fuel st n = Res.ok (st', p) ∧
      MallocOut st st' bs n p pre a post := by
  obtain ⟨r, hr⟩ := mm_malloc_total n hn k fuel st bs h (by omega) hgrant hf
  obtain ⟨st', p⟩ := r
  obtain ⟨pre, a, post, o⟩ := mm_malloc_out h hn hr
  exact ⟨st', p, pre, a, post, hr, o⟩

/-- C5 (amended): for every request size `n ≤ 2 ^ 64 - 48`, on a reachable heap whose provider
grants the needed growth, `mm_malloc n` returns a payload pointer `p` equal to the start of an
ALLOCATED block plus the 8-byte header width, and the usable span between `p` and that block's
footer (block size - 16) is at least `n` bytes. -/
theorem malloc_usable_span (st : State) (h : Reachable st) (n k : Nat)
    (hn : n ≤ 2 ^ 64 - 48) (hk : blockSizeOf n ≤ 4096 * k)
    (hgrant : st.ds.brk + 4096 * k ≤ st.ds.limit) :
    ∃ N, ∀ fuel, N ≤ fuel → ∃ st' p bs b, mm_malloc fuel st n = Res.ok (st', p) ∧
      heap_blocks st' = some bs ∧ b ∈ bs ∧ p = b.addr + TYPE_SIZE ∧ b.status = ALLOC ∧
      n ≤ b.size - 2 * TYPE_SIZE := by
  obtain ⟨bs, hinv, -⟩ := h.blocks
  refine ⟨bs.length + 2 * k + 1, fun fuel hf => ?_⟩
  obtain ⟨st', p, pre, a, post, hr, o⟩ := mm_malloc_returns hinv hn hk hgrant hf
  have hbd := blockSizeOf_bounds hn
  refine ⟨st', p, pre ++ a :: post, a, hr, o.inv.heap_blocks_eq, by simp, o.ptr, o.status, ?_⟩
  rw [o.size_eq]
  unfold TYPE_SIZE
  omega

theorem malloc_usable_span_witness :
    ∃ N, ∀ fuel, N ≤ fuel → ∃ st' p bs b, mm_malloc fuel exS3 5000 = Res.ok (st', p) ∧
      heap_blocks st' = some bs ∧ b ∈ bs ∧ p = b.addr + TYPE_SIZE ∧ b.status = ALLOC ∧
      5000 ≤ b.size - 2 * TYPE_SIZE :=
  malloc_usable_span exS3 ⟨_, exReach3⟩ 5000 2 (by decide) (by decide) (by decide)

/-- C5 (counterexample): on the freshly initialised heap `mm_malloc(2^64 - 1)` returns the
payload pointer of a 32-byte ALLOCATED block, whose usable span of 16 bytes is far below the
requested size. -/
theorem malloc_usable_span_counterexample :
    ∃ st' p, mm_malloc 3 exS0 (2 ^ 64 - 1) = Res.ok (st', p) ∧ p = 4128 + TYPE_SIZE ∧
      heap_blocks st' = some [{ addr := 4128, size := 32, status := ALLOC },
        { addr := 4160, size := 4000, status := FREE }] ∧
      32 - 2 * TYPE_SIZE < 2 ^ 64 - 1 :=
  ⟨(resultOf (mm_malloc 3 exS0 (2 ^ 64 - 1)) exS0).1,
    (resultOf (mm_malloc 3 exS0 (2 ^ 64 - 1)) exS0).2, by rfl, by decide, by decide, by decide⟩

/-- C6 (failing input): `b` holds the byte `0xAB`; `mm_realloc(b, 32)` releases `b`, which
merges with the FREE blocks on both sides, and allocates anew at the start of the heap: the
returned pointer is `a`'s old address and the first byte there is not the one stored in `b`. -/
theorem realloc_loses_content :
    ∃ st' q, mm_realloc 3 fxS3.1 fxS3.2 32 = Res.ok (st', q) ∧ fxS3.2 = 4168 ∧
      fxS3.1.mem fxS3.2 = 171 ∧ q = 4136 ∧ st'.mem q = 0 :=
  ⟨(resultOf (mm_realloc 3 fxS3.1 fxS3.2 32) fxS0).1,
    (resultOf (mm_realloc 3 fxS3.1 fxS3.2 32) fxS0).2, rfl, by decide, by decide, by decide,
    by decide⟩

theorem mm_calloc_returns {st : State} {bs : List Block} (h : Inv st bs) {nmemb size k : Nat}
    (hn : nmemb * size % WORD_MOD ≤ 2 ^ 64 - 48)
    (hk : blockSizeOf (nmemb * size % WORD_MOD) ≤ 4096 * k)
    (hgrant : st.ds.brk + 4096 * k ≤ st.ds.limit) {fuel : Nat}
    (hf : bs.length + 2 * k + 1 ≤ fuel) :
    ∃ st1 p pre a post, mm_malloc fuel st (nmemb * size % WORD_MOD) = Res.ok (st1, p) ∧
      MallocOut st st1 bs (nmemb * size % WORD_MOD) p pre a post ∧
      mm_calloc fuel st nmemb size =
        Res.ok ({ st1 with mem := memset st1.mem p 0 (nmemb * size % WORD_MOD) }, p) ∧
      Inv { st1 with mem := memset st1.mem p 0 (nmemb * size % WORD_MOD) }
        (pre ++ a :: post) := by
  obtain ⟨st1, p, pre, a, post, hr, o⟩ := mm_malloc_returns h hn hk hgrant hf
  have hq : p ≠ NULL := by have := o.ptr; unfold NULL; omega
  have hbd := blockSizeOf_bounds hn
  have hsize := o.size_eq
  have hms := @memset_inv st1 pre post a (nmemb * size % WORD_MOD) o.inv
    (by unfold WORD_MOD at *; omega)
  rw [← o.ptr] at hms
  refine ⟨st1, p, pre, a, post, hr, o, ?_, hms.1⟩
  unfold mm_calloc
  rw [hr]
  simp only [if_pos hq]

/-- C8: for `nmemb * size ≤ 2^64 - 48` (no overflow), on a reachable heap whose provider
grants the needed growth, `mm_calloc(nmemb, size)` returns the same pointer as
`mm_malloc(nmemb * size)`, leaves the same block structure, bounds and cursor, and each of the
first `nmemb * size` payload bytes at the returned pointer is zero. -/
theorem calloc_is_zeroed_malloc (st : State) (h : Reachable st) (nmemb size k : Nat)
    (hn : nmemb * size ≤ 2 ^ 64 - 48) (hk : blockSizeOf (nmemb * size) ≤ 4096 * k)
    (hgrant : st.ds.brk + 4096 * k ≤ st.ds.limit) :
    ∃ N, ∀ fuel, N ≤ fuel → ∃ st1 st2 p bs,
      mm_malloc fuel st (nmemb * size) = Res.ok (st1, p) ∧
      mm_calloc fuel st nmemb size = Res.ok (st2, p) ∧
      heap_blocks st1 = some bs ∧ heap_blocks st2 = some bs ∧
      st2.heap_start = st1.heap_start ∧ st2.heap_end = st1.heap_end ∧
      st2.nextfit_start = st1.nextfit_start ∧
      (∀ i, i < nmemb * size → st2.mem (p + i) = 0) ∧
      (∀ a, (a < p ∨ p + nmemb * size ≤ a) → st2.mem a = st1.mem a) := by
  obtain ⟨bs, hinv, -⟩ := h.blocks
  have hmod : nmemb * size % WORD_MOD = nmemb * size := Nat.mod_eq_of_lt (by
    unfold WORD_MOD; omega)
  refine ⟨bs.length + 2 * k + 1, fun fuel hf => ?_⟩
  obtain ⟨st1, p, pre, a, post, hr, o, hc, hinv2⟩ :=
    @mm_calloc_returns st bs hinv nmemb size k (by rw [hmod]; exact hn)
      (by rw [hmod]; exact hk) hgrant fuel hf
  rw [hmod] at hr hc hinv2
  refine ⟨st1, _, p, pre ++ a :: post, hr, hc, o.inv.heap_blocks_eq, hinv2.heap_blocks_eq, rfl, rfl,
    rfl, fun i hi => ?_, fun x hx => ?_⟩
  · show memset st1.mem p 0 (nmemb * size) (p + i) = 0
    unfold memset
    rw [if_pos ⟨by omega, by omega⟩]
  · show memset st1.mem p 0 (nmemb * size) x = st1.mem x
    unfold memset
    rw [if_neg (by omega)]

theorem calloc_is_zeroed_malloc_witness :
    ∃ N, ∀ fuel, N ≤ fuel → ∃ st1 st2 p bs,
      mm_malloc fuel exS3 (25 * 4) = Res.ok (st1, p) ∧
      mm_calloc fuel exS3 25 4 = Res.ok (st2, p) ∧
      heap_blocks st1 = some bs ∧ heap_blocks st2 = some bs ∧
      st2.heap_start = st1.heap_start ∧ st2.heap_end = st1.heap_end ∧
      st2.nextfit_start = st1.nextfit_start ∧
      (∀ i, i < 25 * 4 → st2.mem (p + i) = 0) ∧
      (∀ a, (a < p ∨ p + 25 * 4 ≤ a) → st2.mem a = st1.mem a) :=
  calloc_is_zeroed_malloc exS3 ⟨_, exReach3⟩ 25 4 1 (by decide) (by decide) (by decide)

theorem heap_blocks_unique {st : State} {bs bs' : List Block} (h : Inv st bs)
    (hb : heap_blocks st = some bs') : bs = bs' := by
  rw [h.heap_blocks_eq] at hb
  exact Option.some.inj hb

/-- C9: for every reachable heap state and every payload pointer `P` of an ALLOCATED block,
the second of two consecutive `mm_free(P)` calls finds the status not ALLOCATED and returns
with the whole state unchanged: `mm_free(P); mm_free(P)` yields the same state as
`mm_free(P)`. -/
theorem double_free_is_noop (st : State) (h : Reachable st) (bs : List Block) (b : Block)
    (hbs : heap_blocks st = some bs) (hb : b ∈ bs) (hst : b.status = ALLOC) :
    GET_STATUS (mm_free st (b.addr + TYPE_SIZE)).mem (b.addr + TYPE_SIZE - TYPE_SIZE) ≠ ALLOC ∧
      mm_free (mm_free st (b.addr + TYPE_SIZE)) (b.addr + TYPE_SIZE) =
        mm_free st (b.addr + TYPE_SIZE) := by
  obtain ⟨bs', hinv, -⟩ := h.blocks
  have := heap_blocks_unique hinv hbs
  subst this
  obtain ⟨pre, post, rfl⟩ := List.append_of_mem hb
  have o := mm_free_out hinv hst
  have hs : GET_STATUS (mm_free st (b.addr + 8)).mem (b.addr + 8 - 8) ≠ ALLOC := by
    have := o.bstat
    simp only [Nat.add_sub_cancel] at this ⊢
    rw [this]; decide
  exact ⟨hs, mm_free_noop hs⟩

theorem double_free_is_noop_witness :
    GET_STATUS (mm_free exS2 (4128 + TYPE_SIZE)).mem (4128 + TYPE_SIZE - TYPE_SIZE) ≠ ALLOC ∧
      mm_free (mm_free exS2 (4128 + TYPE_SIZE)) (4128 + TYPE_SIZE) =
        mm_free exS2 (4128 + TYPE_SIZE) :=
  double_free_is_noop exS2 ⟨_, exReach2⟩ _ { addr := 4128, size := 64, status := 1 }
    exBlocks2 (by simp) rfl

theorem releaseBlocks_eq_spec (pre : List Block) (b : Block) (post : List Block) :
    releaseBlocks pre b post = releaseSpec pre b post := by
  unfold releaseBlocks coalesceBlocks releaseSpec
  rcases snoc_cases pre with rfl | ⟨pre', q, rfl⟩
  · cases post with
    | nil => simp [mergeNext, mergePrev, prevFree, nextFree]
    | cons n post' =>
      by_cases hn : n.status = FREE <;>
        simp [mergeNext, mergePrev, prevFree, nextFree, hn]
  · cases post with
    | nil =>
      by_cases hq : q.status = FREE <;>
        simp [mergeNext, mergePrev, prevFree, nextFree, hq, Nat.add_comm]
    | cons n post' =>
      by_cases hq : q.status = FREE <;> by_cases hn : n.status = FREE <;>
        simp [mergeNext, mergePrev, prevFree, nextFree, hq, hn, Nat.add_comm]

/-- C10: on a well-formed heap, `mm_free` of the payload pointer of an ALLOCATED block `b`
leaves one FREE block that starts at the previous block's start if that block was FREE (else
at `b`) and has the size of `b` plus the sizes of its FREE neighbours; every other block keeps
its address, size and status, and every block has header == footer. -/
theorem release_merges_neighbours (st : State) (hwf : WellFormed st) (pre : List Block)
    (b : Block) (post : List Block) (hbs : heap_blocks st = some (pre ++ b :: post))
    (hst : b.status = ALLOC) :
    heap_blocks (mm_free st (b.addr + TYPE_SIZE)) = some (releaseSpec pre b post) ∧
      ∀ x ∈ releaseSpec pre b post,
        GET (mm_free st (b.addr + TYPE_SIZE)).mem
            (HDR2FTR (mm_free st (b.addr + TYPE_SIZE)).mem x.addr) =
          GET (mm_free st (b.addr + TYPE_SIZE)).mem x.addr := by
  obtain ⟨bs', hinv⟩ := hwf
  have := heap_blocks_unique hinv hbs
  subst this
  have hinv' := mm_free_inv hinv hst
  rw [releaseBlocks_eq_spec] at hinv'
  refine ⟨hinv'.heap_blocks_eq, fun x hx => ?_⟩
  have ht := (Chain.mem_tagged hinv'.chain hx).1
  have e : HDR2FTR (mm_free st (b.addr + 8)).mem x.addr = x.addr + x.size - 8 := by
    unfold HDR2FTR TYPE_SIZE
    rw [ht.get_size]
  show GET (mm_free st (b.addr + 8)).mem (HDR2FTR (mm_free st (b.addr + 8)).mem x.addr) =
    GET (mm_free st (b.addr + 8)).mem x.addr
  rw [e, ht.2.2.2.2.1, ht.2.2.2.2.2]

theorem release_merges_neighbours_witness :
    heap_blocks (mm_free exS2 (4192 + TYPE_SIZE)) =
        some (releaseSpec [{ addr := 4128, size := 64, status := 1 }]
          { addr := 4192, size := 64, status := 1 }
          [{ addr := 4256, size := 3904, status := 0 }]) ∧
      ∀ x ∈ releaseSpec [{ addr := 4128, size := 64, status := 1 }]
          { addr := 4192, size := 64, status := 1 }
          [{ addr := 4256, size := 3904, status := 0 }],
        GET (mm_free exS2 (4192 + TYPE_SIZE)).mem
            (HDR2FTR (mm_free exS2 (4192 + TYPE_SIZE)).mem x.addr) =
          GET (mm_free exS2 (4192 + TYPE_SIZE)).mem x.addr :=
  release_merges_neighbours exS2 (Reachable.wellFormed ⟨_, exReach2⟩)
    [{ addr := 4128, size := 64, status := 1 }] { addr := 4192, size := 64, status := 1 }
    [{ addr := 4256, size := 3904, status := 0 }] exBlocks2 rfl

theorem blockSizeOf_mod (size : Nat) : blockSizeOf size % 32 = 0 := by
  unfold blockSizeOf ROUND_UP BS
  omega

theorem placeBlocks_eq_splitSpec {b : Block} {blocksize : Nat} (hle : blocksize ≤ b.size)
    (hb : b.size % 32 = 0) (hm : blocksize % 32 = 0) :
    placeBlocks b blocksize = splitSpec b blocksize := by
  unfold placeBlocks splitSpec BS
  by_cases h : blocksize < b.size
  · have h2 : 32 ≤ b.size - blocksize := by omega
    simp [h, h2]
  · have e : b.size = blocksize := by omega
    have h2 : ¬ 32 ≤ b.size - blocksize := by omega
    simp [h, h2, e]

/-- A search that returns a block returns the policy's choice and leaves the cursor on it. -/
theorem call_get_block_found {st : State} {bs : List Block} (h : Inv st bs) {fuel size : Nat}
    {st1 : State} {block : Nat} (hg : call_get_block fuel st size = Res.ok (st1, block))
    (hnn : block ≠ NULL) :
    ∃ b, policyChoice st.get_block st.nextfit_start size bs = some b ∧
      st1 = withCursor st b.addr ∧ block = b.addr := by
  rcases (call_get_block_spec h fuel size).2 with h1 | h1
  · rw [hg] at h1; cases h1
  · rw [hg] at h1
    injection h1 with h1
    generalize policyChoice st.get_block st.nextfit_start size bs = o at h1 ⊢
    cases o with
    | none =>
      simp only [applyChoice, Prod.mk.injEq] at h1
      exact absurd h1.2 hnn
    | some b =>
      simp only [applyChoice, Prod.mk.injEq] at h1
      exact ⟨b, rfl, h1.1, h1.2⟩

theorem Tagged.words {m : Mem} {b : Block} (h : Tagged m b) :
    GET m b.addr = PACK b.size b.status ∧
      GET m (b.addr + b.size - TYPE_SIZE) = PACK b.size b.status := by
  obtain ⟨_, h2, _, h4, h5, h6⟩ := h
  rw [PACK_eq _ _ (by omega) (by omega)]
  exact ⟨h5, h6⟩

/-- C11 (amended): when the active policy returns a FREE block `b` of size `bsize` for a
computed block size that is not zero (every request up to `2 ^ 64 - 48`) on a well-formed
heap, `mm_malloc` returns the payload of that block and the block is replaced as the
specification says: if `bsize - blockSize` is at least 32, by an
ALLOCATED block of exactly `blockSize` at the found address followed immediately by a FREE block
of size `bsize - blockSize`; otherwise by the whole block, ALLOCATED, with its size `bsize`
unchanged. Every other block of the heap is unchanged, and the written blocks have header and
footer words equal to the packed size and status. -/
theorem malloc_splits_at_threshold (st : State) (hwf : WellFormed st) (bs : List Block)
    (hbs : heap_blocks st = some bs) (size : Nat) (hpos : 0 < blockSizeOf size) (fuel : Nat)
    (st1 : State) (block : Nat)
    (hg : call_get_block fuel st (blockSizeOf size) = Res.ok (st1, block))
    (hnn : block ≠ NULL) :
    ∃ pre b post st', bs = pre ++ b :: post ∧ b.addr = block ∧ b.status = FREE ∧
      blockSizeOf size ≤ b.size ∧
      mm_malloc (fuel + 1) st size = Res.ok (st', block + TYPE_SIZE) ∧
      heap_blocks st' = some (pre ++ splitSpec b (blockSizeOf size) ++ post) ∧
      ∀ x ∈ splitSpec b (blockSizeOf size),
        GET st'.mem x.addr = PACK x.size x.status ∧
          GET st'.mem (x.addr + x.size - TYPE_SIZE) = PACK x.size x.status := by
  obtain ⟨bs0, hinv⟩ := hwf
  have e0 := heap_blocks_unique hinv hbs
  subst e0
  obtain ⟨b, hc, h1, h2⟩ := call_get_block_found hinv hg hnn
  obtain ⟨hb0, hble, pre, post, hl⟩ := policyChoice_sound hc
  subst hl
  have hm := blockSizeOf_mod size
  have h32 : 32 ≤ blockSizeOf size := by omega
  have hinv1 : Inv (withCursor st b.addr) (pre ++ b :: post) := hinv.with_cursor (by simp)
  obtain ⟨o, hp⟩ := place_spec hinv1 hb0 hble h32 hm
  have htb := (Chain.mem_tagged hinv.chain (show b ∈ pre ++ b :: post by simp)).1
  have hsp := placeBlocks_eq_splitSpec hble htb.2.1 hm
  have hinv2 := o.inv
  rw [hsp] at hinv2
  refine ⟨pre, b, post, (place (withCursor st b.addr) b.addr (blockSizeOf size)).1, rfl, h2.symm,
    hb0, hble, ?_, hinv2.heap_blocks_eq, ?_⟩
  · rw [mm_malloc_succ, hg]
    simp only [if_neg hnn]
    rw [h1, h2]
    exact congrArg Res.ok (Prod.ext rfl hp)
  · intro x hx
    exact (Chain.mem_tagged hinv2.chain (by simp [hx])).1.words

theorem fits_iff (size : Nat) (x : Block) :
    fits size x = true ↔ x.status = FREE ∧ size ≤ x.size := by
  simp [fits]

theorem Chain.order {m : Mem} {pre post : List Block} {b : Block} {hs he : Nat}
    (h : Chain m hs (pre ++ b :: post) he) :
    (∀ x ∈ pre, x.addr < b.addr) ∧ (∀ x ∈ post, b.addr < x.addr) := by
  obtain ⟨h1, h2, h3⟩ := Chain.splitAt h
  constructor
  · intro x hx
    obtain ⟨t, _, t2⟩ := Chain.mem_tagged h1 hx
    have := t.1
    omega
  · intro x hx
    obtain ⟨_, t1, _⟩ := Chain.mem_tagged h3 hx
    have := h2.1
    omega

/-- The block chosen by best fit from the candidate `acc` on: either the candidate survives
and no block of the list is a strictly smaller fit, or the choice is a block of the list that
is strictly smaller than the candidate and every earlier fit, and no larger than any later
fit. -/
theorem bestFrom_spec (size : Nat) : ∀ (bs : List Block) (acc : Option Block) (r : Block),
    bestFrom size acc bs = some r →
    (acc = some r ∧ ∀ x ∈ bs, fits size x = true → r.size ≤ x.size) ∨
    (∃ pre post, bs = pre ++ r :: post ∧ fits size r = true ∧
      (∀ c, acc = some c → r.size < c.size) ∧
      (∀ x ∈ pre, fits size x = true → r.size < x.size) ∧
      (∀ y ∈ post, fits size y = true → r.size ≤ y.size))
  | [], acc, r, h => Or.inl ⟨by rw [bestFrom_nil] at h; exact h, by simp⟩
  | b :: bs, none, r, h => by
    have h0 : bestFrom size (if fits size b then some b else none) bs = some r := h
    by_cases hb : fits size b = true
    · rw [if_pos hb] at h0
      rcases bestFrom_spec size bs (some b) r h0 with ⟨e, hr⟩ | ⟨pre, post, e, hf, hc, hp, hq⟩
      · injection e with e
        subst e
        exact Or.inr ⟨[], bs, rfl, hb, by simp, by simp, hr⟩
      · refine Or.inr ⟨b :: pre, post, by rw [e]; rfl, hf, by simp, ?_, hq⟩
        intro x hx hfx
        rcases List.mem_cons.1 hx with hx | hx
        · subst hx; exact hc _ rfl
        · exact hp x hx hfx
    · rw [if_neg hb] at h0
      rcases bestFrom_spec size bs none r h0 with ⟨e, _⟩ | ⟨pre, post, e, hf, _, hp, hq⟩
      · cases e
      · refine Or.inr ⟨b :: pre, post, by rw [e]; rfl, hf, by simp, ?_, hq⟩
        intro x hx hfx
        rcases List.mem_cons.1 hx with hx | hx
        · subst hx; exact absurd hfx hb
        · exact hp x hx hfx
  | b :: bs, some c, r, h => by
    have h0 : bestFrom size (if fits size b ∧ b.size < c.size then some b else some c) bs
        = some r := h
    by_cases hb : fits size b = true ∧ b.size < c.size
    · rw [if_pos hb] at h0
      rcases bestFrom_spec size bs (some b) r h0 with ⟨e, hr⟩ | ⟨pre, post, e, hf, hc, hp, hq⟩
      · injection e with e
        subst e
        refine Or.inr ⟨[], bs, rfl, hb.1, ?_, by simp, hr⟩
        intro c' hc'
        injection hc' with hc'
        subst hc'
        exact hb.2
      · refine Or.inr ⟨b :: pre, post, by rw [e]; rfl, hf, ?_, ?_, hq⟩
        · intro c' hc'
          injection hc' with hc'
          subst hc'
          exact lt_trans (hc _ rfl) hb.2
        · intro x hx hfx
          rcases List.mem_cons.1 hx with hx | hx
          · subst hx; exact hc _ rfl
          · exact hp x hx hfx
    · rw [if_neg hb] at h0
      rcases bestFrom_spec size bs (some c) r h0 with ⟨e, hr⟩ | ⟨pre, post, e, hf, hc, hp, hq⟩
      · injection e with e
        subst e
        refine Or.inl ⟨rfl, ?_⟩
        intro x hx hfx
        rcases List.mem_cons.1 hx with hx | hx
        · subst hx
          by_contra hlt
          exact hb ⟨hfx, by omega⟩
        · exact hr x hx hfx
      · refine Or.inr ⟨b :: pre, post, by rw [e]; rfl, hf, hc, ?_, hq⟩
        intro x hx hfx
        rcases List.mem_cons.1 hx with hx | hx
        · subst hx
          have := hc _ rfl
          by_contra hlt
          exact hb ⟨hfx, by omega⟩
        · exact hp x hx hfx

theorem bestFrom_none_iff (size : Nat) (bs : List Block) :
    bestFrom size none bs = none ↔ ∀ x ∈ bs, ¬ fits size x = true := by
  constructor
  · intro h x hx hf
    have := bestFrom_isSome size bs none (Or.inr ⟨x, hx, hf⟩)
    rw [h] at this
    cases this
  · intro h
    cases hr : bestFrom size none bs with
    | none => rfl
    | some r =>
      rcases bestFrom_sound size bs none r hr with e | ⟨h1, h2⟩
      · cases e
      · exact absurd h2 (h r h1)

/-- C12: on every well-formed heap and for every request size, `ff_get_free_block` returns
(whenever its step budget covers the number of blocks) the lowest-addressed block of the heap
walk that is FREE and has size at least the request, and it returns `NULL` exactly when the
heap has no FREE block of at least that size. -/
theorem first_fit_returns_lowest (st : State) (hwf : WellFormed st) (bs : List Block)
    (hbs : heap_blocks st = some bs) (size fuel : Nat) (hf : bs.length ≤ fuel) :
    ∃ st' block, ff_get_free_block fuel st size = Res.ok (st', block) ∧
      (block = NULL ↔ ∀ x ∈ bs, ¬ (x.status = FREE ∧ size ≤ x.size)) ∧
      (block ≠ NULL →
        (∃ b ∈ bs, b.addr = block ∧ b.status = FREE ∧ size ≤ b.size) ∧
        ∀ x ∈ bs, x.status = FREE → size ≤ x.size → block ≤ x.addr) := by
  obtain ⟨bs0, hinv⟩ := hwf
  have e0 := heap_blocks_unique hinv hbs
  subst e0
  have e := (ff_get_free_block_spec hinv fuel size).1 hf
  cases hr : bs0.find? (fits size) with
  | none =>
    rw [hr] at e
    refine ⟨st, NULL, e, ?_, fun h => absurd rfl h⟩
    simp only [true_iff]
    intro x hx hfx
    exact List.find?_eq_none.1 hr x hx ((fits_iff size x).2 hfx)
  | some b =>
    rw [hr] at e
    obtain ⟨hfb, pre, post, hl, hpre⟩ := List.find?_eq_some.1 hr
    have hmem : b ∈ bs0 := by rw [hl]; simp
    have hnn := hinv.addr_ne_null b hmem
    have hfb' := (fits_iff size b).1 hfb
    refine ⟨{ st with nextfit_start := b.addr }, b.addr, e, ?_, fun _ => ⟨⟨b, hmem, rfl, hfb'⟩, ?_⟩⟩
    · constructor
      · intro h; exact absurd h hnn
      · intro h; exact absurd hfb' (h b hmem)
    · intro x hx h1 h2
      have hch := hinv.chain
      rw [hl] at hch hx
      have ho := Chain.order hch
      rcases List.mem_append.1 hx with hx | hx
      · have := hpre x hx
        rw [(fits_iff size x).2 ⟨h1, h2⟩] at this
        cases this
      · rcases List.mem_cons.1 hx with hx | hx
        · subst hx; exact le_refl _
        · exact le_of_lt (ho.2 x hx)

/-- C13: on every well-formed heap and for every request size, `bf_get_free_block` returns
(whenever its step budget covers the number of blocks) a FREE block whose size is the minimum
over all FREE blocks of size at least the request, the lowest-addressed one among the blocks
of that minimum size, and it returns `NULL` exactly when the heap has no FREE block of at
least the requested size. -/
theorem best_fit_returns_minimum (st : State) (hwf : WellFormed st) (bs : List Block)
    (hbs : heap_blocks st = some bs) (size fuel : Nat) (hf : bs.length ≤ fuel) :
    ∃ st' block, bf_get_free_block fuel st size = Res.ok (st', block) ∧
      (block = NULL ↔ ∀ x ∈ bs, ¬ (x.status = FREE ∧ size ≤ x.size)) ∧
      (block ≠ NULL →
        ∃ b ∈ bs, b.addr = block ∧ b.status = FREE ∧ size ≤ b.size ∧
          ∀ x ∈ bs, x.status = FREE → size ≤ x.size →
            b.size ≤ x.size ∧ (x.size = b.size → block ≤ x.addr)) := by
  obtain ⟨bs0, hinv⟩ := hwf
  have e0 := heap_blocks_unique hinv hbs
  subst e0
  have e := (bf_get_free_block_spec hinv fuel size).1 hf
  cases hr : bestFrom size none bs0 with
  | none =>
    rw [hr] at e
    refine ⟨st, NULL, e, ?_, fun h => absurd rfl h⟩
    simp only [true_iff]
    intro x hx hfx
    exact (bestFrom_none_iff size bs0).1 hr x hx ((fits_iff size x).2 hfx)
  | some b =>
    rw [hr] at e
    rcases bestFrom_spec size bs0 none b hr with ⟨e1, _⟩ | ⟨pre, post, hl, hfb, _, hp, hq⟩
    · cases e1
    have hmem : b ∈ bs0 := by rw [hl]; simp
    have hnn := hinv.addr_ne_null b hmem
    have hfb' := (fits_iff size b).1 hfb
    refine ⟨{ st with nextfit_start := b.addr }, b.addr, e, ?_,
      fun _ => ⟨b, hmem, rfl, hfb'.1, hfb'.2, ?_⟩⟩
    · constructor
      · intro h; exact absurd h hnn
      · intro h; exact absurd hfb' (h b hmem)
    · intro x hx h1 h2
      have hfx := (fits_iff size x).2 ⟨h1, h2⟩
      have hch := hinv.chain
      rw [hl] at hch hx
      have ho := Chain.order hch
      rcases List.mem_append.1 hx with hx | hx
      · have := hp x hx hfx
        exact ⟨le_of_lt this, fun h => by omega⟩
      · rcases List.mem_cons.1 hx with hx | hx
        · subst hx; exact ⟨le_refl _, fun _ => le_refl _⟩
        · exact ⟨hq x hx hfx, fun _ => le_of_lt (ho.2 x hx)⟩

theorem nxStep2 : mm_malloc 3 exS1 3900 = Res.ok (nxS2.1, nxS2.2) := by
  rfl

theorem nxReach : Reach nxS [nxS2.2, exP1] :=
  Reach.free (Reach.malloc (Reach.malloc exReach0 (by decide) exStep1) (by decide) nxStep2)
    (by simp)

/-- C14: `nf_get_free_block` does not wrap around. On the next-fit heap reached by
`a = mm_malloc(40)`, `b = mm_malloc(3900)`, `mm_free(a)` the block at 4128 is FREE with size
64, the cursor is at 4192, and the search for 64 bytes runs from the cursor to the high
sentinel and returns `NULL`; `mm_malloc(40)` then grows the heap by 4096 bytes and returns
8136 instead of reusing the FREE block at 4128. -/
theorem next_fit_does_not_wrap :
    Reachable nxS ∧
      heap_blocks nxS = some [{ addr := 4128, size := 64, status := FREE },
        { addr := 4192, size := 3936, status := ALLOC },
        { addr := 8128, size := 32, status := FREE }] ∧
      nxS.get_block = AllocationPolicy.ap_NextFit ∧ nxS.nextfit_start = 4192 ∧
      nf_get_free_block 4 nxS 64 = Res.ok (nxS, NULL) ∧
      ∃ st', mm_malloc 9 nxS 40 = Res.ok (st', 8136) ∧
        st'.heap_end = nxS.heap_end + CHUNKSIZE := by
  refine ⟨⟨_, nxReach⟩, by decide, rfl, by decide, by rfl,
    (resultOf (mm_malloc 9 nxS 40) nxS).1, by rfl, by decide⟩

theorem growSpec_snoc (heap_end : Nat) (pre : List Block) (l : Block) :
    growSpec heap_end (pre ++ [l]) =
      if l.status = FREE then
        pre ++ [{ addr := l.addr, size := l.size + CHUNKSIZE, status := FREE }]
      else pre ++ [l] ++ [{ addr := heap_end, size := CHUNKSIZE, status := FREE }] := by
  simp [growSpec]

theorem growBlocks_eq_growSpec {st : State} {bs : List Block} (h : Inv st bs) :
    growBlocks bs = growSpec st.heap_end bs := by
  rcases snoc_cases bs with e | ⟨pre, l, e⟩
  · exact absurd e h.nonempty
  · subst e
    have hch := h.chain
    obtain ⟨_, _, h3⟩ := Chain.splitAt hch
    have he : l.addr + l.size = st.heap_end := h3
    simp [growBlocks, growSpec, he]

/-- C15: in every state reachable from `mm_init` by `mm_malloc`, `mm_calloc`, `mm_realloc` and
`mm_free` calls on returned pointers (under next-fit as under the other policies), the search
cursor `nextfit_start` is unset (`NULL`) or equal to the start address of a block of the
current heap walk; it is never the address of a sentinel word. -/
theorem cursor_is_unset_or_block_start (st : State) (h : Reachable st) :
    ∃ bs, heap_blocks st = some bs ∧
      (st.nextfit_start = NULL ∨ ∃ b ∈ bs, b.addr = st.nextfit_start) ∧
      st.nextfit_start ≠ st.heap_end ∧ st.nextfit_start ≠ st.heap_start - TYPE_SIZE := by
  obtain ⟨bs, hinv, hbs⟩ := h.blocks
  refine ⟨bs, hbs, hinv.cursor, ?_⟩
  have hpos := hinv.hs_pos
  have hle := Chain.le hinv.chain
  unfold TYPE_SIZE
  rcases hinv.cursor with hc | ⟨b, hb, hc⟩
  · rcases snoc_cases bs with e | ⟨pre, l, e⟩
    · exact absurd e hinv.nonempty
    · rw [hc]
      omega
  · obtain ⟨t, t1, t2⟩ := Chain.mem_tagged hinv.chain hb
    have := t.1
    rw [← hc]
    omega

/-- C16: on every well-formed heap, whatever the alignment of the provider's break, a heap
growth that the provider grants completes, the new `heap_end` is the old `heap_end` plus 4096
and a multiple of 32, and the word at the new `heap_end` is the zero-size ALLOCATED
sentinel. -/
theorem growth_advances_heap_end (st : State) (hwf : WellFormed st)
    (hg : st.ds.brk + CHUNKSIZE ≤ st.ds.limit) :
    ∃ st', expand_heap st = Res.ok st' ∧ st'.heap_end = st.heap_end + CHUNKSIZE ∧
      st'.heap_end % BS = 0 ∧ GET st'.mem st'.heap_end = PACK 0 ALLOC ∧
      GET_SIZE st'.mem st'.heap_end = 0 ∧ GET_STATUS st'.mem st'.heap_end = ALLOC := by
  obtain ⟨bs, hinv⟩ := hwf
  obtain ⟨st', he, o⟩ := expand_heap_spec hinv hg
  have hal := (Chain.aligned o.inv.chain o.inv.hs_al).2
  have hi := o.inv.hi
  refine ⟨st', he, o.he, hal, hi, ?_, ?_⟩
  · rw [GET_SIZE_eq, hi]
  · rw [GET_STATUS_eq, hi]; rfl

/-- C17: after a heap growth on a well-formed heap the heap walk reads as the specification
says: if the previous trailing block was FREE of size `t`, the last block starts at that
block's start and has size `t + 4096`, otherwise it starts at the old `heap_end` and has size
4096, and every earlier block is unchanged. The last block is FREE, ends at the new
`heap_end`, and its header and footer words are equal. -/
theorem growth_extends_trailing_block (st : State) (hwf : WellFormed st) (bs : List Block)
    (hbs : heap_blocks st = some bs) (hg : st.ds.brk + CHUNKSIZE ≤ st.ds.limit) :
    ∃ st', expand_heap st = Res.ok st' ∧
      heap_blocks st' = some (growSpec st.heap_end bs) ∧
      ∃ l, (growSpec st.heap_end bs).getLast? = some l ∧ l.status = FREE ∧
        l.addr + l.size = st'.heap_end ∧
        GET st'.mem l.addr = PACK l.size FREE ∧
        GET st'.mem (l.addr + l.size - TYPE_SIZE) = PACK l.size FREE := by
  obtain ⟨bs0, hinv⟩ := hwf
  have e0 := heap_blocks_unique hinv hbs
  subst e0
  obtain ⟨st', he, o⟩ := expand_heap_spec hinv hg
  have hinv' := o.inv
  rw [growBlocks_eq_growSpec hinv] at hinv'
  refine ⟨st', he, hinv'.heap_blocks_eq, ?_⟩
  rcases snoc_cases (growSpec st.heap_end bs0) with e | ⟨pre, l, e⟩
  · exact absurd e hinv'.nonempty
  · have hch := hinv'.chain
    rw [e] at hch
    obtain ⟨_, ht, h3⟩ := Chain.splitAt hch
    have hend : l.addr + l.size = st'.heap_end := h3
    have hlast : (growSpec st.heap_end bs0).getLast? = some l := by rw [e]; simp
    have hl : l.status = FREE := by
      rcases snoc_cases bs0 with e1 | ⟨p1, l1, e1⟩
      · exact absurd e1 hinv.nonempty
      · subst e1
        rw [growSpec_snoc] at hlast
        by_cases hs : l1.status = FREE
        · rw [if_pos hs] at hlast
          simp only [List.getLast?_append, List.getLast?_singleton, Option.or_some] at hlast
          injection hlast with hlast
          rw [← hlast]
        · rw [if_neg hs] at hlast
          simp only [List.getLast?_append, List.getLast?_singleton, Option.or_some] at hlast
          injection hlast with hlast
          rw [← hlast]
    refine ⟨l, hlast, hl, hend, ?_⟩
    have hw := ht.words
    rw [hl] at hw
    exact hw

theorem mm_init_cases (ap : AllocationPolicy) (d : DataSeg) (m : Mem)
    (hap : ∀ n, ap ≠ AllocationPolicy.ap_other n) :
    (mm_init ap d m = Res.panic ∧
      (d.start = NULL ∨ d.start ≠ d.brk ∨ d.pagesize = 0 ∨ ds_sbrk d CHUNKSIZE = none)) ∨
    (∃ st, mm_init ap d m = Res.ok st ∧ st.mm_initialized = 1 ∧ st.get_block = ap ∧
      d.start ≠ NULL ∧ d.start = d.brk ∧ d.pagesize ≠ 0 ∧ ds_sbrk d CHUNKSIZE ≠ none) := by
  rw [mm_init_unfold ap d m hap]
  by_cases h1 : d.start = NULL
  · exact Or.inl ⟨by rw [if_pos h1], Or.inl h1⟩
  by_cases h2 : d.start ≠ d.brk
  · exact Or.inl ⟨by rw [if_neg h1, if_pos h2], Or.inr (Or.inl h2)⟩
  by_cases h3 : d.pagesize = 0
  · exact Or.inl ⟨by rw [if_neg h1, if_neg h2, if_pos h3], Or.inr (Or.inr (Or.inl h3))⟩
  rw [if_neg h1, if_neg h2, if_neg h3]
  cases hs : ds_sbrk d CHUNKSIZE with
  | none => exact Or.inl ⟨rfl, Or.inr (Or.inr (Or.inr rfl))⟩
  | some r =>
    obtain ⟨a, d1⟩ := r
    exact Or.inr ⟨_, rfl, rfl, rfl, h1, not_not.1 h2, h3, by simp⟩

/-- C18: on a pristine provider region starting at `d` (break = `d`, non-zero page size, the
growth of 4096 granted, the region inside the 64-bit address space) `mm_init` completes;
`heap_start` is the least multiple of 32 that is at least `d + 8`, `heap_end` is the greatest
multiple of 32 that is at most `d + 4096 - 8`, the words at `heap_start - 8` and at `heap_end`
are zero-size ALLOCATED sentinels, and the heap walk yields exactly one FREE block of size
`heap_end - heap_start`, whose header at `heap_start` equals its footer at `heap_end - 8`. -/
theorem init_builds_single_free_block (ap : AllocationPolicy) (d : DataSeg) (m : Mem)
    (hap : ∀ n, ap ≠ AllocationPolicy.ap_other n) (h1 : d.start ≠ NULL) (h2 : d.start = d.brk)
    (h3 : d.pagesize ≠ 0) (h4 : d.brk + CHUNKSIZE ≤ d.limit) (hlim : d.limit < 2 ^ 64) :
    ∃ st, mm_init ap d m = Res.ok st ∧
      (st.heap_start % BS = 0 ∧ d.start + TYPE_SIZE ≤ st.heap_start ∧
        ∀ a, a % BS = 0 → d.start + TYPE_SIZE ≤ a → st.heap_start ≤ a) ∧
      (st.heap_end % BS = 0 ∧ st.heap_end ≤ d.start + CHUNKSIZE - TYPE_SIZE ∧
        ∀ a, a % BS = 0 → a ≤ d.start + CHUNKSIZE - TYPE_SIZE → a ≤ st.heap_end) ∧
      GET st.mem (st.heap_start - TYPE_SIZE) = PACK 0 ALLOC ∧
      GET st.mem st.heap_end = PACK 0 ALLOC ∧
      heap_blocks st =
        some [{ addr := st.heap_start, size := st.heap_end - st.heap_start, status := FREE }] ∧
      GET st.mem st.heap_start = PACK (st.heap_end - st.heap_start) FREE ∧
      GET st.mem (st.heap_end - TYPE_SIZE) = GET st.mem st.heap_start := by
  have hi := mm_init_eq ap d m hap h1 h2 h3 h4 hlim
  have hinv := initState_inv ap d m hap h2 h4 hlim
  have hch := hinv.chain
  obtain ⟨_, ht, hnil⟩ := hch
  have hw := ht.words
  have hsum : (initState ap d m).heap_start +
      ((d.start + 4088) / 32 * 32 - (d.start + 39) / 32 * 32) = (initState ap d m).heap_end :=
    hnil
  have hs : (initState ap d m).heap_start = (d.start + 39) / 32 * 32 := rfl
  have he : (initState ap d m).heap_end = (d.start + 4088) / 32 * 32 := rfl
  refine ⟨initState ap d m, hi, ⟨?_, ?_, ?_⟩, ⟨?_, ?_, ?_⟩, hinv.lo, hinv.hi, ?_, ?_, ?_⟩
  · rw [hs]; unfold BS; omega
  · rw [hs]; unfold TYPE_SIZE; omega
  · intro a ha hle; rw [hs]; unfold BS TYPE_SIZE at *; omega
  · rw [he]; unfold BS; omega
  · rw [he]; unfold CHUNKSIZE TYPE_SIZE; omega
  · intro a ha hle; rw [he]; unfold BS CHUNKSIZE TYPE_SIZE at *; omega
  · exact hinv.heap_blocks_eq
  · exact hw.1
  · have hw1 : GET (initState ap d m).mem (initState ap d m).heap_start =
        PACK ((d.start + 4088) / 32 * 32 - (d.start + 39) / 32 * 32) 0 := hw.1
    have hw2 : GET (initState ap d m).mem ((d.start + 39) / 32 * 32 +
        ((d.start + 4088) / 32 * 32 - (d.start + 39) / 32 * 32) - TYPE_SIZE) =
        PACK ((d.start + 4088) / 32 * 32 - (d.start + 39) / 32 * 32) 0 := hw.2
    have e2 : (d.start + 39) / 32 * 32 + ((d.start + 4088) / 32 * 32 - (d.start + 39) / 32 * 32)
        - TYPE_SIZE = (initState ap d m).heap_end - TYPE_SIZE := by
      rw [he]; omega
    rw [hw1, ← e2]
    exact hw2

/-- C19: `mm_init(ap)` ends in the fatal error (`PANIC`, no state is produced) exactly when the
policy is not one of first fit, next fit and best fit, or the data segment is uninitialised
(start `NULL`), or the region is not pristine (break differs from start), or the page size is
0, or the first growth request fails; in every other case it completes with
`mm_initialized = 1` and the selected policy active. -/
theorem init_fatal_cases (ap : AllocationPolicy) (d : DataSeg) (m : Mem) :
    (mm_init ap d m = Res.panic ↔
      ((∃ n, ap = AllocationPolicy.ap_other n) ∨ d.start = NULL ∨ d.start ≠ d.brk ∨
        d.pagesize = 0 ∨ ds_sbrk d CHUNKSIZE = none)) ∧
    (mm_init ap d m ≠ Res.panic →
      ∃ st, mm_init ap d m = Res.ok st ∧ st.mm_initialized = 1 ∧ st.get_block = ap) := by
  by_cases hap : ∃ n, ap = AllocationPolicy.ap_other n
  · obtain ⟨n, rfl⟩ := hap
    exact ⟨⟨fun _ => Or.inl ⟨n, rfl⟩, fun _ => rfl⟩, fun h => absurd rfl h⟩
  · have hap' : ∀ n, ap ≠ AllocationPolicy.ap_other n := fun n h => hap ⟨n, h⟩
    rcases mm_init_cases ap d m hap' with ⟨hp, hc⟩ | ⟨st, ho, hi, hg, c1, c2, c3, c4⟩
    · exact ⟨⟨fun _ => Or.inr hc, fun _ => hp⟩, fun h => absurd hp h⟩
    · refine ⟨⟨fun h => ?_, fun h => ?_⟩, fun _ => ⟨st, ho, hi, hg⟩⟩
      · rw [ho] at h; cases h
      · rcases h with h | h | h | h | h
        · exact absurd h hap
        · exact absurd h c1
        · exact absurd c2 h
        · exact absurd h c3
        · exact absurd h c4

/-- C20: for every request size `size ≤ 2 ^ 64 - 48` the block size that `mm_malloc` computes
is `ROUND_UP(8 + size + 8)`, the least multiple of 32 that is at least `size + 16`; it is
at least 32 and below `size + 48` (so 32 for `size = 0`); and on a reachable heap whose
provider grants the needed growth `mm_malloc` returns a pointer whose block carries that block
size, with status ALLOCATED, in its header and in its footer. -/
theorem blocksize_is_least_multiple (size : Nat) (hn : size ≤ 2 ^ 64 - 48) (st : State)
    (h : Reachable st) (k : Nat) (hk : blockSizeOf size ≤ CHUNKSIZE * k)
    (hgrant : st.ds.brk + CHUNKSIZE * k ≤ st.ds.limit) :
    blockSizeOf size = ROUND_UP (TYPE_SIZE + size + TYPE_SIZE) ∧
      (blockSizeOf size % BS = 0 ∧ size + 16 ≤ blockSizeOf size ∧
        ∀ a, a % BS = 0 → size + 16 ≤ a → blockSizeOf size ≤ a) ∧
      32 ≤ blockSizeOf size ∧ blockSizeOf size < size + 48 ∧
      (size = 0 → blockSizeOf size = 32) ∧
      ∃ N, ∀ fuel, N ≤ fuel → ∃ st' p, mm_malloc fuel st size = Res.ok (st', p) ∧
        GET st'.mem (p - TYPE_SIZE) = PACK (blockSizeOf size) ALLOC ∧
        GET st'.mem (p - TYPE_SIZE + blockSizeOf size - TYPE_SIZE) =
          PACK (blockSizeOf size) ALLOC := by
  obtain ⟨b1, b2, b3, b4⟩ := blockSizeOf_bounds hn
  refine ⟨?_, ⟨b2, b3, ?_⟩, b1, b4, ?_, ?_⟩
  · unfold blockSizeOf
    rw [Nat.mod_eq_of_lt (by unfold TYPE_SIZE WORD_MOD; omega)]
  · intro a ha hle
    unfold BS at ha
    omega
  · intro h0; omega
  · obtain ⟨bs, hinv, _⟩ := h.blocks
    refine ⟨bs.length + 2 * k + 1, fun fuel hf => ?_⟩
    obtain ⟨st', p, pre, a, post, hm, o⟩ :=
      mm_malloc_returns hinv hn (by unfold CHUNKSIZE at hk; omega)
        (by unfold CHUNKSIZE at hgrant; omega) hf
    have ht := (Chain.mem_tagged o.inv.chain (show a ∈ pre ++ a :: post by simp)).1
    have hw := ht.words
    have e1 : p - TYPE_SIZE = a.addr := by rw [o.ptr]; unfold TYPE_SIZE; omega
    have e2 : a.status = ALLOC := o.status
    rw [o.size_eq, e2] at hw
    exact ⟨st', p, hm, by rw [e1]; exact hw.1, by rw [e1]; exact hw.2⟩

theorem gxReach : Reach gxS [gxR4.2, gxR3.2, gxR2.2, gxR1.2] :=
  Reach.free (Reach.free (Reach.malloc (Reach.malloc (Reach.malloc (Reach.malloc
    (Reach.init (show exD.limit < 2 ^ 64 by decide)
      (mm_init_eq AllocationPolicy.ap_FirstFit exD exM (by intro n h; cases h) (by decide) rfl
        (by decide) (by decide) (by decide)))
    (by decide) (show mm_malloc 6 fxS0 100 = Res.ok (gxR1.1, gxR1.2) by rfl))
    (by decide) (show mm_malloc 6 gxR1.1 16 = Res.ok (gxR2.1, gxR2.2) by rfl))
    (by decide) (show mm_malloc 6 gxR2.1 16 = Res.ok (gxR3.1, gxR3.2) by rfl))
    (by decide) (show mm_malloc 6 gxR3.1 16 = Res.ok (gxR4.1, gxR4.2) by rfl))
    (by simp)) (by simp)

theorem gxBlocks : heap_blocks gxS =
    some [{ addr := 4128, size := 128, status := 0 }, { addr := 4256, size := 32, status := 1 },
      { addr := 4288, size := 32, status := 0 }, { addr := 4320, size := 32, status := 1 },
      { addr := 4352, size := 3808, status := 0 }] := by
  decide

theorem hxReach : Reach hxS.1 [hxS.2] :=
  Reach.malloc exReach0 (by decide) (show mm_malloc 3 exS0 4016 = Res.ok (hxS.1, hxS.2) by rfl)

theorem hxBlocks : heap_blocks hxS.1 = some [{ addr := 4128, size := 4032, status := 1 }] := by
  decide

theorem exBlocks0 : heap_blocks exS0 = some [{ addr := 4128, size := 4032, status := 0 }] := by
  decide

theorem malloc_splits_at_threshold_witness :
    (∃ pre b post st', [{ addr := 4128, size := 4032, status := 0 }] = pre ++ b :: post ∧
      b.addr = 4128 ∧ b.status = FREE ∧ blockSizeOf 40 ≤ b.size ∧
      mm_malloc (2 + 1) exS0 40 = Res.ok (st', 4128 + TYPE_SIZE) ∧
      heap_blocks st' = some (pre ++ splitSpec b (blockSizeOf 40) ++ post) ∧
      ∀ x ∈ splitSpec b (blockSizeOf 40),
        GET st'.mem x.addr = PACK x.size x.status ∧
          GET st'.mem (x.addr + x.size - TYPE_SIZE) = PACK x.size x.status) ∧
    (∃ pre b post st', [{ addr := 4128, size := 64, status := 0 },
        { addr := 4192, size := 64, status := 1 },
        { addr := 4256, size := 3904, status := 0 }] = pre ++ b :: post ∧
      b.addr = 4256 ∧ b.status = FREE ∧ blockSizeOf 3888 ≤ b.size ∧
      mm_malloc (3 + 1) exS3 3888 = Res.ok (st', 4256 + TYPE_SIZE) ∧
      heap_blocks st' = some (pre ++ splitSpec b (blockSizeOf 3888) ++ post) ∧
      ∀ x ∈ splitSpec b (blockSizeOf 3888),
        GET st'.mem x.addr = PACK x.size x.status ∧
          GET st'.mem (x.addr + x.size - TYPE_SIZE) = PACK x.size x.status) :=
  ⟨malloc_splits_at_threshold exS0 (Reachable.wellFormed ⟨_, exReach0⟩) _ (by decide) 40
      (by decide) 2 (withCursor exS0 4128) 4128 (by rfl) (by decide),
    malloc_splits_at_threshold exS3 (Reachable.wellFormed ⟨_, exReach3⟩) _ (by decide) 3888
      (by decide) 3 (withCursor exS3 4256) 4256 (by rfl) (by decide)⟩

theorem first_fit_returns_lowest_witness :
    ∃ st' block, ff_get_free_block 5 gxS 32 = Res.ok (st', block) ∧
      (block = NULL ↔ ∀ x ∈ [{ addr := 4128, size := 128, status := 0 },
          { addr := 4256, size := 32, status := 1 }, { addr := 4288, size := 32, status := 0 },
          { addr := 4320, size := 32, status := 1 },
          ({ addr := 4352, size := 3808, status := 0 } : Block)],
        ¬ (x.status = FREE ∧ 32 ≤ x.size)) ∧
      (block ≠ NULL →
        (∃ b ∈ [{ addr := 4128, size := 128, status := 0 },
          { addr := 4256, size := 32, status := 1 }, { addr := 4288, size := 32, status := 0 },
          { addr := 4320, size := 32, status := 1 },
          ({ addr := 4352, size := 3808, status := 0 } : Block)],
          b.addr = block ∧ b.status = FREE ∧ 32 ≤ b.size) ∧
        ∀ x ∈ [{ addr := 4128, size := 128, status := 0 },
          { addr := 4256, size := 32, status := 1 }, { addr := 4288, size := 32, status := 0 },
          { addr := 4320, size := 32, status := 1 },
          ({ addr := 4352, size := 3808, status := 0 } : Block)],
          x.status = FREE → 32 ≤ x.size → block ≤ x.addr) :=
  first_fit_returns_lowest gxS (Reachable.wellFormed ⟨_, gxReach⟩) _ gxBlocks 32 5 (by decide)

theorem best_fit_returns_minimum_witness :
    ∃ st' block, bf_get_free_block 5 gxS 32 = Res.ok (st', block) ∧
      (block = NULL ↔ ∀ x ∈ [{ addr := 4128, size := 128, status := 0 },
          { addr := 4256, size := 32, status := 1 }, { addr := 4288, size := 32, status := 0 },
          { addr := 4320, size := 32, status := 1 },
          ({ addr := 4352, size := 3808, status := 0 } : Block)],
        ¬ (x.status = FREE ∧ 32 ≤ x.size)) ∧
      (block ≠ NULL →
        ∃ b ∈ [{ addr := 4128, size := 128, status := 0 },
          { addr := 4256, size := 32, status := 1 }, { addr := 4288, size := 32, status := 0 },
          { addr := 4320, size := 32, status := 1 },
          ({ addr := 4352, size := 3808, status := 0 } : Block)],
          b.addr = block ∧ b.status = FREE ∧ 32 ≤ b.size ∧
          ∀ x ∈ [{ addr := 4128, size := 128, status := 0 },
            { addr := 4256, size := 32, status := 1 }, { addr := 4288, size := 32, status := 0 },
            { addr := 4320, size := 32, status := 1 },
            ({ addr := 4352, size := 3808, status := 0 } : Block)],
            x.status = FREE → 32 ≤ x.size →
              b.size ≤ x.size ∧ (x.size = b.size → block ≤ x.addr)) :=
  best_fit_returns_minimum gxS (Reachable.wellFormed ⟨_, gxReach⟩) _ gxBlocks 32 5 (by decide)

theorem cursor_is_unset_or_block_start_witness :
    ∃ bs, heap_blocks nxS = some bs ∧
      (nxS.nextfit_start = NULL ∨ ∃ b ∈ bs, b.addr = nxS.nextfit_start) ∧
      nxS.nextfit_start ≠ nxS.heap_end ∧ nxS.nextfit_start ≠ nxS.heap_start - TYPE_SIZE :=
  cursor_is_unset_or_block_start nxS ⟨_, nxReach⟩

theorem growth_advances_heap_end_witness :
    ∃ st', expand_heap hxS.1 = Res.ok st' ∧ st'.heap_end = hxS.1.heap_end + CHUNKSIZE ∧
      st'.heap_end % BS = 0 ∧ GET st'.mem st'.heap_end = PACK 0 ALLOC ∧
      GET_SIZE st'.mem st'.heap_end = 0 ∧ GET_STATUS st'.mem st'.heap_end = ALLOC :=
  growth_advances_heap_end hxS.1 (Reachable.wellFormed ⟨_, hxReach⟩) (by decide)

theorem growth_extends_trailing_block_witness :
    (∃ st', expand_heap exS0 = Res.ok st' ∧
      heap_blocks st' =
        some (growSpec exS0.heap_end [{ addr := 4128, size := 4032, status := 0 }]) ∧
      ∃ l, (growSpec exS0.heap_end [{ addr := 4128, size := 4032, status := 0 }]).getLast?
          = some l ∧ l.status = FREE ∧ l.addr + l.size = st'.heap_end ∧
        GET st'.mem l.addr = PACK l.size FREE ∧
        GET st'.mem (l.addr + l.size - TYPE_SIZE) = PACK l.size FREE) ∧
    (∃ st', expand_heap hxS.1 = Res.ok st' ∧
      heap_blocks st' =
        some (growSpec hxS.1.heap_end [{ addr := 4128, size := 4032, status := 1 }]) ∧
      ∃ l, (growSpec hxS.1.heap_end [{ addr := 4128, size := 4032, status := 1 }]).getLast?
          = some l ∧ l.status = FREE ∧ l.addr + l.size = st'.heap_end ∧
        GET st'.mem l.addr = PACK l.size FREE ∧
        GET st'.mem (l.addr + l.size - TYPE_SIZE) = PACK l.size FREE) :=
  ⟨growth_extends_trailing_block exS0 (Reachable.wellFormed ⟨_, exReach0⟩) _ exBlocks0
      (by decide),
    growth_extends_trailing_block hxS.1 (Reachable.wellFormed ⟨_, hxReach⟩) _ hxBlocks
      (by decide)⟩

theorem init_builds_single_free_block_witness :
    ∃ st, mm_init AllocationPolicy.ap_BestFit exD exM = Res.ok st ∧
      (st.heap_start % BS = 0 ∧ exD.start + TYPE_SIZE ≤ st.heap_start ∧
        ∀ a, a % BS = 0 → exD.start + TYPE_SIZE ≤ a → st.heap_start ≤ a) ∧
      (st.heap_end % BS = 0 ∧ st.heap_end ≤ exD.start + CHUNKSIZE - TYPE_SIZE ∧
        ∀ a, a % BS = 0 → a ≤ exD.start + CHUNKSIZE - TYPE_SIZE → a ≤ st.heap_end) ∧
      GET st.mem (st.heap_start - TYPE_SIZE) = PACK 0 ALLOC ∧
      GET st.mem st.heap_end = PACK 0 ALLOC ∧
      heap_blocks st =
        some [{ addr := st.heap_start, size := st.heap_end - st.heap_start, status := FREE }] ∧
      GET st.mem st.heap_start = PACK (st.heap_end - st.heap_start) FREE ∧
      GET st.mem (st.heap_end - TYPE_SIZE) = GET st.mem st.heap_start :=
  init_builds_single_free_block AllocationPolicy.ap_BestFit exD exM (by intro n h; cases h)
    (by decide) rfl (by decide) (by decide) (by decide)

theorem blocksize_is_least_multiple_witness :
    blockSizeOf 0 = ROUND_UP (TYPE_SIZE + 0 + TYPE_SIZE) ∧
      (blockSizeOf 0 % BS = 0 ∧ 0 + 16 ≤ blockSizeOf 0 ∧
        ∀ a, a % BS = 0 → 0 + 16 ≤ a → blockSizeOf 0 ≤ a) ∧
      32 ≤ blockSizeOf 0 ∧ blockSizeOf 0 < 0 + 48 ∧
      (0 = 0 → blockSizeOf 0 = 32) ∧
      ∃ N, ∀ fuel, N ≤ fuel → ∃ st' p, mm_malloc fuel exS0 0 = Res.ok (st', p) ∧
        GET st'.mem (p - TYPE_SIZE) = PACK (blockSizeOf 0) ALLOC ∧
        GET st'.mem (p - TYPE_SIZE + blockSizeOf 0 - TYPE_SIZE) =
          PACK (blockSizeOf 0) ALLOC :=
  blocksize_is_least_multiple 0 (by decide) exS0 ⟨_, exReach0⟩ 1 (by decide) (by decide)

/-! ## Alignment of payload pointers, the codec, and the provider's region -/

theorem mm_malloc_ptr {st : State} {bs : List Block} (h : Inv st bs) {fuel n : Nat}
    {st' : State} {p : Nat} (hm : mm_malloc fuel st n = Res.ok (st', p)) :
    ∃ stk bsk b, Inv stk bsk ∧ b ∈ bsk ∧ b.status = 0 ∧ p = b.addr + 8 ∧ b.addr % 32 = 0 := by
  obtain ⟨stk, bsk, b, _, g2, g3, g4⟩ := mm_malloc_partial n fuel st bs (st', p) h hm
  obtain ⟨hb0, _, pre, post, hl⟩ := policyChoice_sound g3
  have hmem : b ∈ bsk := by rw [hl]; simp
  have hal := (Chain.aligned g2.chain g2.hs_al).1 b hmem
  have hp : p = b.addr + 8 := congrArg Prod.snd g4
  exact ⟨stk, bsk, b, g2, hmem, hb0, hp, hal⟩

/-- C21 (amended): for every reachable heap state and every `n`, a payload pointer returned by
`mm_malloc(n)` is the start of a block plus the 8-byte header: the block start is a multiple
of 32 and the pointer is congruent to 8 modulo 32 (so it is a multiple of 8, not of 32); and
for `n ≤ 2 ^ 64 - 48` with a granting provider the call does return. -/
theorem malloc_payload_is_header_past_aligned_block (st : State) (h : Reachable st) (n : Nat) :
    (∀ fuel st' p, mm_malloc fuel st n = Res.ok (st', p) →
      (p - TYPE_SIZE) % BS = 0 ∧ p % BS = TYPE_SIZE ∧ p % 8 = 0) ∧
    (n ≤ 2 ^ 64 - 48 → ∀ k, blockSizeOf n ≤ CHUNKSIZE * k →
      st.ds.brk + CHUNKSIZE * k ≤ st.ds.limit →
      ∃ N, ∀ fuel, N ≤ fuel → ∃ st' p, mm_malloc fuel st n = Res.ok (st', p) ∧
        p % BS = TYPE_SIZE) := by
  obtain ⟨bs, hinv, _⟩ := h.blocks
  have key : ∀ fuel st' p, mm_malloc fuel st n = Res.ok (st', p) →
      (p - TYPE_SIZE) % BS = 0 ∧ p % BS = TYPE_SIZE ∧ p % 8 = 0 := by
    intro fuel st' p hm
    obtain ⟨_, _, b, _, _, _, hp, hal⟩ := mm_malloc_ptr hinv hm
    unfold TYPE_SIZE BS
    omega
  refine ⟨key, fun hn k hk hgrant => ⟨bs.length + 2 * k + 1, fun fuel hf => ?_⟩⟩
  obtain ⟨st', p, _, _, _, hm, _⟩ :=
    mm_malloc_returns hinv hn (by unfold CHUNKSIZE at hk; omega)
      (by unfold CHUNKSIZE at hgrant; omega) hf
  exact ⟨st', p, hm, (key fuel st' p hm).2.1⟩

/-- C26: the boundary-tag codec round-trips. For every 64-bit size whose low 3 bits are zero
and every status in 0..7, `SIZE(PACK(size, status)) = size` and
`STATUS(PACK(size, status)) = status`; and for every 64-bit word `v`,
`PACK(SIZE(v), STATUS(v)) = v`. -/
theorem codec_round_trip (size status v : Nat) (hs : size < 2 ^ 64) (h8 : size % 8 = 0)
    (ht : status ≤ 7) (hv : v < 2 ^ 64) :
    SIZE (PACK size status) = size ∧ STATUS (PACK size status) = status ∧
      PACK (SIZE v) (STATUS v) = v := by
  have hp := PACK_eq size status h8 (by omega)
  refine ⟨?_, ?_, ?_⟩
  · rw [hp, SIZE_eq _ (by omega)]; omega
  · rw [hp, STATUS_eq]; omega
  · rw [SIZE_eq v hv, STATUS_eq, PACK_eq _ _ (by omega) (by omega)]; omega

theorem SameBase.andThen {a b c : State} (h1 : SameBase a b) (h2 : SameBase b c) :
    SameBase a c :=
  ⟨h2.1.trans h1.1, h2.2.1.trans h1.2.1, h2.2.2.trans h1.2.2⟩

theorem coalesce_static (st : State) (block : Nat) : SameBase st (coalesce st block) := by
  rw [coalesce_eq]
  unfold coalesce_prev coalesce_next SameBase
  simp only []
  split_ifs <;> exact ⟨rfl, rfl, rfl⟩

theorem mm_free_static (st : State) (ptr : Nat) : SameBase st (mm_free st ptr) := by
  unfold mm_free
  simp only []
  split_ifs
  · exact ⟨rfl, rfl, rfl⟩
  · refine SameBase.andThen ?_ (coalesce_static _ _)
    exact ⟨rfl, rfl, rfl⟩

theorem expand_heap_static {st st' : State} (h : expand_heap st = Res.ok st') :
    SameBase st st' := by
  unfold expand_heap at h
  simp only [] at h
  cases hs : ds_sbrk st.ds CHUNKSIZE with
  | none => rw [hs] at h; cases h
  | some r =>
    obtain ⟨a, d1⟩ := r
    rw [hs] at h
    simp only [] at h
    have hd : d1.start = st.ds.start := by
      unfold ds_sbrk at hs
      split_ifs at hs
      injection hs with hs
      injection hs with _ hs
      rw [← hs]
    split_ifs at h
    · injection h with h
      rw [← h]
      refine SameBase.andThen ?_ (coalesce_static _ _)
      exact ⟨rfl, rfl, hd⟩
    · injection h with h
      rw [← h]
      exact ⟨rfl, rfl, hd⟩

theorem call_get_block_static {fuel : Nat} {st st1 : State} {size block : Nat}
    (h : call_get_block fuel st size = Res.ok (st1, block)) : SameBase st st1 := by
  unfold call_get_block at h
  cases hg : st.get_block with
  | ap_other n => rw [hg] at h; cases h
  | ap_FirstFit =>
    rw [hg] at h
    simp only [ff_get_free_block] at h
    split at h
    · injection h with h; injection h with h1 h2; rw [← h1]; exact ⟨rfl, rfl, rfl⟩
    · injection h with h; injection h with h1 h2; rw [← h1]; exact ⟨rfl, rfl, rfl⟩
    · cases h
    · cases h
  | ap_NextFit =>
    rw [hg] at h
    simp only [nf_get_free_block] at h
    split at h
    · injection h with h; injection h with h1 h2; rw [← h1]; exact ⟨rfl, rfl, rfl⟩
    · injection h with h; injection h with h1 h2; rw [← h1]; exact ⟨rfl, rfl, rfl⟩
    · cases h
    · cases h
  | ap_BestFit =>
    rw [hg] at h
    simp only [bf_get_free_block] at h
    split at h
    · split_ifs at h
      · injection h with h; injection h with h1 h2; rw [← h1]; exact ⟨rfl, rfl, rfl⟩
      · injection h with h; injection h with h1 h2; rw [← h1]; exact ⟨rfl, rfl, rfl⟩
    · cases h
    · cases h

theorem mm_malloc_static (size : Nat) : ∀ (fuel : Nat) (st st' : State) (p : Nat),
    mm_malloc fuel st size = Res.ok (st', p) → SameBase st st'
  | 0, _, _, _, h => by simp [mm_malloc] at h
  | fuel + 1, st, st', p, h => by
    rw [mm_malloc_succ] at h
    cases hc : call_get_block fuel st (blockSizeOf size) with
    | panic => rw [hc] at h; cases h
    | nofuel => rw [hc] at h; cases h
    | ok r =>
      obtain ⟨st1, block⟩ := r
      rw [hc] at h
      simp only [] at h
      have s1 := call_get_block_static hc
      by_cases hb : block = NULL
      · rw [if_pos hb] at h
        cases he : expand_heap st1 with
        | panic => rw [he] at h; cases h
        | nofuel => rw [he] at h; cases h
        | ok st2 =>
          rw [he] at h
          have s2 := expand_heap_static he
          have s3 := mm_malloc_static size fuel st2 st' p h
          exact (s1.andThen s2).andThen s3
      · rw [if_neg hb] at h
        injection h with h
        injection h with h1 h2
        rw [← h1]
        exact s1.andThen ⟨rfl, rfl, rfl⟩

theorem mm_calloc_static {fuel : Nat} {st st' : State} {nmemb size p : Nat}
    (h : mm_calloc fuel st nmemb size = Res.ok (st', p)) : SameBase st st' := by
  unfold mm_calloc at h
  cases hm : mm_malloc fuel st (nmemb * size % WORD_MOD) with
  | panic => rw [hm] at h; cases h
  | nofuel => rw [hm] at h; cases h
  | ok r =>
    obtain ⟨st1, q⟩ := r
    rw [hm] at h
    simp only [] at h
    have s1 := mm_malloc_static _ _ _ _ _ hm
    split_ifs at h
    · injection h with h; injection h with h1 h2; rw [← h1]; exact s1.andThen ⟨rfl, rfl, rfl⟩
    · injection h with h; injection h with h1 h2; rw [← h1]; exact s1

/-- The low sentinel lies at or above the provider's start in every reachable state, and
`ds_heap_start` is the provider's start. -/
theorem Reach.low_bound {st : State} {R : List Nat} (h : Reach st R) :
    st.ds_heap_start + 8 ≤ st.heap_start ∧ st.ds_heap_start = st.ds.start := by
  induction h with
  | @init ap d m st hlim hinit =>
    obtain ⟨_, _, _, _, _, e⟩ := mm_init_ok hinit hlim
    rw [e]
    refine ⟨?_, rfl⟩
    show d.start + 8 ≤ (d.start + 39) / 32 * 32
    omega
  | malloc _ _ hm ih =>
    have s := mm_malloc_static _ _ _ _ _ hm
    rw [s.1, s.2.1, s.2.2]; exact ih
  | calloc _ _ hm ih =>
    have s := mm_calloc_static hm
    rw [s.1, s.2.1, s.2.2]; exact ih
  | @realloc st st' R fuel ptr size p _ _ _ hm ih =>
    have s := (mm_free_static st ptr).andThen (mm_malloc_static _ _ _ _ _ hm)
    rw [s.1, s.2.1, s.2.2]; exact ih
  | @free st R ptr _ _ ih =>
    have s := mm_free_static st ptr
    rw [s.1, s.2.1, s.2.2]; exact ih

/-- C30: in every state reachable from `mm_init` (the provider's region inside the 64-bit
address space), so after initialisation and after every heap growth, whatever the provider's
start and break addresses: `ds_heap_start ≤ heap_start - 8` and `heap_end + 8 ≤ ds_heap_brk`,
where `ds_heap_start` and `ds_heap_brk` are the provider's start and break; hence the low
sentinel word, the high sentinel word and every block of the heap lie inside the region the
provider has granted. The same bounds hold right after a heap growth from such a state. -/
theorem heap_inside_provider_region (st : State) (h : Reachable st) :
    (st.ds_heap_start = st.ds.start ∧ st.ds_heap_brk = st.ds.brk ∧
      TYPE_SIZE ≤ st.heap_start ∧ st.ds_heap_start ≤ st.heap_start - TYPE_SIZE ∧
      st.heap_end + TYPE_SIZE ≤ st.ds_heap_brk ∧
      ∃ bs, heap_blocks st = some bs ∧
        ∀ b ∈ bs, st.ds_heap_start + TYPE_SIZE ≤ b.addr ∧
          b.addr + b.size + TYPE_SIZE ≤ st.ds_heap_brk) ∧
    (∀ st', expand_heap st = Res.ok st' →
      st'.ds_heap_start = st'.ds.start ∧ st'.ds_heap_brk = st'.ds.brk ∧
      st'.ds_heap_start ≤ st'.heap_start - TYPE_SIZE ∧
      st'.heap_end + TYPE_SIZE ≤ st'.ds_heap_brk ∧ st'.heap_end = st.heap_end + CHUNKSIZE) := by
  obtain ⟨R, hr⟩ := h
  obtain ⟨bs, hinv, _⟩ := hr.invariant
  obtain ⟨hlow, hstart⟩ := hr.low_bound
  have hbrk := hinv.brk_ge
  have heq := hinv.he_eq
  have hb := hinv.brk_eq
  unfold TYPE_SIZE
  refine ⟨⟨hstart, hb, by omega, by omega, by omega, bs, hinv.heap_blocks_eq, ?_⟩, ?_⟩
  · intro b hmem
    obtain ⟨_, t1, t2⟩ := Chain.mem_tagged hinv.chain hmem
    omega
  · intro st' he
    by_cases hg : st.ds.brk + 4096 ≤ st.ds.limit
    · obtain ⟨st2, he2, o⟩ := expand_heap_spec hinv hg
      rw [he] at he2
      injection he2 with he2
      subst he2
      have s := expand_heap_static he
      have hbrk' := o.inv.brk_ge
      have heq' := o.inv.he_eq
      have hb' := o.inv.brk_eq
      have hhe := o.he
      refine ⟨by rw [s.1, s.2.2]; exact hstart, hb', ?_, by omega, ?_⟩
      · rw [s.1, s.2.1]; omega
      · unfold CHUNKSIZE; omega
    · rw [expand_heap_panic hg] at he
      cases he

theorem malloc_growths_succ (fuel : Nat) (st : State) (size : Nat) :
    malloc_growths (fuel + 1) st size =
      match call_get_block fuel st (blockSizeOf size) with
      | Res.ok (st1, block) =>
        if block = NULL then
          match expand_heap st1 with
          | Res.ok st2 => 1 + malloc_growths fuel st2 size
          | _ => 0
        else 0
      | _ => 0 := rfl

/-- A returning `mm_malloc` grows the heap only while the trailing FREE space is too small,
and each growth moves `heap_end` by one chunk. -/
theorem malloc_growths_spec (size : Nat) (hpos : 0 < blockSizeOf size) :
    ∀ (fuel : Nat) (st : State) (bs : List Block) (r : State × Nat), Inv st bs →
    mm_malloc fuel st size = Res.ok r →
    (malloc_growths fuel st size = 0 ∨
      lastFree bs + 4096 * (malloc_growths fuel st size - 1) < blockSizeOf size) ∧
    r.1.heap_end = st.heap_end + 4096 * malloc_growths fuel st size
  | 0, _, _, _, _, h => by simp [mm_malloc] at h
  | fuel + 1, st, bs, r, hinv, h => by
    rw [mm_malloc_succ] at h
    rw [malloc_growths_succ]
    rcases (call_get_block_spec hinv fuel (blockSizeOf size)).2 with hc | hc
    · rw [hc] at h; exact absurd h (by simp)
    · rw [hc] at h ⊢
      cases hch : policyChoice st.get_block st.nextfit_start (blockSizeOf size) bs with
      | none =>
        rw [hch] at h
        simp only [applyChoice, if_pos] at h ⊢
        by_cases hg : st.ds.brk + 4096 ≤ st.ds.limit
        · obtain ⟨st1, he, hout⟩ := expand_heap_spec hinv hg
          rw [he] at h
          rw [he]
          simp only []
          obtain ⟨i1, i2⟩ := malloc_growths_spec size hpos fuel st1 (growBlocks bs) r hout.inv h
          rw [lastFree_growBlocks hinv.nonempty] at i1
          have hno : ¬ blockSizeOf size ≤ lastFree bs := by
            intro hle
            have := policyChoice_isSome hinv hpos hle
            rw [hch] at this
            cases this
          have hhe := hout.he
          generalize malloc_growths fuel st1 size = g at i1 i2 ⊢
          show (1 + g = 0 ∨ lastFree bs + 4096 * (1 + g - 1) < blockSizeOf size) ∧
            r.1.heap_end = st.heap_end + 4096 * (1 + g)
          refine ⟨Or.inr ?_, by rw [i2, hhe]; omega⟩
          rcases i1 with i1 | i1
          · rw [i1]; omega
          · omega
        · rw [expand_heap_panic hg] at h
          exact absurd h (by simp)
      | some b =>
        rw [hch] at h
        have hb := policyChoice_sound hch
        obtain ⟨pre, post, hbs⟩ := hb.2.2
        have hne : b.addr ≠ NULL := hinv.addr_ne_null b (by rw [hbs]; simp)
        simp only [applyChoice, if_neg hne] at h ⊢
        injection h with h
        rw [← h]
        exact ⟨Or.inl trivial, rfl⟩

/-- C25: on every reachable heap, under each fit policy, with a provider that grants the
growth and a request `size ≤ 2 ^ 64 - 48`, `mm_malloc(size)` returns for every step budget
above a bound, and its grow-and-retry recursion performs at most `ceil(blockSize / 4096)` heap
growths, where `blockSize = ROUND_UP(size + 16)`; `heap_end` advances by one chunk per
growth. -/
theorem malloc_growth_bound (st : State) (h : Reachable st) (size : Nat)
    (hn : size ≤ 2 ^ 64 - 48)
    (hgrant : st.ds.brk + CHUNKSIZE * ((blockSizeOf size + CHUNKSIZE - 1) / CHUNKSIZE)
      ≤ st.ds.limit) :
    ∃ N, ∀ fuel, N ≤ fuel → ∃ st' p, mm_malloc fuel st size = Res.ok (st', p) ∧
      malloc_growths fuel st size ≤ (blockSizeOf size + CHUNKSIZE - 1) / CHUNKSIZE ∧
      st'.heap_end = st.heap_end + CHUNKSIZE * malloc_growths fuel st size := by
  obtain ⟨bs, hinv, _⟩ := h.blocks
  have hb := blockSizeOf_bounds hn
  unfold CHUNKSIZE at *
  refine ⟨bs.length + 2 * ((blockSizeOf size + 1 * 2 ^ 12 - 1) / (1 * 2 ^ 12)) + 1,
    fun fuel hf => ?_⟩
  obtain ⟨st', p, _, _, _, hm, _⟩ :=
    @mm_malloc_returns st bs hinv size ((blockSizeOf size + 1 * 2 ^ 12 - 1) / (1 * 2 ^ 12)) hn
      (by omega) (by omega) fuel hf
  obtain ⟨i1, i2⟩ := malloc_growths_spec size (by omega) fuel st bs (st', p) hinv hm
  refine ⟨st', p, hm, ?_, by rw [i2]; omega⟩
  rcases i1 with i1 | i1
  · rw [i1]; exact Nat.zero_le _
  · omega

theorem Chain.disjoint {m : Mem} {bs : List Block} {a e : Nat} (h : Chain m a bs e)
    {x y : Block} (hx : x ∈ bs) (hy : y ∈ bs) (hne : x ≠ y) :
    x.addr + x.size ≤ y.addr ∨ y.addr + y.size ≤ x.addr := by
  obtain ⟨pre, post, hl⟩ := List.append_of_mem hy
  subst hl
  obtain ⟨h1, _, h3⟩ := Chain.splitAt h
  rcases List.mem_append.1 hx with hx | hx
  · exact Or.inl (Chain.mem_tagged h1 hx).2.2
  · rcases List.mem_cons.1 hx with hx | hx
    · exact absurd hx hne
    · exact Or.inr (Chain.mem_tagged h3 hx).2.1

theorem growBlocks_keeps {bs : List Block} {x : Block} (hx : x ∈ bs) (hs : x.status = 1) :
    x ∈ growBlocks bs := by
  rcases snoc_cases bs with e | ⟨pre, l, e⟩
  · subst e; simp at hx
  · subst e
    by_cases hl : l.status = 0
    · rw [growBlocks_free hl]
      rcases List.mem_append.1 hx with hx | hx
      · exact List.mem_append.2 (Or.inl hx)
      · simp only [List.mem_singleton] at hx
        subst hx
        omega
    · have e : growBlocks (pre ++ [l]) =
          pre ++ [l] ++ [{ addr := l.addr + l.size, size := CHUNKSIZE, status := FREE }] := by
        simp [growBlocks, FREE, hl]
      rw [e]
      exact List.mem_append.2 (Or.inl hx)

theorem growStart_ge {st : State} {bs : List Block} (h : Inv st bs) {x : Block} (hx : x ∈ bs)
    (hs : x.status = 1) : x.addr + x.size ≤ growStart bs := by
  rcases snoc_cases bs with e | ⟨pre, l, e⟩
  · subst e; simp at hx
  · subst e
    rw [growStart_snoc]
    obtain ⟨h1, _, _⟩ := Chain.splitAt h.chain
    rcases List.mem_append.1 hx with hx | hx
    · have := (Chain.mem_tagged h1 hx).2.2
      split_ifs <;> omega
    · simp only [List.mem_singleton] at hx
      subst hx
      rw [if_neg (by omega)]

/-- Heap growth leaves every ALLOCATED block in the heap and does not touch its bytes. -/
theorem GrowsTo.keeps {blocksize : Nat} {st stk : State} {bs bsk : List Block}
    (g : GrowsTo blocksize st bs stk bsk) :
    ∀ x ∈ bs, x.status = 1 → x ∈ bsk ∧ ∀ a, a < x.addr + x.size → stk.mem a = st.mem a := by
  induction g with
  | refl st bs => exact fun x hx _ => ⟨hx, fun _ _ => rfl⟩
  | step hinv _ _ hout _ ih =>
    intro x hx hs
    obtain ⟨i1, i2⟩ := ih x (growBlocks_keeps hx hs) hs
    refine ⟨i1, fun a ha => ?_⟩
    rw [i2 a ha]
    exact hout.bytes a (lt_of_lt_of_le ha (growStart_ge hinv hx hs))

theorem GrowsTo.he_le {blocksize : Nat} {st stk : State} {bs bsk : List Block}
    (g : GrowsTo blocksize st bs stk bsk) :
    st.heap_end ≤ stk.heap_end ∧ stk.heap_start = st.heap_start := by
  induction g with
  | refl st bs => exact ⟨le_refl _, rfl⟩
  | step _ _ _ hout _ ih =>
    have := hout.he
    have := hout.hs
    exact ⟨by omega, by omega⟩

theorem GrowsTo.no_growth {blocksize : Nat} {st stk : State} {bs bsk : List Block}
    (g : GrowsTo blocksize st bs stk bsk) (h : stk.heap_end = st.heap_end) :
    stk = st ∧ bsk = bs := by
  cases g with
  | refl => exact ⟨rfl, rfl⟩
  | step _ _ _ hout g1 =>
    have := hout.he
    have := g1.he_le.1
    omega

/-- What a returning `mm_malloc` leaves of the blocks that were ALLOCATED before: each is
still a block of the heap, is disjoint from the block just allocated, and keeps its bytes. -/
theorem mm_malloc_frame {st st' : State} {bs : List Block} {fuel size p : Nat}
    (h : Inv st bs) (hpos : 0 < blockSizeOf size)
    (hm : mm_malloc fuel st size = Res.ok (st', p)) :
    ∃ bs', Inv st' bs' ∧ st'.heap_start = st.heap_start ∧ st.heap_end ≤ st'.heap_end ∧
      st'.heap_start ≤ p - 8 ∧ p - 8 + blockSizeOf size ≤ st'.heap_end ∧ 8 ≤ p ∧
      ∀ x ∈ bs, x.status = 1 → x ∈ bs' ∧
        (p - 8 + blockSizeOf size ≤ x.addr ∨ x.addr + x.size ≤ p - 8) ∧
        ∀ a, x.addr ≤ a → a < x.addr + x.size → st'.mem a = st.mem a := by
  obtain ⟨stk, bsk, b, g1, g2, g3, g4⟩ := mm_malloc_partial size fuel st bs (st', p) h hm
  obtain ⟨hb0, hble, pre, post, hl⟩ := policyChoice_sound g3
  subst hl
  have hmod := blockSizeOf_mod size
  have hinv1 : Inv (withCursor stk b.addr) (pre ++ b :: post) := g2.with_cursor (by simp)
  obtain ⟨o, hp⟩ := place_spec hinv1 hb0 hble (by omega) hmod
  rw [← g4] at o hp
  simp only at o hp
  have hbm : b ∈ pre ++ b :: post := by simp
  obtain ⟨tb, tb1, tb2⟩ := Chain.mem_tagged g2.chain hbm
  have hhe := g1.he_le
  have ohs : st'.heap_start = stk.heap_start := o.hs
  have ohe : st'.heap_end = stk.heap_end := o.he
  refine ⟨_, o.inv, by rw [ohs, hhe.2], by rw [ohe]; exact hhe.1, by rw [ohs, hp]; omega,
    by rw [ohe, hp]; omega, by rw [hp]; omega, ?_⟩
  intro x hx hs
  obtain ⟨k1, k2⟩ := g1.keeps x hx hs
  have hne : x ≠ b := by
    intro e; rw [e] at hs; omega
  have hd := Chain.disjoint g2.chain k1 hbm hne
  refine ⟨?_, by rw [hp]; omega, fun a ha1 ha2 => ?_⟩
  · rcases List.mem_append.1 k1 with hx' | hx'
    · exact List.mem_append.2 (Or.inl (List.mem_append.2 (Or.inl hx')))
    · rcases List.mem_cons.1 hx' with hx' | hx'
      · exact absurd hx' hne
      · exact List.mem_append.2 (Or.inr hx')
  · rw [← k2 a ha2]
    exact o.bytes a (by omega)

/-- What `mm_free` of the ALLOCATED block `b` leaves of the other ALLOCATED blocks: each is
still a block of the heap and keeps its bytes. -/
theorem mm_free_frame {st : State} {pre post : List Block} {b : Block}
    (h : Inv st (pre ++ b :: post)) (hb : b.status = 1) :
    ∀ x, x ∈ pre ∨ x ∈ post → x.status = 1 → x ∈ releaseBlocks pre b post ∧
      ∀ a, x.addr ≤ a → a < x.addr + x.size → (mm_free st (b.addr + 8)).mem a = st.mem a := by
  intro x hx hs
  have o := mm_free_out h hb
  obtain ⟨h1, tb, h3⟩ := Chain.splitAt h.chain
  have hmark : ∀ a, (a < b.addr ∨ b.addr + b.size ≤ a) → (markFree st b).mem a = st.mem a := by
    intro a ha
    have := tb.1
    exact PUT2_bytes _ _ _ _ _ _ (by omega) (by omega)
  unfold releaseBlocks coalesceBlocks
  rcases hx with hx | hx
  · -- a block in front of the released one
    rcases snoc_cases pre with e | ⟨pre', q, e⟩
    · subst e; simp at hx
    subst e
    have hxe := (Chain.mem_tagged h1 hx).2.2
    by_cases hq : q.status = 0
    · have hxp : x ∈ pre' := by
        rcases List.mem_append.1 hx with hx' | hx'
        · exact hx'
        · simp only [List.mem_singleton] at hx'
          subst hx'; omega
      obtain ⟨c1, tq, c3⟩ := Chain.splitAt h1
      have hxq := (Chain.mem_tagged c1 hxp).2.2
      refine ⟨?_, fun a ha1 ha2 => ?_⟩
      · rw [mergePrev_merge hq]
        exact List.mem_append.2 (Or.inl (List.mem_append.2 (Or.inl hxp)))
      · have hc : a < mergedAddr (pre' ++ [q]) { addr := b.addr, size := b.size, status := 0 } := by
          rw [mergedAddr_merge hq]
          omega
        rw [o.bytes a (Or.inl hc)]
        exact hmark a (by omega)
    · have hk : ∀ y ∈ (pre' ++ [q]).getLast?, y.status ≠ 0 := by
        intro y hy; simp at hy; subst hy; exact hq
      refine ⟨?_, fun a ha1 ha2 => ?_⟩
      · rw [mergePrev_keep hk]
        exact List.mem_append.2 (Or.inl (List.mem_append.2 (Or.inl hx)))
      · have hc : a < mergedAddr (pre' ++ [q]) { addr := b.addr, size := b.size, status := 0 } := by
          rw [mergedAddr_keep hk]
          show a < b.addr
          omega
        rw [o.bytes a (Or.inl hc)]
        exact hmark a (by omega)
  · -- a block behind the released one
    have hxe := (Chain.mem_tagged h3 hx).2.1
    cases post with
    | nil => simp at hx
    | cons n post' =>
      by_cases hn : n.status = 0
      · have hxp : x ∈ post' := by
          rcases List.mem_cons.1 hx with hx' | hx'
          · subst hx'; omega
          · exact hx'
        obtain ⟨hn1, tn, c3⟩ := h3
        have hxn := (Chain.mem_tagged c3 hxp).2.1
        refine ⟨?_, fun a ha1 ha2 => ?_⟩
        · rw [mergeNext_merge hn]
          exact List.mem_append.2 (Or.inr hxp)
        · have hc : b.addr + (mergeNext { addr := b.addr, size := b.size, status := 0 }
              (n :: post')).1.size ≤ a := by
            rw [mergeNext_merge hn]
            show b.addr + (b.size + n.size) ≤ a
            omega
          rw [o.bytes a (Or.inr hc)]
          exact hmark a (by omega)
      · have hk : ∀ y ∈ (n :: post').head?, y.status ≠ 0 := by
          intro y hy; simp at hy; subst hy; exact hn
        refine ⟨?_, fun a ha1 ha2 => ?_⟩
        · rw [mergeNext_keep hk]
          exact List.mem_append.2 (Or.inr hx)
        · have hc : b.addr + (mergeNext { addr := b.addr, size := b.size, status := 0 }
              (n :: post')).1.size ≤ a := by
            rw [mergeNext_keep hk]
            show b.addr + b.size ≤ a
            omega
          rw [o.bytes a (Or.inr hc)]
          exact hmark a (by omega)

theorem Chain.cover {m : Mem} : ∀ {bs : List Block} {s e a : Nat}, Chain m s bs e →
    s ≤ a → a < e → ∃ y ∈ bs, y.addr ≤ a ∧ a < y.addr + y.size
  | [], s, e, a, h, h1, h2 => by
    have : s = e := h
    omega
  | b :: bs, s, e, a, h, h1, h2 => by
    obtain ⟨hb, _, h3⟩ := h
    by_cases hlt : a < s + b.size
    · exact ⟨b, by simp, by omega, by omega⟩
    · obtain ⟨y, hy, c1, c2⟩ := Chain.cover h3 (by omega) h2
      exact ⟨y, List.mem_cons_of_mem _ hy, c1, c2⟩

/-- C27: on every reachable heap, for every `size ≤ 2 ^ 64 - 48` and a provider that grants
the needed growth, `mm_malloc(size)` returns; the block it marks ALLOCATED lies inside
`[heap_start, heap_end)` and each of its addresses was inside a FREE block of the heap or at or
beyond the old `heap_end` (freshly grown capacity); so the payload range `[p, p + size)` lies
within the heap and is disjoint from the block, and so from the payload, of every block that
was already ALLOCATED. -/
theorem malloc_does_not_overlap (st : State) (h : Reachable st) (bs : List Block)
    (hbs : heap_blocks st = some bs) (size : Nat) (hn : size ≤ 2 ^ 64 - 48) (k : Nat)
    (hk : blockSizeOf size ≤ CHUNKSIZE * k) (hgrant : st.ds.brk + CHUNKSIZE * k ≤ st.ds.limit) :
    ∃ N, ∀ fuel, N ≤ fuel → ∃ st' p, mm_malloc fuel st size = Res.ok (st', p) ∧
      st'.heap_start ≤ p - TYPE_SIZE ∧ p - TYPE_SIZE + blockSizeOf size ≤ st'.heap_end ∧
      st'.heap_start ≤ p ∧ p + size ≤ st'.heap_end ∧
      (∀ a, p - TYPE_SIZE ≤ a → a < p - TYPE_SIZE + blockSizeOf size →
        st.heap_end ≤ a ∨ ∃ f ∈ bs, f.status = FREE ∧ f.addr ≤ a ∧ a < f.addr + f.size) ∧
      ∀ x ∈ bs, x.status = ALLOC →
        (p - TYPE_SIZE + blockSizeOf size ≤ x.addr ∨ x.addr + x.size ≤ p - TYPE_SIZE) ∧
        (p + size ≤ x.addr + TYPE_SIZE ∨ x.addr + x.size - TYPE_SIZE ≤ p) := by
  obtain ⟨bs0, hinv, _⟩ := h.blocks
  have e0 := heap_blocks_unique hinv hbs
  subst e0
  have hb := blockSizeOf_bounds hn
  refine ⟨bs0.length + 2 * k + 1, fun fuel hf => ?_⟩
  obtain ⟨st', p, _, _, _, hm, _⟩ :=
    mm_malloc_returns hinv hn (by unfold CHUNKSIZE at hk; omega)
      (by unfold CHUNKSIZE at hgrant; omega) hf
  obtain ⟨bs', _, f1, f2, f3, f4, f5, f6⟩ := mm_malloc_frame hinv (by omega) hm
  unfold TYPE_SIZE
  refine ⟨st', p, hm, f3, f4, by omega, by omega, ?_, ?_⟩
  · intro a ha1 ha2
    by_cases hlt : a < st.heap_end
    · right
      obtain ⟨y, hy, c1, c2⟩ := Chain.cover hinv.chain (by omega) hlt
      refine ⟨y, hy, ?_, c1, c2⟩
      have ty := (Chain.mem_tagged hinv.chain hy).1
      rcases ty.2.2.2.1 with t | t
      · exact t
      · have := (f6 y hy t).2.1
        omega
    · left; omega
  · intro x hx hs
    have := (f6 x hx hs).2.1
    exact ⟨this, by omega⟩

/-- C28: on every reachable heap, `mm_malloc(size)` (for `size ≤ 2 ^ 64 - 48`, with any heap
growth it triggers) and `mm_free` of an ALLOCATED block write nothing inside the other
ALLOCATED blocks: every block that is ALLOCATED before the call and is not the one released
is still a block of the heap afterwards, and its header, its footer and every payload byte
(all bytes from its start to its end) are unchanged. -/
theorem alloc_and_release_keep_other_blocks (st : State) (h : Reachable st) (bs : List Block)
    (hbs : heap_blocks st = some bs) :
    (∀ size, size ≤ 2 ^ 64 - 48 → ∀ k, blockSizeOf size ≤ CHUNKSIZE * k →
      st.ds.brk + CHUNKSIZE * k ≤ st.ds.limit →
      ∃ N, ∀ fuel, N ≤ fuel → ∃ st' p bs', mm_malloc fuel st size = Res.ok (st', p) ∧
        heap_blocks st' = some bs' ∧
        ∀ x ∈ bs, x.status = ALLOC → x ∈ bs' ∧
          ∀ a, x.addr ≤ a → a < x.addr + x.size → st'.mem a = st.mem a) ∧
    (∀ b ∈ bs, b.status = ALLOC →
      ∃ bs', heap_blocks (mm_free st (b.addr + TYPE_SIZE)) = some bs' ∧
        ∀ x ∈ bs, x.status = ALLOC → x ≠ b → x ∈ bs' ∧
          ∀ a, x.addr ≤ a → a < x.addr + x.size →
            (mm_free st (b.addr + TYPE_SIZE)).mem a = st.mem a) := by
  obtain ⟨bs0, hinv, _⟩ := h.blocks
  have e0 := heap_blocks_unique hinv hbs
  subst e0
  constructor
  · intro size hn k hk hgrant
    have hb := blockSizeOf_bounds hn
    refine ⟨bs0.length + 2 * k + 1, fun fuel hf => ?_⟩
    obtain ⟨st', p, _, _, _, hm, _⟩ :=
      mm_malloc_returns hinv hn (by unfold CHUNKSIZE at hk; omega)
        (by unfold CHUNKSIZE at hgrant; omega) hf
    obtain ⟨bs', i1, _, _, _, _, _, f6⟩ := mm_malloc_frame hinv (by omega) hm
    exact ⟨st', p, bs', hm, i1.heap_blocks_eq, fun x hx hs =>
      ⟨(f6 x hx hs).1, (f6 x hx hs).2.2⟩⟩
  · intro b hb hs
    obtain ⟨pre, post, hl⟩ := List.append_of_mem hb
    subst hl
    have hinv' := mm_free_inv hinv hs
    have hf := mm_free_frame hinv hs
    refine ⟨_, hinv'.heap_blocks_eq, fun x hx hxs hne => hf x ?_ hxs⟩
    rcases List.mem_append.1 hx with hx | hx
    · exact Or.inl hx
    · rcases List.mem_cons.1 hx with hx | hx
      · exact absurd hx hne
      · exact Or.inr hx

theorem release_after_place {pre post : List Block} {b : Block} {blocksize : Nat}
    (hn : NoAdjFree (pre ++ b :: post)) (hb : b.status = 0) (hle : blocksize ≤ b.size) :
    releaseBlocks pre { addr := b.addr, size := blocksize, status := ALLOC }
      (placeRest b blocksize ++ post) = pre ++ b :: post := by
  obtain ⟨n1, n2⟩ := hn.neighbours hb
  have hbe : b = { addr := b.addr, size := b.size, status := 0 } := by
    cases b; simp at hb; simp [hb]
  unfold releaseBlocks coalesceBlocks placeRest
  by_cases hlt : blocksize < b.size
  · rw [if_pos hlt]
    simp only [List.singleton_append]
    rw [mergeNext_merge rfl]
    simp only []
    rw [mergePrev_keep n1]
    have : blocksize + (b.size - blocksize) = b.size := by omega
    rw [this, ← hbe]
    simp
  · rw [if_neg hlt]
    simp only [List.nil_append]
    rw [mergeNext_keep n2]
    simp only []
    rw [mergePrev_keep n1]
    have : blocksize = b.size := by omega
    rw [this]
    show pre ++ [{ addr := b.addr, size := b.size, status := 0 }] ++ post = _
    rw [← hbe]
    simp

/-- C29 (amended): on every well-formed heap, under each fit policy, if `p = mm_malloc(size)`
returns without growing the heap, for a request whose computed block size is not zero (every
`size` up to `2 ^ 64 - 48`), then `mm_free(p)`
restores exactly the previous sequence of blocks (same start addresses, sizes and statuses)
and the same heap bounds. -/
theorem alloc_then_release_round_trip (st : State) (hwf : WellFormed st) (bs : List Block)
    (hbs : heap_blocks st = some bs) (size : Nat) (hpos : 0 < blockSizeOf size) (fuel : Nat)
    (st' : State) (p : Nat) (hm : mm_malloc fuel st size = Res.ok (st', p))
    (hng : st'.heap_end = st.heap_end) :
    heap_blocks (mm_free st' p) = some bs ∧ (mm_free st' p).heap_start = st.heap_start ∧
      (mm_free st' p).heap_end = st.heap_end := by
  obtain ⟨bs0, hinv⟩ := hwf
  have e0 := heap_blocks_unique hinv hbs
  subst e0
  obtain ⟨stk, bsk, b, g1, g2, g3, g4⟩ := mm_malloc_partial size fuel st bs0 (st', p) hinv hm
  have hst : st' = (place (withCursor stk b.addr) b.addr (blockSizeOf size)).1 :=
    congrArg Prod.fst g4
  have hke : stk.heap_end = st.heap_end := by
    rw [← hng, hst]; rfl
  obtain ⟨e1, e2⟩ := g1.no_growth hke
  subst e1 e2
  obtain ⟨hb0, hble, pre, post, hl⟩ := policyChoice_sound g3
  subst hl
  have hmod := blockSizeOf_mod size
  have hinv1 : Inv (withCursor stk b.addr) (pre ++ b :: post) := hinv.with_cursor (by simp)
  obtain ⟨o, hp⟩ := place_spec hinv1 hb0 hble (by omega) hmod
  rw [← g4] at o hp
  simp only at o hp
  have hinv' := o.inv
  rw [placeBlocks_eq, List.append_assoc, List.cons_append] at hinv'
  have hfree := mm_free_inv hinv' rfl
  have hout := mm_free_out hinv' rfl
  rw [release_after_place hinv.noadj hb0 hble] at hfree
  have hp' : p = b.addr + 8 := hp
  rw [hp']
  have ohs : st'.heap_start = stk.heap_start := o.hs
  exact ⟨hfree.heap_blocks_eq, by rw [hout.hs]; exact ohs, by rw [hout.he]; exact hng⟩

/-! ## The two allocation scenarios -/


/-- When the policy chooses the block `b`, `mm_malloc` returns its payload and places the
allocation in it. -/
theorem mm_malloc_found {st : State} {pre post : List Block} {b : Block} {size fuel : Nat}
    (h : Inv st (pre ++ b :: post))
    (hc : policyChoice st.get_block st.nextfit_start (blockSizeOf size) (pre ++ b :: post)
      = some b)
    (hpos : 0 < blockSizeOf size) (hf : (pre ++ b :: post).length ≤ fuel) :
    ∃ st', mm_malloc (fuel + 1) st size = Res.ok (st', b.addr + 8) ∧
      Inv st' (pre ++ placeBlocks b (blockSizeOf size) ++ post) ∧
      st'.get_block = st.get_block := by
  obtain ⟨hb0, hble, _⟩ := policyChoice_sound hc
  have hmod := blockSizeOf_mod size
  have hinv1 : Inv (withCursor st b.addr) (pre ++ b :: post) := h.with_cursor (by simp)
  obtain ⟨o, hp⟩ := place_spec hinv1 hb0 hble (by omega) hmod
  have hne : b.addr ≠ NULL := h.addr_ne_null b (by simp)
  refine ⟨(place (withCursor st b.addr) b.addr (blockSizeOf size)).1, ?_, o.inv, o.gb⟩
  rw [mm_malloc_succ, (call_get_block_spec h fuel (blockSizeOf size)).1 hf, hc]
  simp only [applyChoice, if_neg hne]
  exact congrArg Res.ok (Prod.ext rfl hp)

theorem release_first {st : State} {a x : Block} {rest : List Block}
    (h : Inv st (a :: x :: rest)) (ha : a.status = 1) (hx : x.status = 1) :
    Inv (mm_free st (a.addr + 8)) ({ addr := a.addr, size := a.size, status := 0 } :: x :: rest)
      ∧ (mm_free st (a.addr + 8)).get_block = st.get_block := by
  have h' : Inv st ([] ++ a :: (x :: rest)) := h
  have hi := mm_free_inv h' ha
  have ho := mm_free_out h' ha
  have e : releaseBlocks [] a (x :: rest) =
      { addr := a.addr, size := a.size, status := 0 } :: x :: rest := by
    unfold releaseBlocks coalesceBlocks
    rw [mergeNext_keep (by intro y hy; simp at hy; subst hy; omega)]
    simp only []
    rw [mergePrev_keep (by intro y hy; simp at hy)]
    rfl
  rw [e] at hi
  exact ⟨hi, ho.gb⟩

/-- C22: under first fit on a freshly initialised heap, for all sizes `n1`, `n2`, `m` (each at
most `2 ^ 64 - 48`) whose blocks fit in the initial heap and with
`ROUND_UP(m + 16) ≤ ROUND_UP(n1 + 16)`: `a = mm_malloc(n1)` and `b = mm_malloc(n2)` return,
`b = a + ROUND_UP(n1 + 16)` (the block of `b` starts where the block of `a` ends), and after
`mm_free(a)` the call `mm_malloc(m)` returns `a` again. -/
theorem first_fit_reuses_released_block (d : DataSeg) (mem : Mem) (st0 : State)
    (hlim : d.limit < 2 ^ 64)
    (hinit : mm_init AllocationPolicy.ap_FirstFit d mem = Res.ok st0) (n1 n2 m : Nat)
    (hn1 : n1 ≤ 2 ^ 64 - 48) (hn2 : n2 ≤ 2 ^ 64 - 48) (hm : m ≤ 2 ^ 64 - 48)
    (hfit : blockSizeOf n1 + blockSizeOf n2 ≤ st0.heap_end - st0.heap_start)
    (hle : blockSizeOf m ≤ blockSizeOf n1) (fuel : Nat) (hf : 4 ≤ fuel) :
    ∃ s1 a s2 b s3, mm_malloc fuel st0 n1 = Res.ok (s1, a) ∧ a = st0.heap_start + TYPE_SIZE ∧
      mm_malloc fuel s1 n2 = Res.ok (s2, b) ∧ b = a + blockSizeOf n1 ∧
      mm_malloc fuel (mm_free s2 a) m = Res.ok (s3, a) := by
  obtain ⟨hap, _, hsb, _, hgr, e⟩ := mm_init_ok hinit hlim
  subst e
  have hinv := initState_inv AllocationPolicy.ap_FirstFit d mem hap hsb hgr hlim
  obtain ⟨b1, _, _, _⟩ := blockSizeOf_bounds hn1
  obtain ⟨b2, _, _, _⟩ := blockSizeOf_bounds hn2
  obtain ⟨b3, _, _, _⟩ := blockSizeOf_bounds hm
  obtain ⟨f, rfl⟩ : ∃ f, fuel = f + 1 := ⟨fuel - 1, by omega⟩
  generalize hS : (d.start + 4088) / 32 * 32 - (d.start + 39) / 32 * 32 = S at hinv
  generalize hH : (d.start + 39) / 32 * 32 = H at hinv
  have hfit' : blockSizeOf n1 + blockSizeOf n2 ≤ S := by
    rw [← hS]; exact hfit
  have hhs : (initState AllocationPolicy.ap_FirstFit d mem).heap_start = H := hH
  -- first allocation
  have hinv0 : Inv (initState AllocationPolicy.ap_FirstFit d mem)
      ([] ++ { addr := H, size := S, status := 0 } :: []) := hinv
  obtain ⟨s1, r1, i1, g1⟩ := @mm_malloc_found _ [] [] _ n1 f hinv0
    (by
      show List.find? (fits (blockSizeOf n1)) [{ addr := H, size := S, status := 0 }] = _
      have : fits (blockSizeOf n1) { addr := H, size := S, status := 0 } = true :=
        (fits_iff _ _).2 ⟨rfl, by show blockSizeOf n1 ≤ S; omega⟩
      simp [List.find?, this])
    (by omega) (by simp; omega)
  have hpl : placeBlocks { addr := H, size := S, status := 0 } (blockSizeOf n1) =
      [{ addr := H, size := blockSizeOf n1, status := 1 },
       { addr := H + blockSizeOf n1, size := S - blockSizeOf n1, status := 0 }] := by
    unfold placeBlocks
    rw [if_pos (show blockSizeOf n1 < S by omega)]
    rfl
  rw [hpl] at i1
  -- second allocation
  have hinv1 : Inv s1 ([{ addr := H, size := blockSizeOf n1, status := 1 }] ++
      { addr := H + blockSizeOf n1, size := S - blockSizeOf n1, status := 0 } :: []) := i1
  have g1' : s1.get_block = AllocationPolicy.ap_FirstFit := g1
  obtain ⟨s2, r2, i2, g2⟩ := @mm_malloc_found _ _ [] _ n2 f hinv1
    (by
      rw [g1']
      show List.find? (fits (blockSizeOf n2)) _ = _
      have t1 : fits (blockSizeOf n2) { addr := H, size := blockSizeOf n1, status := 1 }
          = false := by simp [fits, FREE]
      have t2 : fits (blockSizeOf n2)
          { addr := H + blockSizeOf n1, size := S - blockSizeOf n1, status := 0 } = true :=
        (fits_iff _ _).2 ⟨rfl, by show blockSizeOf n2 ≤ S - blockSizeOf n1; omega⟩
      simp [List.find?, t1, t2])
    (by omega) (by simp; omega)
  -- release of the first block
  rw [placeBlocks_eq] at i2
  have hinv2 : Inv s2 ({ addr := H, size := blockSizeOf n1, status := 1 } ::
      { addr := H + blockSizeOf n1, size := blockSizeOf n2, status := ALLOC } ::
      (placeRest { addr := H + blockSizeOf n1, size := S - blockSizeOf n1, status := 0 }
        (blockSizeOf n2) ++ [])) := i2
  obtain ⟨i3, g3⟩ := release_first hinv2 rfl rfl
  have g3' : (mm_free s2 (H + 8)).get_block = AllocationPolicy.ap_FirstFit := by
    rw [show (mm_free s2 (H + 8)).get_block = s2.get_block from g3, g2]; exact g1'
  -- third allocation
  have hlen : (placeRest { addr := H + blockSizeOf n1, size := S - blockSizeOf n1, status := 0 }
      (blockSizeOf n2)).length ≤ 1 := by
    unfold placeRest; split_ifs <;> simp
  have hinv3 : Inv (mm_free s2 (H + 8)) ([] ++
      { addr := H, size := blockSizeOf n1, status := 0 } ::
      ({ addr := H + blockSizeOf n1, size := blockSizeOf n2, status := ALLOC } ::
      (placeRest { addr := H + blockSizeOf n1, size := S - blockSizeOf n1, status := 0 }
        (blockSizeOf n2) ++ []))) := i3
  obtain ⟨s3, r3, _, _⟩ := @mm_malloc_found _ [] _ _ m f hinv3
    (by
      rw [g3']
      show List.find? (fits (blockSizeOf m)) _ = _
      have t1 : fits (blockSizeOf m) { addr := H, size := blockSizeOf n1, status := 0 }
          = true := (fits_iff _ _).2 ⟨rfl, hle⟩
      simp [List.find?, t1])
    (by omega) (by simp; omega)
  refine ⟨s1, H + 8, s2, H + blockSizeOf n1 + 8, s3, r1, ?_, r2, by omega, r3⟩
  rw [hhs]; rfl

theorem bxReach : Reach bxS [bxR6.2, bxR5.2, bxR4.2, bxR3.2, bxR2.2, bxR1.2] :=
  Reach.free (Reach.free (Reach.free (Reach.malloc (Reach.malloc (Reach.malloc (Reach.malloc
    (Reach.malloc (Reach.malloc
    (Reach.init (show exD.limit < 2 ^ 64 by decide)
      (mm_init_eq AllocationPolicy.ap_BestFit exD exM (by intro n h; cases h) (by decide) rfl
        (by decide) (by decide) (by decide)))
    (by decide) (show mm_malloc 8 bxS0 64 = Res.ok (bxR1.1, bxR1.2) by rfl))
    (by decide) (show mm_malloc 8 bxR1.1 16 = Res.ok (bxR2.1, bxR2.2) by rfl))
    (by decide) (show mm_malloc 8 bxR2.1 128 = Res.ok (bxR3.1, bxR3.2) by rfl))
    (by decide) (show mm_malloc 8 bxR3.1 16 = Res.ok (bxR4.1, bxR4.2) by rfl))
    (by decide) (show mm_malloc 8 bxR4.1 32 = Res.ok (bxR5.1, bxR5.2) by rfl))
    (by decide) (show mm_malloc 8 bxR5.1 3632 = Res.ok (bxR6.1, bxR6.2) by rfl))
    (by simp)) (by simp)) (by simp)

theorem bxBlocks : heap_blocks bxS =
    some [{ addr := 4128, size := 96, status := 0 }, { addr := 4224, size := 32, status := 1 },
      { addr := 4256, size := 160, status := 0 }, { addr := 4416, size := 32, status := 1 },
      { addr := 4448, size := 64, status := 0 }, { addr := 4512, size := 3648, status := 1 }] := by
  decide

theorem bestFrom_unique {size : Nat} {bs : List Block} {f : Block} (hf : f ∈ bs)
    (hfit : fits size f = true)
    (hmin : ∀ x ∈ bs, fits size x = true → x ≠ f → f.size < x.size) :
    bestFrom size none bs = some f := by
  cases hr : bestFrom size none bs with
  | none => exact absurd hfit ((bestFrom_none_iff size bs).1 hr f hf)
  | some r =>
    rcases bestFrom_spec size bs none r hr with ⟨e, _⟩ | ⟨pre, post, hl, hfr, _, hp, hq⟩
    · cases e
    · by_cases hrf : r = f
      · rw [hrf]
      · have hrm : r ∈ bs := by rw [hl]; simp
        have h1 := hmin r hrm hfr hrf
        rw [hl] at hf
        rcases List.mem_append.1 hf with h2 | h2
        · have := hp f h2 hfit; omega
        · rcases List.mem_cons.1 h2 with h2 | h2
          · exact absurd h2.symm hrf
          · have := hq f h2 hfit; omega

/-- C23: under best fit, on a well-formed heap whose FREE blocks in scan order are the blocks
of usable size 64, 128 and 32 (the blocks that hold a 64-byte, a 128-byte and a 32-byte
allocation: block sizes `ROUND_UP(64 + 16) = 96`, `ROUND_UP(128 + 16) = 160` and
`ROUND_UP(32 + 16) = 64`), `mm_malloc(20)` returns the payload of the 32-sized block, which is
not the payload of the 64-sized or of the 128-sized block. -/
theorem best_fit_scenario_takes_smallest (st : State) (hwf : WellFormed st)
    (hpol : st.get_block = AllocationPolicy.ap_BestFit) (bs : List Block)
    (hbs : heap_blocks st = some bs) (f1 f2 f3 : Block)
    (hfree : bs.filter (fun b => decide (b.status = FREE)) = [f1, f2, f3])
    (h1 : f1.size = blockSizeOf 64) (h2 : f2.size = blockSizeOf 128)
    (h3 : f3.size = blockSizeOf 32) (fuel : Nat) (hf : bs.length < fuel) :
    (blockSizeOf 64 = 96 ∧ blockSizeOf 128 = 160 ∧ blockSizeOf 32 = 64) ∧
      (∃ st', mm_malloc fuel st 20 = Res.ok (st', f3.addr + TYPE_SIZE)) ∧
      f3.addr + TYPE_SIZE ≠ f1.addr + TYPE_SIZE ∧ f3.addr + TYPE_SIZE ≠ f2.addr + TYPE_SIZE := by
  obtain ⟨bs0, hinv⟩ := hwf
  have e0 := heap_blocks_unique hinv hbs
  subst e0
  obtain ⟨g, rfl⟩ : ∃ g, fuel = g + 1 := ⟨fuel - 1, by omega⟩
  have e64 : blockSizeOf 64 = 96 := by decide
  have e128 : blockSizeOf 128 = 160 := by decide
  have e32 : blockSizeOf 32 = 64 := by decide
  have e20 : blockSizeOf 20 = 64 := by decide
  rw [e64] at h1
  rw [e128] at h2
  rw [e32] at h3
  have hmem : ∀ x, x ∈ bs0 ∧ x.status = FREE ↔ x = f1 ∨ x = f2 ∨ x = f3 := by
    intro x
    have : x ∈ bs0.filter (fun b => decide (b.status = FREE)) ↔
        x ∈ bs0 ∧ decide (x.status = FREE) = true := List.mem_filter
    rw [hfree] at this
    simp only [List.mem_cons, List.mem_singleton, List.not_mem_nil, or_false,
      decide_eq_true_eq] at this
    exact this.symm
  have m1 := (hmem f1).2 (Or.inl rfl)
  have m2 := (hmem f2).2 (Or.inr (Or.inl rfl))
  have m3 := (hmem f3).2 (Or.inr (Or.inr rfl))
  have t3 := (Chain.mem_tagged hinv.chain m3.1).1.1
  have d1 := Chain.disjoint hinv.chain m3.1 m1.1 (by intro e; rw [e] at h3; omega)
  have d2 := Chain.disjoint hinv.chain m3.1 m2.1 (by intro e; rw [e] at h3; omega)
  refine ⟨⟨e64, e128, e32⟩, ?_, by omega, by omega⟩
  have hc : bestFrom (blockSizeOf 20) none bs0 = some f3 := by
    refine bestFrom_unique m3.1 ((fits_iff _ _).2 ⟨m3.2, by rw [e20, h3]⟩) ?_
    intro x hx hfx hne
    obtain ⟨q1, q2⟩ := (fits_iff _ _).1 hfx
    rcases (hmem x).1 ⟨hx, q1⟩ with e | e | e
    · rw [e, h1, h3]; omega
    · rw [e, h2, h3]; omega
    · exact absurd e hne
  obtain ⟨pre, post, hl⟩ := List.append_of_mem m3.1
  subst hl
  obtain ⟨st', r, _, _⟩ := @mm_malloc_found st pre post f3 20 g hinv
    (by rw [hpol]; exact hc) (by rw [e20]; omega) (by omega)
  exact ⟨st', r⟩

theorem best_fit_scenario_takes_smallest_witness :
    (blockSizeOf 64 = 96 ∧ blockSizeOf 128 = 160 ∧ blockSizeOf 32 = 64) ∧
      (∃ st', mm_malloc 7 bxS 20 =
        Res.ok (st', ({ addr := 4448, size := 64, status := 0 } : Block).addr + TYPE_SIZE)) ∧
      ({ addr := 4448, size := 64, status := 0 } : Block).addr + TYPE_SIZE ≠
        ({ addr := 4128, size := 96, status := 0 } : Block).addr + TYPE_SIZE ∧
      ({ addr := 4448, size := 64, status := 0 } : Block).addr + TYPE_SIZE ≠
        ({ addr := 4256, size := 160, status := 0 } : Block).addr + TYPE_SIZE :=
  best_fit_scenario_takes_smallest bxS (Reachable.wellFormed ⟨_, bxReach⟩) rfl _ bxBlocks
    { addr := 4128, size := 96, status := 0 } { addr := 4256, size := 160, status := 0 }
    { addr := 4448, size := 64, status := 0 } (by decide) (by decide) (by decide) (by decide) 7
    (by decide)

theorem exBlocks3 : heap_blocks exS3 =
    some [{ addr := 4128, size := 64, status := 0 }, { addr := 4192, size := 64, status := 1 },
      { addr := 4256, size := 3904, status := 0 }] := by
  decide

theorem malloc_payload_is_header_past_aligned_block_witness :
    (∀ fuel st' p, mm_malloc fuel exS0 40 = Res.ok (st', p) →
      (p - TYPE_SIZE) % BS = 0 ∧ p % BS = TYPE_SIZE ∧ p % 8 = 0) ∧
    (40 ≤ 2 ^ 64 - 48 → ∀ k, blockSizeOf 40 ≤ CHUNKSIZE * k →
      exS0.ds.brk + CHUNKSIZE * k ≤ exS0.ds.limit →
      ∃ N, ∀ fuel, N ≤ fuel → ∃ st' p, mm_malloc fuel exS0 40 = Res.ok (st', p) ∧
        p % BS = TYPE_SIZE) :=
  malloc_payload_is_header_past_aligned_block exS0 ⟨_, exReach0⟩ 40

/-- C21, the claim as stated fails: on the freshly initialised heap `mm_malloc(40)` returns
4136, which is 8 modulo 32 and not a multiple of 32. -/
theorem malloc_payload_alignment_counterexample :
    Reachable exS0 ∧ (∃ st', mm_malloc 3 exS0 40 = Res.ok (st', 4136)) ∧ 4136 % BS = 8 :=
  ⟨⟨_, exReach0⟩, ⟨exS1, by rfl⟩, by decide⟩

theorem first_fit_reuses_released_block_witness :
    ∃ s1 a s2 b s3, mm_malloc 4 fxS0 10 = Res.ok (s1, a) ∧ a = fxS0.heap_start + TYPE_SIZE ∧
      mm_malloc 4 s1 10 = Res.ok (s2, b) ∧ b = a + blockSizeOf 10 ∧
      mm_malloc 4 (mm_free s2 a) 8 = Res.ok (s3, a) :=
  first_fit_reuses_released_block exD exM fxS0 (by decide)
    (mm_init_eq AllocationPolicy.ap_FirstFit exD exM (by intro n h; cases h) (by decide) rfl
      (by decide) (by decide) (by decide))
    10 10 8 (by decide) (by decide) (by decide) (by decide) (by decide) 4 (by decide)

theorem malloc_growth_bound_witness :
    ∃ N, ∀ fuel, N ≤ fuel → ∃ st' p, mm_malloc fuel exS0 5000 = Res.ok (st', p) ∧
      malloc_growths fuel exS0 5000 ≤ (blockSizeOf 5000 + CHUNKSIZE - 1) / CHUNKSIZE ∧
      st'.heap_end = exS0.heap_end + CHUNKSIZE * malloc_growths fuel exS0 5000 :=
  malloc_growth_bound exS0 ⟨_, exReach0⟩ 5000 (by decide) (by decide)

theorem codec_round_trip_witness :
    SIZE (PACK 64 1) = 64 ∧ STATUS (PACK 64 1) = 1 ∧
      PACK (SIZE (2 ^ 64 - 1)) (STATUS (2 ^ 64 - 1)) = 2 ^ 64 - 1 :=
  codec_round_trip 64 1 (2 ^ 64 - 1) (by decide) (by decide) (by decide) (by decide)

theorem malloc_does_not_overlap_witness :
    ∃ N, ∀ fuel, N ≤ fuel → ∃ st' p, mm_malloc fuel exS2 100 = Res.ok (st', p) ∧
      st'.heap_start ≤ p - TYPE_SIZE ∧ p - TYPE_SIZE + blockSizeOf 100 ≤ st'.heap_end ∧
      st'.heap_start ≤ p ∧ p + 100 ≤ st'.heap_end ∧
      (∀ a, p - TYPE_SIZE ≤ a → a < p - TYPE_SIZE + blockSizeOf 100 →
        exS2.heap_end ≤ a ∨
          ∃ f ∈ [{ addr := 4128, size := 64, status := 1 },
            { addr := 4192, size := 64, status := 1 },
            ({ addr := 4256, size := 3904, status := 0 } : Block)],
            f.status = FREE ∧ f.addr ≤ a ∧ a < f.addr + f.size) ∧
      ∀ x ∈ [{ addr := 4128, size := 64, status := 1 },
          { addr := 4192, size := 64, status := 1 },
          ({ addr := 4256, size := 3904, status := 0 } : Block)], x.status = ALLOC →
        (p - TYPE_SIZE + blockSizeOf 100 ≤ x.addr ∨ x.addr + x.size ≤ p - TYPE_SIZE) ∧
        (p + 100 ≤ x.addr + TYPE_SIZE ∨ x.addr + x.size - TYPE_SIZE ≤ p) :=
  malloc_does_not_overlap exS2 ⟨_, exReach2⟩ _ exBlocks2 100 (by decide) 1 (by decide)
    (by decide)

theorem alloc_and_release_keep_other_blocks_witness :
    (∀ size, size ≤ 2 ^ 64 - 48 → ∀ k, blockSizeOf size ≤ CHUNKSIZE * k →
      exS2.ds.brk + CHUNKSIZE * k ≤ exS2.ds.limit →
      ∃ N, ∀ fuel, N ≤ fuel → ∃ st' p bs', mm_malloc fuel exS2 size = Res.ok (st', p) ∧
        heap_blocks st' = some bs' ∧
        ∀ x ∈ [{ addr := 4128, size := 64, status := 1 },
            { addr := 4192, size := 64, status := 1 },
            ({ addr := 4256, size := 3904, status := 0 } : Block)], x.status = ALLOC →
          x ∈ bs' ∧ ∀ a, x.addr ≤ a → a < x.addr + x.size → st'.mem a = exS2.mem a) ∧
    (∀ b ∈ [{ addr := 4128, size := 64, status := 1 },
        { addr := 4192, size := 64, status := 1 },
        ({ addr := 4256, size := 3904, status := 0 } : Block)], b.status = ALLOC →
      ∃ bs', heap_blocks (mm_free exS2 (b.addr + TYPE_SIZE)) = some bs' ∧
        ∀ x ∈ [{ addr := 4128, size := 64, status := 1 },
            { addr := 4192, size := 64, status := 1 },
            ({ addr := 4256, size := 3904, status := 0 } : Block)], x.status = ALLOC →
          x ≠ b → x ∈ bs' ∧
          ∀ a, x.addr ≤ a → a < x.addr + x.size →
            (mm_free exS2 (b.addr + TYPE_SIZE)).mem a = exS2.mem a) :=
  alloc_and_release_keep_other_blocks exS2 ⟨_, exReach2⟩ _ exBlocks2

theorem alloc_then_release_round_trip_witness :
    heap_blocks (mm_free rxR.1 rxR.2) =
        some [{ addr := 4128, size := 64, status := 0 },
          { addr := 4192, size := 64, status := 1 },
          { addr := 4256, size := 3904, status := 0 }] ∧
      (mm_free rxR.1 rxR.2).heap_start = exS3.heap_start ∧
      (mm_free rxR.1 rxR.2).heap_end = exS3.heap_end :=
  alloc_then_release_round_trip exS3 (Reachable.wellFormed ⟨_, exReach3⟩) _ exBlocks3 100
    (by decide) 4 rxR.1 rxR.2 (by rfl) (by decide)

theorem heap_inside_provider_region_witness :
    (exS2.ds_heap_start = exS2.ds.start ∧ exS2.ds_heap_brk = exS2.ds.brk ∧
      TYPE_SIZE ≤ exS2.heap_start ∧ exS2.ds_heap_start ≤ exS2.heap_start - TYPE_SIZE ∧
      exS2.heap_end + TYPE_SIZE ≤ exS2.ds_heap_brk ∧
      ∃ bs, heap_blocks exS2 = some bs ∧
        ∀ b ∈ bs, exS2.ds_heap_start + TYPE_SIZE ≤ b.addr ∧
          b.addr + b.size + TYPE_SIZE ≤ exS2.ds_heap_brk) ∧
    (∀ st', expand_heap exS2 = Res.ok st' →
      st'.ds_heap_start = st'.ds.start ∧ st'.ds_heap_brk = st'.ds.brk ∧
      st'.ds_heap_start ≤ st'.heap_start - TYPE_SIZE ∧
      st'.heap_end + TYPE_SIZE ≤ st'.ds_heap_brk ∧
      st'.heap_end = exS2.heap_end + CHUNKSIZE) :=
  heap_inside_provider_region exS2 ⟨_, exReach2⟩

/-- C11, the claim as stated fails for a block size that wraps to zero: on the fresh heap the
policy returns the FREE block at 4128 of size 4032 for the computed block size
`blockSizeOf (2 ^ 64 - 16) = 0`, and `4032 - 0` is at least 32, so the split branch runs; but
afterwards the word at 4128, where the FREE remainder of size 4032 should start immediately
after the zero-size ALLOCATED block, is `PACK(0, ALLOC)`, while the remainder's footer at 8152
is `PACK(4032, FREE)`: header and footer differ, and the heap walk fails. -/
theorem malloc_split_counterexample :
    heap_blocks exS0 = some [{ addr := 4128, size := 4032, status := FREE }] ∧
      blockSizeOf (2 ^ 64 - 16) = 0 ∧
      call_get_block 2 exS0 (blockSizeOf (2 ^ 64 - 16)) = Res.ok (withCursor exS0 4128, 4128) ∧
      BS ≤ 4032 - blockSizeOf (2 ^ 64 - 16) ∧
      mm_malloc 3 exS0 (2 ^ 64 - 16) = Res.ok (oxR.1, 4128 + TYPE_SIZE) ∧
      GET oxR.1.mem (4128 + blockSizeOf (2 ^ 64 - 16)) = PACK 0 ALLOC ∧
      GET oxR.1.mem (4128 + 4032 - TYPE_SIZE) = PACK 4032 FREE ∧
      heap_blocks oxR.1 = none :=
  ⟨by decide, by decide, by rfl, by decide, by rfl, by decide, by decide, by decide⟩

/-- C29, the claim as stated fails for a block size that wraps to zero: on the fresh
(well-formed) heap `mm_malloc(2 ^ 64 - 16)` returns 4136 without growing the heap, and after
`mm_free(4136)` the heap walk fails instead of yielding the previous block list. -/
theorem alloc_release_round_trip_counterexample :
    WellFormed exS0 ∧
      heap_blocks exS0 = some [{ addr := 4128, size := 4032, status := FREE }] ∧
      mm_malloc 3 exS0 (2 ^ 64 - 16) = Res.ok (oxR.1, 4136) ∧
      oxR.1.heap_end = exS0.heap_end ∧
      heap_blocks (mm_free oxR.1 4136) = none :=
  ⟨Reachable.wellFormed ⟨_, exReach0⟩, by decide, by rfl, by decide, by decide⟩

end MemMgr
